import Mathlib

/-!
# GraphReduce: the sharded Gather-Apply-Scatter engine of `gpugas.h`

A shallow embedding of the host-side code of `GASEngineGPU` and of the
per-slot code of `GASEngineGPUShard`.

Conventions of the embedding.

* A C array is a `List`; a read outside the list yields the default value
  (`List.getD`; `0` for integers), a write outside the list is dropped
  (`List.set`).  The one store outside an array that the code performs on
  every run, that of the planner past `shardMapTmp`, is kept: the memory of
  that array is modelled with the word after it (`planInit`).
* The machine type `Int` of the template (`int32_t`) is modelled by the
  integers.  The one quantity the code lets grow beyond its inputs, the
  budget line `maxEdgesPerShardTmp` of the planner (line 1419), is reduced to
  32 bits after every addition (`wrapInt32`).  Quantities the code only ever
  counts up from zero (`numShards`, the entries of `shardMapTmp` and
  `vertexShardMap`, loop counters) are naturals.
* A pointer that may be null is an `Option`, and a read through the null
  pointer is a fault (`none`).
* Loops whose trip count is not known in advance (`do ... while` of the
  planner, `while` of `run`) take a fuel argument and return an `Option`.
-/

namespace GraphReduce

/-! ## Array helpers -/

/-- Read `a[i]` of an integer array. -/
def rdI (a : List Int) (i : Nat) : Int := a.getD i 0

/-- Read `a[i]` of an array of naturals. -/
def rdN (a : List Nat) (i : Nat) : Nat := a.getD i 0

/-! ## The shard planner of `GASEngineGPU::setGraph` (lines 1398-1469) -/

/-- The bisection loop of `std::upper_bound` over `a[first, first+len)`:
`half = len >> 1; middle = first + half;` if `val < *middle` keep the left
half, else continue right of `middle`. -/
def upperBoundLoop (a : List Int) (val : Int) : Nat → Nat → Nat → Nat
  | 0, first, _ => first
  | fuel + 1, first, len =>
    if len = 0 then first
    else
      let half := len / 2
      let middle := first + half
      if val < rdI a middle then upperBoundLoop a val fuel first half
      else upperBoundLoop a val fuel (middle + 1) (len - half - 1)

/-- The call `std::upper_bound(a, a + a.length, val) - a`: the index of the
first element greater than `val` (`a.length` when there is none). -/
def upper_bound (a : List Int) (val : Int) : Nat :=
  upperBoundLoop a val a.length 0 a.length

/-- Line 1399-1400: `edgesPerVertexTmpScan[i] = srcOffsetsTmp[i] + dstOffsetsTmp[i]`
for `i` in `[0, nVertices + 1)`. -/
def edgesPerVertexTmpScan (nVertices : Nat) (srcOffsetsTmp dstOffsetsTmp : List Int) :
    List Int :=
  (List.range (nVertices + 1)).map (fun i => rdI srcOffsetsTmp i + rdI dstOffsetsTmp i)

/-- Reduction of an integer to the range of the 32-bit two's-complement
machine type `Int` (`int32_t`). -/
def wrapInt32 (x : Int) : Int := (x + 2147483648) % 4294967296 - 2147483648

/-- The inner loop `for(; i < pos; ++i) shardMapTmp[i] = numShards;` run for
`n` iterations starting at index `i`, on the memory of `planInit`: the
`nVertices` entries of the array followed by the word after it.  In the last
round `pos` is `nVertices + 1`, and the loop stores at index `nVertices`, in
that word. -/
def fillShard (numShards : Nat) : Nat → Nat → List Nat → List Nat
  | 0, _, m => m
  | n + 1, i, m => fillShard numShards n (i + 1) (m.set i numShards)

/-- The variables the planning loop updates.  `shardMapTmp` is the memory at
the pointer of that name: the array and the word after it, see `planInit`. -/
structure PlanState where
  i : Nat
  numShards : Nat
  maxEdgesPerShardTmp : Int
  shardMapTmp : List Nat
  deriving DecidableEq, Repr

/-- The `do { ... } while(posTmp != edgesPerVertexTmpScan + nVertices + 1)` loop
of lines 1407-1420.  `scan` is `edgesPerVertexTmpScan` (of length
`nVertices + 1`), `B` is `maxEdgesPerShard`.  Line 1419,
`maxEdgesPerShardTmp += maxEdgesPerShard`, is an addition of the machine type
`Int`. -/
def planLoop (scan : List Int) (B : Int) : Nat → PlanState → Option PlanState
  | 0, _ => none
  | fuel + 1, st =>
    let pos := upper_bound scan st.maxEdgesPerShardTmp
    let st1 : PlanState :=
      { i := max st.i pos
        numShards := st.numShards + 1
        maxEdgesPerShardTmp := wrapInt32 (st.maxEdgesPerShardTmp + B)
        shardMapTmp := fillShard st.numShards (pos - st.i) st.i st.shardMapTmp }
    if pos ≠ scan.length then planLoop scan B fuel st1 else some st1

/-- The state in which the loop is entered on a freshly constructed engine
(`numShards(0)` in the constructor; `i = 0`; `maxEdgesPerShardTmp = maxEdgesPerShard`).
`cpuAlloc(shardMapTmp, nVertices)` allocates `nVertices` entries; the memory
of the model is these entries followed by the word after them, which is not
part of the array and which the store of the last round overwrites
(`fillShard`, `setGraphWrites`). -/
def planInit (nVertices : Nat) (B : Int) : PlanState :=
  { i := 0, numShards := 0, maxEdgesPerShardTmp := B,
    shardMapTmp := List.replicate (nVertices + 1) 0 }

/-- Add `d` to entry `j` of an integer array (`a[j] += d`). -/
def addAtI (a : List Int) (j : Nat) (d : Int) : List Int := a.set j (rdI a j + d)

/-- Add `d` to entry `j` of an array of naturals (`a[j] += d`). -/
def addAtN (a : List Nat) (j : Nat) (d : Nat) : List Nat := a.set j (rdN a j + d)

/-- The three shard tables, in the order `vertexShardMap`, `edgeShardMapCSR`,
`edgeShardMapCSC`, with `maxVerticesPerShard`. -/
structure ShardTables where
  vertexShardMap : List Nat
  edgeShardMapCSR : List Int
  edgeShardMapCSC : List Int
  maxVerticesPerShard : Nat
  deriving DecidableEq, Repr

/-- One iteration of the loop of lines 1436-1441 (the per-shard histogram). -/
def histStep (shardMapTmp : List Nat) (srcOffsetsTmp dstOffsetsTmp : List Int)
    (t : ShardTables) (i : Nat) : ShardTables :=
  { t with
    vertexShardMap := addAtN t.vertexShardMap (rdN shardMapTmp i + 1) 1
    edgeShardMapCSC := addAtI t.edgeShardMapCSC (rdN shardMapTmp i + 1)
      (rdI srcOffsetsTmp (i + 1) - rdI srcOffsetsTmp i)
    edgeShardMapCSR := addAtI t.edgeShardMapCSR (rdN shardMapTmp i + 1)
      (rdI dstOffsetsTmp (i + 1) - rdI dstOffsetsTmp i) }

/-- One iteration of the loop of lines 1444-1450 (the in-place prefix sum). -/
def scanStep (t : ShardTables) (i : Nat) : ShardTables :=
  { vertexShardMap := addAtN t.vertexShardMap i (rdN t.vertexShardMap (i - 1))
    edgeShardMapCSR := addAtI t.edgeShardMapCSR i (rdI t.edgeShardMapCSR (i - 1))
    edgeShardMapCSC := addAtI t.edgeShardMapCSC i (rdI t.edgeShardMapCSC (i - 1))
    maxVerticesPerShard :=
      if t.maxVerticesPerShard > rdN t.vertexShardMap i then t.maxVerticesPerShard
      else rdN t.vertexShardMap i }

/-- Lines 1429-1450: allocate and zero the tables, histogram, prefix sum. -/
def buildTables (nVertices numShards : Nat) (shardMapTmp : List Nat)
    (srcOffsetsTmp dstOffsetsTmp : List Int) : ShardTables :=
  let t0 : ShardTables :=
    { vertexShardMap := List.replicate (numShards + 1) 0
      edgeShardMapCSR := List.replicate (numShards + 1) 0
      edgeShardMapCSC := List.replicate (numShards + 1) 0
      maxVerticesPerShard := 0 }
  let t1 := (List.range nVertices).foldl (histStep shardMapTmp srcOffsetsTmp dstOffsetsTmp) t0
  (List.range' 1 numShards).foldl scanStep t1

/-- The local offset arrays under construction, with the running counter `k`. -/
structure LocalOffsets where
  srcOffsets : List Int
  dstOffsets : List Int
  k : Nat
  deriving DecidableEq, Repr

/-- The body of the inner loop of lines 1462-1468, at shard `i` and index `j`. -/
def localInner (t : ShardTables) (shardMapTmp : List Nat)
    (srcOffsetsTmp dstOffsetsTmp : List Int) (i : Nat) (l : LocalOffsets) (j : Nat) :
    LocalOffsets :=
  { srcOffsets := l.srcOffsets.set (j + i + 1)
      (rdI srcOffsetsTmp (l.k + 1) - rdI t.edgeShardMapCSC (rdN shardMapTmp l.k))
    dstOffsets := l.dstOffsets.set (j + i + 1)
      (rdI dstOffsetsTmp (l.k + 1) - rdI t.edgeShardMapCSR (rdN shardMapTmp l.k))
    k := l.k + 1 }

/-- The body of the outer loop of lines 1457-1469, at shard `i`. -/
def localOuter (t : ShardTables) (shardMapTmp : List Nat)
    (srcOffsetsTmp dstOffsetsTmp : List Int) (l : LocalOffsets) (i : Nat) : LocalOffsets :=
  let l0 : LocalOffsets :=
    { srcOffsets := l.srcOffsets.set (rdN t.vertexShardMap i + i) 0
      dstOffsets := l.dstOffsets.set (rdN t.vertexShardMap i + i) 0
      k := l.k }
  (List.range' (rdN t.vertexShardMap i)
      (rdN t.vertexShardMap (i + 1) - rdN t.vertexShardMap i)).foldl
    (localInner t shardMapTmp srcOffsetsTmp dstOffsetsTmp i) l0

/-- Lines 1452-1469: the local (per-shard, rebased) offset arrays, each of
`nVertices + numShards` entries. -/
def buildLocalOffsets (nVertices numShards : Nat) (t : ShardTables) (shardMapTmp : List Nat)
    (srcOffsetsTmp dstOffsetsTmp : List Int) : LocalOffsets :=
  (List.range numShards).foldl (localOuter t shardMapTmp srcOffsetsTmp dstOffsetsTmp)
    { srcOffsets := List.replicate (nVertices + numShards) 0
      dstOffsets := List.replicate (nVertices + numShards) 0
      k := 0 }

/-- The shard plan `setGraph` leaves in the engine. -/
structure ShardPlan where
  nVertices : Nat
  numShards : Nat
  maxVerticesPerShard : Nat
  shardMapTmp : List Nat
  vertexShardMap : List Nat
  edgeShardMapCSR : List Int
  edgeShardMapCSC : List Int
  srcOffsets : List Int
  dstOffsets : List Int
  deriving DecidableEq, Repr

/-- The planning part of `GASEngineGPU::setGraph` (lines 1398-1469) on a freshly
constructed engine: `srcOffsetsTmp` and `dstOffsetsTmp` are the global CSC
and CSR offset arrays (`nVertices + 1` entries each), `B` is
`maxEdgesPerShard`.  `none` when the planning loop does not finish within
`fuel` rounds.  The array `shardMapTmp` of the plan is the first `nVertices`
entries of the loop's memory.  The store of the last round into the word
after the array is undefined behaviour of the code; the plan is what the
lines after the loop compute when that word is unused memory, and
`setGraphWrites` records the store. -/
def setGraph (fuel : Nat) (nVertices : Nat) (srcOffsetsTmp dstOffsetsTmp : List Int)
    (B : Int) : Option ShardPlan :=
  match planLoop (edgesPerVertexTmpScan nVertices srcOffsetsTmp dstOffsetsTmp) B fuel
      (planInit nVertices B) with
  | none => none
  | some st =>
    let shardMapTmp := st.shardMapTmp.take nVertices
    let t := buildTables nVertices st.numShards shardMapTmp srcOffsetsTmp dstOffsetsTmp
    let l := buildLocalOffsets nVertices st.numShards t shardMapTmp
      srcOffsetsTmp dstOffsetsTmp
    some
      { nVertices := nVertices
        numShards := st.numShards
        maxVerticesPerShard := t.maxVerticesPerShard
        shardMapTmp := shardMapTmp
        vertexShardMap := t.vertexShardMap
        edgeShardMapCSR := t.edgeShardMapCSR
        edgeShardMapCSC := t.edgeShardMapCSC
        srcOffsets := l.srcOffsets
        dstOffsets := l.dstOffsets }

/-- The indices at which the planning loop writes `shardMapTmp` (the store
`shardMapTmp[i] = numShards` of the inner loop, line 1415), in the order of
the writes; `none` when the loop does not finish within `fuel` rounds.  The
loop is that of `planLoop`, with the indices recorded. -/
def planWrites (scan : List Int) (B : Int) : Nat → PlanState → Option (List Nat)
  | 0, _ => none
  | fuel + 1, st =>
    let pos := upper_bound scan st.maxEdgesPerShardTmp
    let st1 : PlanState :=
      { i := max st.i pos
        numShards := st.numShards + 1
        maxEdgesPerShardTmp := wrapInt32 (st.maxEdgesPerShardTmp + B)
        shardMapTmp := fillShard st.numShards (pos - st.i) st.i st.shardMapTmp }
    if pos ≠ scan.length then
      (planWrites scan B fuel st1).map (fun ws => List.range' st.i (pos - st.i) ++ ws)
    else some (List.range' st.i (pos - st.i))

/-- The indices of `shardMapTmp` written by `setGraph` on a freshly constructed
engine. -/
def setGraphWrites (fuel : Nat) (nVertices : Nat) (srcOffsetsTmp dstOffsetsTmp : List Int)
    (B : Int) : Option (List Nat) :=
  planWrites (edgesPerVertexTmpScan nVertices srcOffsetsTmp dstOffsetsTmp) B fuel
    (planInit nVertices B)

/-! ## Data of the engine -/

/-- Read `a[i]` for a machine integer index `i`; an index below zero lies
outside the array. -/
def rdZ (a : List Int) (i : Int) : Int := if 0 ≤ i then rdI a i.toNat else 0

/-- Read `a[i]` of an array of vertex or edge states for a machine integer
index `i`; a read outside the array yields the default value of the type. -/
def rdD {α : Type} [Inhabited α] (a : List α) (i : Int) : α :=
  if 0 ≤ i then a.getD i.toNat default else default

/-- The pointer `a + off` viewed as an array. -/
def view {α : Type} (a : List α) (off : Int) : List α := a.drop off.toNat

/-- A copy of the `n` entries at `a + off` (`copyToGPUAsync(dst, a + off, n, ..)`). -/
def stage {α : Type} (a : List α) (off n : Int) : List α := (a.drop off.toNat).take n.toNat

/-- The vertex program: the static members of the template argument
`Program`.  `zeroBytes` is the `GatherResult` all of whose bytes are zero,
which is what `cudaMemset(gatherTmp, 0, ..)` leaves in every entry. -/
structure Program (VD ED GR : Type) where
  gatherZero : GR
  gatherMap : VD → VD → ED → GR
  gatherReduce : GR → GR → GR
  apply : VD → GR → VD × Bool
  zeroBytes : GR

/-- The fields of `GASEngineGPU` the host code reads and writes.
`sortEdgesForGather` is the template argument of that name; `s2vMapDevice`
and `v2sMapDevice` are the device copies of `vertexShardMap` and
`shardMapTmp` made at the end of `setGraph` and are not kept apart. -/
structure Engine (VD ED GR : Type) where
  sortEdgesForGather : Bool
  nVertices : Nat
  nEdges : Nat
  numShards : Nat
  maxVerticesPerShard : Nat
  vertexShardMap : List Nat
  edgeShardMapCSR : List Int
  edgeShardMapCSC : List Int
  shardMapTmp : List Nat
  nActiveShardMap : List Int
  vertexDataExist : Bool
  edgeDataExist : Bool
  vertexData : List VD
  edgeData : List ED
  srcs : List Int
  srcOffsets : List Int
  edgeIndexCSC : List Int
  dsts : List Int
  dstOffsets : List Int
  edgeIndexCSR : List Int
  active : List Int
  nActive : Int
  applyRet : List Int
  activeFlags : List Int
  newActiveTmp : List Int
  gatherTmp : List GR

/-- The fields of a `GASEngineGPUShard` slot after `copyGraphIn`.  The arrays
the slot only aliases (`m_active`, `m_applyRet`, `m_gatherTmp`: pointers into
the engine's arrays at offset `vertexShardMap[i]`; `m_vertexData`,
`m_activeFlags`: the engine's arrays themselves) are views; the arrays it
owns hold the staged copies. -/
structure Slot (VD ED GR : Type) where
  m_nVertices : Int
  m_vertexOffset : Int
  m_nActive : Int
  m_nCSREdges : Int
  m_nCSCEdges : Int
  m_vertexData : List VD
  m_edgeData : List ED
  m_srcs : List Int
  m_srcOffsets : List Int
  m_edgeIndexCSC : List Int
  m_dsts : List Int
  m_dstOffsets : List Int
  m_edgeIndexCSR : List Int
  m_active : List Int
  m_applyRet : List Int

/-- The kernels of `gpugas_kernels.cuh`, which the engine launches and whose
code is not part of `gpugas.h`: each is a function of the arguments of its
launch, returning the arrays it may write. -/
structure Kernels (VD ED GR : Type) where
  /-- Launch of line 1531, returning `active`. -/
  kRange : Int → Int → List Int → List Nat → List Nat → List Int
  /-- Launch of line 1628, returning `active`. -/
  fixRangeOut : List Int → Nat → List Nat → List Nat → Nat → List Int
  /-- Launch of line 1637, returning `vertexData` and `applyRet`. -/
  kApply : Program VD ED GR → Int → List Int → List GR → List VD → List Int → Nat →
    List Nat → List Nat → List Int → Nat → List VD × List Int
  /-- Launch of line 1645, returning `active`. -/
  fixRangeIn2 : List Int → Nat → List Nat → List Nat → Nat → List Int
  /-- Launch of line 1747, returning `newActiveTmp`. -/
  fixRangeIn : List Int → List Int → Int → List Nat → List Nat → List Int → Nat → List Int
  /-- Launch of line 744 (`nActive`, `active`, `nActiveEdges`, `edgeCountScan`,
  `srcOffsets`, `srcs`, `vertexData`, `edgeData`, `edgeIndexCSC`,
  `vertexOffset`, and the template flag `!sortEdgesForGather`), returning
  `m_gatherDstsTmp` and `m_gatherMapTmp`. -/
  kGatherMap : Program VD ED GR → Int → List Int → Int → List Int → List Int → List Int →
    List VD → List ED → List Int → Int → Bool → List Int × List GR

/-! ## Library primitives, by their contracts -/

/-- The exclusive prefix sums of `c` (`mgpu::Scan<MgpuScanTypeExc>` with
`plus`): entry `i` is `c[0] + ... + c[i-1]`. -/
def exclScan : List Int → Int → List Int
  | [], _ => []
  | c :: cs, acc => acc :: exclScan cs (acc + c)

/-- The total `mgpu::Scan` stores through its `total` pointer. -/
def scanTotal (c : List Int) : Int := c.foldl (fun acc x => acc + x) 0

/-- The segmented reduction of `mgpu::ReduceByKey`, with the current key and
the running value of the current segment. -/
def reduceByKeyAux {GR : Type} (identity : GR) (op : GR → GR → GR) :
    Int → GR → List (Int × GR) → List GR
  | _, acc, [] => [acc]
  | cur, acc, (k, v) :: rest =>
    if k = cur then reduceByKeyAux identity op cur (op acc v) rest
    else acc :: reduceByKeyAux identity op k (op identity v) rest

/-- The values `mgpu::ReduceByKey` writes to `dataDest_global`: one reduction
per run of equal consecutive keys among the first `count` pairs, in order. -/
def reduceByKey {GR : Type} (keys : List Int) (vals : List GR) (count : Int) (identity : GR)
    (op : GR → GR → GR) : List GR :=
  match (keys.zip vals).take count.toNat with
  | [] => []
  | (k, v) :: rest => reduceByKeyAux identity op k (op identity v) rest

/-- Store `out[0..]` at `a[off..]`. -/
def writeAt {α : Type} (a : List α) (off : Nat) (out : List α) : List α :=
  (List.range out.length).foldl
    (fun a j => match out.get? j with
      | some x => a.set (off + j) x
      | none => a) a

/-- The output functor `ActivateOutputIterator` (lines 818-842): assigning
`dst` to any position does `m_flags[dst] = true`. -/
def activateOutput (flags : List Int) (dst : Int) : List Int :=
  if 0 ≤ dst then flags.set dst.toNat 1 else flags

/-- The primitive `IntervalGather(moveCount, gather, scan, intervalCount, input,
output)`: interval `i` has the length `scan[i+1] - scan[i]` (the last one
`moveCount - scan[i]`) and copies `input[gather[i] + e]` to the output for
every `e` below its length; the output is `ActivateOutputIterator`. -/
def intervalGather (moveCount : Int) (gatherAt : Nat → Int) (scan : List Int)
    (intervalCount : Nat) (input : List Int) (flags : List Int) : List Int :=
  (List.range intervalCount).foldl
    (fun fl i =>
      let len := (if i + 1 < intervalCount then rdI scan (i + 1) else moveCount) - rdI scan i
      (List.range len.toNat).foldl
        (fun fl (e : Nat) => activateOutput fl (rdZ input (gatherAt i + (e : Int)))) fl)
    flags

/-- Modelled from the spec: `scatter_if_inputloc_twophase` of
`primitives/scatter_if_mgpu.h`, the two-phase compact-if: it writes the
indices `v < num` whose flag is set to the front of `output`, in ascending
order, and returns their number. -/
def scatter_if_inputloc_twophase (num : Nat) (flags : List Int) (output : List Int) :
    List Int × Int :=
  let idx := (List.range num).filter (fun v => rdI flags v ≠ 0)
  (writeAt output 0 (idx.map (fun v => (v : Int))), (idx.length : Int))

/-! ## `GASEngineGPU::setActive` and `countActive` (lines 1524-1551) -/

/-- The case analysis of lines 1535-1544 for a shard with the vertex range
`[lo, hi)`. -/
def setActiveCount (vertexStart vertexEnd lo hi : Int) : Int :=
  if vertexStart ≥ lo ∧ vertexEnd ≤ hi then vertexEnd - vertexStart
  else if vertexStart ≥ lo ∧ vertexEnd > hi then hi - vertexStart
  else if vertexStart < lo ∧ vertexEnd ≤ hi then vertexEnd - lo
  else if vertexStart < lo ∧ vertexEnd > hi then hi - lo
  else 0

/-- The loop of lines 1533-1545. -/
def setActiveCounts (vertexStart vertexEnd : Int) (vertexShardMap : List Nat)
    (numShards : Nat) (nActiveShardMap : List Int) : List Int :=
  (List.range numShards).foldl
    (fun m i => m.set i (setActiveCount vertexStart vertexEnd
      (rdN vertexShardMap i) (rdN vertexShardMap (i + 1)))) nActiveShardMap

variable {VD ED GR : Type}

/-- The method `GASEngineGPU::setActive(vertexStart, vertexEnd)`. -/
def setActive (K : Kernels VD ED GR) (vertexStart vertexEnd : Int) (s : Engine VD ED GR) :
    Engine VD ED GR :=
  { s with
    nActive := vertexEnd - vertexStart
    active := K.kRange vertexStart vertexEnd s.active s.vertexShardMap s.shardMapTmp
    nActiveShardMap :=
      setActiveCounts vertexStart vertexEnd s.vertexShardMap s.numShards s.nActiveShardMap }

/-- The method `GASEngineGPU::countActive()`. -/
def countActive (s : Engine VD ED GR) : Int := s.nActive

/-! ## Staging a shard: `copyGraphIn` (lines 456-547) as called at 1577 and 1663 -/

/-- The slot after `shard[i % NUM_STREAMS]->copyGraphIn(..)` for shard `i`.
Only the entries the call copies are kept of the slot's own buffers. -/
def copyGraphIn (s : Engine VD ED GR) (i : Nat) : Slot VD ED GR :=
  let nV : Int := (rdN s.vertexShardMap (i + 1) : Int) - rdN s.vertexShardMap i
  let nCSR := rdI s.edgeShardMapCSR (i + 1) - rdI s.edgeShardMapCSR i
  let nCSC := rdI s.edgeShardMapCSC (i + 1) - rdI s.edgeShardMapCSC i
  let edgeOffsetTmp :=
    if s.sortEdgesForGather then rdI s.edgeShardMapCSR i else rdI s.edgeShardMapCSC i
  { m_nVertices := nV
    m_vertexOffset := rdN s.vertexShardMap i
    m_nActive := rdI s.nActiveShardMap i
    m_nCSREdges := nCSR
    m_nCSCEdges := nCSC
    m_vertexData := if s.vertexDataExist then s.vertexData else []
    m_edgeData :=
      if s.edgeDataExist then
        stage s.edgeData edgeOffsetTmp (if s.sortEdgesForGather then nCSR else nCSC)
      else []
    m_srcs := stage s.srcs (rdI s.edgeShardMapCSC i) nCSC
    m_srcOffsets := stage s.srcOffsets ((rdN s.vertexShardMap i : Int) + i) (nV + 1)
    m_edgeIndexCSC :=
      if s.sortEdgesForGather then [] else stage s.edgeIndexCSC (rdI s.edgeShardMapCSC i) nCSC
    m_dsts := stage s.dsts (rdI s.edgeShardMapCSR i) nCSR
    m_dstOffsets := stage s.dstOffsets ((rdN s.vertexShardMap i : Int) + i) (nV + 1)
    m_edgeIndexCSR :=
      if s.sortEdgesForGather then stage s.edgeIndexCSR (rdI s.edgeShardMapCSR i) nCSR else []
    m_active := view s.active (rdN s.vertexShardMap i)
    m_applyRet := view s.applyRet (rdN s.vertexShardMap i) }

/-! ## Allocating the slots: `GASEngineGPUShard::setGraph` (lines 330-368), as called at 1497 -/

/-- The number of entries `GASEngineGPUShard::setGraph(nVertices, .., nEdges, ..)`
allocates (lines 355-368): `nVertices + 1` for each of `m_srcOffsets` and
`m_dstOffsets`, `nEdges` for each of `m_srcs`, `m_dsts` and the edge index
(and for `m_edgeData`). -/
structure SlotAlloc where
  offsets : Int
  edges : Int
  deriving DecidableEq, Repr

/-- The method `GASEngineGPUShard::setGraph`, as far as the sizes of the buffers go. -/
def shardSetGraph (nVertices nEdges : Int) : SlotAlloc :=
  { offsets := nVertices + 1, edges := nEdges }

/-- The slots as `GASEngineGPU::setGraph` allocates them at line 1497:
`shard[i]->setGraph(maxVerticesPerShard, vertexDataExist, maxEdgesPerShard, edgeDataExist)`. -/
def slotAlloc (p : ShardPlan) (maxEdgesPerShard : Int) : SlotAlloc :=
  shardSetGraph p.maxVerticesPerShard maxEdgesPerShard

/-! ## Gather (lines 626-646, 714-786, 1553-1619) -/

/-- The operator `EdgeCountIterator::operator[]` (lines 635-639). -/
def edgeCount (m_offsets m_active : List Int) (i : Nat) : Int :=
  let active := rdI m_active i
  max (rdZ m_offsets (active + 1) - rdZ m_offsets active) 1

/-- The method `GASEngineGPUShard::gather` on a staged slot (with `haveGather` true):
the values `ReduceByKey` writes at `m_gatherTmp[0..]`. -/
def shardGather (K : Kernels VD ED GR) (P : Program VD ED GR) (sortEdgesForGather : Bool)
    (sl : Slot VD ED GR) : List GR :=
  let counts := (List.range sl.m_nActive.toNat).map (edgeCount sl.m_srcOffsets sl.m_active)
  let m_edgeCountScan := exclScan counts 0
  let nActiveEdges := scanTotal counts
  let (m_gatherDstsTmp, m_gatherMapTmp) :=
    K.kGatherMap P sl.m_nActive sl.m_active nActiveEdges m_edgeCountScan sl.m_srcOffsets
      sl.m_srcs sl.m_vertexData sl.m_edgeData sl.m_edgeIndexCSC sl.m_vertexOffset
      (!sortEdgesForGather)
  reduceByKey m_gatherDstsTmp m_gatherMapTmp nActiveEdges P.gatherZero P.gatherReduce

/-- The body of the loop of lines 1565-1617 for shard `i`, on `gatherTmp`. -/
def gatherStep (K : Kernels VD ED GR) (P : Program VD ED GR) (s : Engine VD ED GR)
    (gatherTmp : List GR) (i : Nat) : List GR :=
  if rdI s.nActiveShardMap i ≠ 0 then
    writeAt gatherTmp (rdN s.vertexShardMap i)
      (shardGather K P s.sortEdgesForGather (copyGraphIn s i))
  else gatherTmp

/-- The method `GASEngineGPU::gather(haveGather)`.  The eviction `copyGraphOut` copies the
staged edge state back to where it was staged from; no code of the slot
writes it in between, so `edgeData` is left as it is. -/
def gather (K : Kernels VD ED GR) (P : Program VD ED GR) (s : Engine VD ED GR)
    (haveGather : Bool) : Engine VD ED GR :=
  if haveGather then
    { s with
      gatherTmp := (List.range s.numShards).foldl (gatherStep K P s)
        (List.replicate s.nVertices P.zeroBytes) }
  else s

/-! ## Apply (lines 1621-1648) -/

/-- The method `GASEngineGPU::apply()`. -/
def apply (K : Kernels VD ED GR) (P : Program VD ED GR) (s : Engine VD ED GR) :
    Engine VD ED GR :=
  if s.nActive ≠ 0 then
    let active1 := K.fixRangeOut s.active s.nVertices s.vertexShardMap s.shardMapTmp s.numShards
    let r := K.kApply P s.nActive active1 s.gatherTmp s.vertexData s.applyRet s.nVertices
      s.vertexShardMap s.shardMapTmp s.nActiveShardMap s.numShards
    let active2 := K.fixRangeIn2 active1 s.nVertices s.vertexShardMap s.shardMapTmp s.numShards
    { s with active := active2, vertexData := r.1, applyRet := r.2 }
  else s

/-! ## Scatter / activate (lines 650-671, 791-842, 942-1013, 1650-1759) -/

/-- The operator `PredicatedEdgeCountIterator::operator[]` (lines 660-664). -/
def predicatedEdgeCount (m_offsets m_active m_predicates : List Int) (i : Nat) : Int :=
  let active := rdI m_active i
  if rdI m_predicates i ≠ 0 then rdZ m_offsets (active + 1) - rdZ m_offsets active else 0

/-- The operator `ActivateGatherIterator::operator[]` (lines 803-806). -/
def activateGather (m_offsets m_active : List Int) (i : Nat) : Int :=
  rdZ m_offsets (rdI m_active i)

/-- The method `GASEngineGPUShard::scatterActivate` on a staged slot, on the engine's
`activeFlags`.  The arguments `activeOffset`, `gnVertices` and `haveScatter` are
not read by the body; the first two are left out. -/
def shardScatterActivate (sl : Slot VD ED GR) (activeFlags : List Int)
    (_haveScatter : Bool) : List Int :=
  let counts := (List.range sl.m_nActive.toNat).map
    (predicatedEdgeCount sl.m_dstOffsets sl.m_active sl.m_applyRet)
  let m_edgeCountScan := exclScan counts 0
  let nActiveEdges := scanTotal counts
  if nActiveEdges = 0 then activeFlags
  else
    intervalGather nActiveEdges (activateGather sl.m_dstOffsets sl.m_active) m_edgeCountScan
      sl.m_nActive.toNat sl.m_dsts activeFlags

/-- The body of the loop of lines 1653-1705 for shard `i`, on `activeFlags`. -/
def scatterStep (s : Engine VD ED GR) (haveScatter : Bool) (activeFlags : List Int)
    (i : Nat) : List Int :=
  if rdI s.nActiveShardMap i ≠ 0 then
    shardScatterActivate (copyGraphIn s i) activeFlags haveScatter
  else activeFlags

/-- The body of the loop of lines 1711-1728 for shard `i`: the total of the
scan of `activeFlags + vertexShardMap[i]` over `num` entries goes to
`nActiveShardMap[i]`. -/
def countStep (s : Engine VD ED GR) (activeFlags : List Int) (m : List Int) (i : Nat) :
    List Int :=
  let num := rdN s.vertexShardMap (i + 1) - rdN s.vertexShardMap i
  m.set i (scanTotal ((view activeFlags (rdN s.vertexShardMap i)).take num))

/-- The method `GASEngineGPU::scatterActivate(haveScatter)`. -/
def scatterActivate (K : Kernels VD ED GR) (s : Engine VD ED GR) (haveScatter : Bool) :
    Engine VD ED GR :=
  let flags := (List.range s.numShards).foldl (scatterStep s haveScatter)
    (List.replicate s.nVertices 0)
  let counts := (List.range s.numShards).foldl (countStep s flags) s.nActiveShardMap
  let c := scatter_if_inputloc_twophase s.nVertices flags s.active
  let s1 : Engine VD ED GR :=
    { s with activeFlags := flags, nActiveShardMap := counts, active := c.1, nActive := c.2 }
  if s1.nActive ≠ 0 then
    let newActiveTmp := K.fixRangeIn s1.newActiveTmp s1.active s1.nActive s1.vertexShardMap
      s1.shardMapTmp s1.nActiveShardMap s1.numShards
    { s1 with newActiveTmp := newActiveTmp, active := newActiveTmp.take s1.nVertices ++
        s1.active.drop s1.nVertices }
  else s1

/-- The method `GASEngineGPU::nextIter()`: returns `nActive`, changes nothing. -/
def nextIter (s : Engine VD ED GR) : Int := s.nActive

/-! ## The run loop (lines 1792-1807) -/

/-- The body of the `while` loop of `run()`. -/
def runBody (K : Kernels VD ED GR) (P : Program VD ED GR) (s : Engine VD ED GR) :
    Engine VD ED GR :=
  scatterActivate K (apply K P (gather K P s true)) true

/-- The `while( countActive() )` loop with the counter `i`; `none` when the
loop does not finish within `fuel` iterations. -/
def runLoop (K : Kernels VD ED GR) (P : Program VD ED GR) :
    Nat → Engine VD ED GR → Int → Option (Engine VD ED GR × Int)
  | 0, s, i => if countActive s ≠ 0 then none else some (s, i)
  | fuel + 1, s, i =>
    if countActive s ≠ 0 then runLoop K P fuel (runBody K P s) (i + 1) else some (s, i)

/-- The method `GASEngineGPU::run()`: the final state and the number `i - 1` it prints
as `Iterations`. -/
def run (K : Kernels VD ED GR) (P : Program VD ED GR) (fuel : Nat) (s : Engine VD ED GR) :
    Option (Engine VD ED GR × Int) :=
  match runLoop K P fuel s 1 with
  | none => none
  | some (s1, i) => some (s1, i - 1)

/-! ## The kernels of `gpugas_kernels.cuh`, modelled from the specification -/

/-- Modelled from the spec: the kernel `kRange` of `gpugas_kernels.cuh` (not
part of `gpugas.h`).  "`setActive(vStart, vEnd)`: mark `[vStart,vEnd)` active;
updates `active` (global, shard-grouped)": the list becomes
`vStart, vStart + 1, ..., vEnd - 1`. -/
def kRangeSpec (vertexStart vertexEnd : Int) (active : List Int) (_s2v _v2s : List Nat) :
    List Int :=
  writeAt active 0
    ((List.range (vertexEnd - vertexStart).toNat).map (fun i => vertexStart + (i : Int)))

/-- Modelled from the spec: the kernel `fixRangeOut` of `gpugas_kernels.cuh`.
"Convert each entry to its shard-local form using the v→shard map (each
entry becomes `v - vertexShardMap[shard(v)]`)". -/
def fixRangeOutSpec (active : List Int) (_nVertices : Nat) (s2v v2s : List Nat)
    (_numShards : Nat) : List Int :=
  active.map (fun v => v - (rdN s2v (rdN v2s v.toNat) : Int))

/-- Modelled from the spec: the kernel `fixRangeIn2` of `gpugas_kernels.cuh`.
"Convert entries back to global indices using shard→v (the entry's position
in the list indicates which shard)". -/
def fixRangeIn2Spec (active : List Int) (_nVertices : Nat) (s2v v2s : List Nat)
    (_numShards : Nat) : List Int :=
  (List.range active.length).map (fun p => rdI active p + (rdN s2v (rdN v2s p) : Int))

/-- Modelled from the spec: the kernel `fixRangeIn` of `gpugas_kernels.cuh`.
"Index fix-up: rebuild a shard-grouped form such that consecutive positions
belong to the same shard in ascending shard order (they already do, because
compaction preserves order and shard ranges are contiguous)": the compacted
list is copied. -/
def fixRangeInSpec (newActiveTmp active : List Int) (nActive : Int) (_s2v _v2s : List Nat)
    (_active2s : List Int) (_numShards : Nat) : List Int :=
  writeAt newActiveTmp 0 (active.take nActive.toNat)

/-- Modelled from the spec: one thread of the kernel `kApply` of
`gpugas_kernels.cuh`.  "For each `i` in `[0, nActive)`, let `v = active[i]`.
Compute `changed = apply(vertexData[v], gatherTmp[v])` (mutates
`vertexData[v]`).  Store `applyRet[v] = changed ? 1 : 0`." -/
def kApplyStep {VD ED GR : Type} (P : Program VD ED GR) (active : List Int)
    (gatherTmp : List GR) (st : List VD × List Int) (i : Nat) : List VD × List Int :=
  let v := (rdI active i).toNat
  match st.1.get? v, gatherTmp.get? v with
  | some vd, some g =>
    let r := P.apply vd g
    (st.1.set v r.1, st.2.set v (if r.2 then 1 else 0))
  | _, _ => st

/-- Modelled from the spec: the kernel `kApply` of `gpugas_kernels.cuh`, see
`kApplyStep`. -/
def kApplySpec {VD ED GR : Type} (P : Program VD ED GR) (nActive : Int) (active : List Int)
    (gatherTmp : List GR) (vertexData : List VD) (applyRet : List Int) (_nVertices : Nat)
    (_s2v _v2s : List Nat) (_active2s : List Int) (_numShards : Nat) :
    List VD × List Int :=
  (List.range nActive.toNat).foldl (kApplyStep P active gatherTmp) (vertexData, applyRet)

/-- Modelled from the spec: the value the kernel `kGatherMap` of
`gpugas_kernels.cuh` computes for in-edge `e` of the shard-local vertex `a`.
"With `s = srcs[srcOffsetsLocal[a]+e]`, `eid = (sortEdgesForGather ?
srcOffsetsLocal[a]+e : edgeIndexCSC[..])`: `gatherMap(vertexData[s],
vertexData[a_global], edgeData[eid])`", where `a_global` is `a` biased by the
shard's `vertexOffset`.  The three reads are array reads (`rdD`). -/
def gatherMapAt {VD ED GR : Type} [Inhabited VD] [Inhabited ED] (P : Program VD ED GR)
    (srcOffsets srcs : List Int) (vertexData : List VD) (edgeData : List ED)
    (edgeIndexCSC : List Int) (vertexOffset : Int) (indirect : Bool) (a : Int) (e : Nat) : GR :=
  let pos := rdZ srcOffsets a + (e : Int)
  let s := rdZ srcs pos
  let eid := if indirect then rdZ edgeIndexCSC pos else pos
  P.gatherMap (rdD vertexData s) (rdD vertexData (a + vertexOffset)) (rdD edgeData eid)

/-- Modelled from the spec: the pairs the kernel `kGatherMap` emits for the
active vertex at position `i`.  "If vertex `a = localActive[i]` has in-degree
0: emit `(a_global, gatherZero)`.  Else emit `(a_global, gatherMap(..))`" for
each of its in-edges, see `gatherMapAt`. -/
def gatherMapBlock {VD ED GR : Type} [Inhabited VD] [Inhabited ED] (P : Program VD ED GR)
    (active srcOffsets srcs : List Int)
    (vertexData : List VD) (edgeData : List ED) (edgeIndexCSC : List Int)
    (vertexOffset : Int) (indirect : Bool) (i : Nat) : List (Int × GR) :=
  let a := rdI active i
  let deg := rdZ srcOffsets (a + 1) - rdZ srcOffsets a
  if deg ≤ 0 then [(a + vertexOffset, P.gatherZero)]
  else
    (List.range deg.toNat).map (fun e =>
      (a + vertexOffset,
        gatherMapAt P srcOffsets srcs vertexData edgeData edgeIndexCSC vertexOffset indirect
          a e))

/-- Modelled from the spec: the kernel `kGatherMap` of `gpugas_kernels.cuh`:
the pairs of all active positions in order, keys and values apart. -/
def kGatherMapSpec {VD ED GR : Type} [Inhabited VD] [Inhabited ED] (P : Program VD ED GR)
    (nActive : Int)
    (active : List Int) (_nActiveEdges : Int) (_edgeCountScan : List Int)
    (srcOffsets srcs : List Int) (vertexData : List VD) (edgeData : List ED)
    (edgeIndexCSC : List Int) (vertexOffset : Int) (indirect : Bool) :
    List Int × List GR :=
  let pairs := (List.range nActive.toNat).flatMap
    (gatherMapBlock P active srcOffsets srcs vertexData edgeData edgeIndexCSC vertexOffset
      indirect)
  (pairs.map Prod.fst, pairs.map Prod.snd)

/-- The kernels as the specification describes them. -/
def specKernels (VD ED GR : Type) [Inhabited VD] [Inhabited ED] : Kernels VD ED GR :=
  { kRange := kRangeSpec
    fixRangeOut := fixRangeOutSpec
    kApply := kApplySpec
    fixRangeIn2 := fixRangeIn2Spec
    fixRangeIn := fixRangeInSpec
    kGatherMap := kGatherMapSpec }

/-! ## The edge index arrays and the sorting of the edge state (lines 1346-1380 of `GASEngineGPU::setGraph`) -/

/-- The two edge index pointers of the engine; `none` is the null pointer
the constructor leaves in both (`edgeIndexCSC(0)`, `edgeIndexCSR(0)`). -/
structure EdgeIndex where
  edgeIndexCSC : Option (List Int)
  edgeIndexCSR : Option (List Int)
  deriving DecidableEq, Repr

/-- Lines 1346-1349 on a freshly constructed engine:
`if( sortEdgesForGather ) cpuAlloc(edgeIndexCSR, nEdges); else cpuAlloc(edgeIndexCSC, nEdges);`.
One of the two arrays is allocated, the other pointer stays null. -/
def allocEdgeIndex (sortEdgesForGather : Bool) (nEdges : Nat) : EdgeIndex :=
  if sortEdgesForGather then
    { edgeIndexCSC := none, edgeIndexCSR := some (List.replicate nEdges 0) }
  else
    { edgeIndexCSC := some (List.replicate nEdges 0), edgeIndexCSR := none }

/-- The index pointers after the calls of `edgeListToCSC` (line 1359) and
`edgeListToCSR` (line 1371), which are handed `&edgeIndexCSC[0]` and
`&edgeIndexCSR[0]`.  The two functions are not part of `gpugas.h`; the
permutations they compute, `cscIndex` and `csrIndex`, are parameters, and they
are stored where the pointer is an allocated array. -/
def fillEdgeIndex (a : EdgeIndex) (cscIndex csrIndex : List Int) : EdgeIndex :=
  { edgeIndexCSC := a.edgeIndexCSC.map (fun _ => cscIndex)
    edgeIndexCSR := a.edgeIndexCSR.map (fun _ => csrIndex) }

/-- The loop `for(i = 0; i < nEdges; ++i) edgeData[i] = edgeDataHost[ edgeIndex[i] ];`
of lines 1366-1367 and 1378-1379, reading the permutation through the pointer
`edgeIndex`: `none` when a read goes through the null pointer. -/
def sortLoop {ED : Type} [Inhabited ED] (nEdges : Nat) (edgeDataHost : List ED)
    (edgeIndex : Option (List Int)) : Option (List ED) :=
  match edgeIndex with
  | some idx =>
    some ((List.range nEdges).map (fun i => edgeDataHost.getD (rdI idx i).toNat default))
  | none => if nEdges = 0 then some [] else none

/-- Lines 1346-1380 as far as the edge state goes: with `sortEdgesForGather` the
edge state is put into CSC order through `edgeIndexCSC` (line 1367, "sort edge
data into CSC order to avoid an indirected read in gather"), otherwise into
CSR order through `edgeIndexCSR` (line 1379).  `none` when the run faults. -/
def sortEdgeData {ED : Type} [Inhabited ED] (sortEdgesForGather : Bool) (nEdges : Nat)
    (edgeDataHost : List ED) (cscIndex csrIndex : List Int) : Option (List ED) :=
  let idx := fillEdgeIndex (allocEdgeIndex sortEdgesForGather nEdges) cscIndex csrIndex
  if sortEdgesForGather then sortLoop nEdges edgeDataHost idx.edgeIndexCSC
  else sortLoop nEdges edgeDataHost idx.edgeIndexCSR

/-! ## The engine after `setGraph` -/

/-- The engine `setGraph` leaves for the plan `p`, given the topology arrays
the ingest built (`srcs`, `dsts`, the two edge permutations) and the vertex
and edge state as the engine holds them.  Of the two edge permutations the
engine keeps the one `allocEdgeIndex` allocates; the other array is empty.
The arrays `setGraph` only allocates are zero-filled here. -/
def engineOf {VD ED GR : Type} (P : Program VD ED GR) (sortEdgesForGather : Bool)
    (p : ShardPlan) (srcs dsts edgeIndexCSC edgeIndexCSR : List Int)
    (vertexData : List VD) (edgeData : List ED) : Engine VD ED GR :=
  { sortEdgesForGather := sortEdgesForGather
    nVertices := p.nVertices
    nEdges := srcs.length
    numShards := p.numShards
    maxVerticesPerShard := p.maxVerticesPerShard
    vertexShardMap := p.vertexShardMap
    edgeShardMapCSR := p.edgeShardMapCSR
    edgeShardMapCSC := p.edgeShardMapCSC
    shardMapTmp := p.shardMapTmp
    nActiveShardMap := List.replicate p.numShards 0
    vertexDataExist := true
    edgeDataExist := true
    vertexData := vertexData
    edgeData := edgeData
    srcs := srcs
    srcOffsets := p.srcOffsets
    edgeIndexCSC := if sortEdgesForGather then [] else edgeIndexCSC
    dsts := dsts
    dstOffsets := p.dstOffsets
    edgeIndexCSR := if sortEdgesForGather then edgeIndexCSR else []
    active := List.replicate p.nVertices 0
    nActive := 0
    applyRet := List.replicate p.nVertices 0
    activeFlags := List.replicate p.nVertices 0
    newActiveTmp := List.replicate p.nVertices 0
    gatherTmp := List.replicate p.nVertices P.zeroBytes }

/-! ## Auxiliary definitions: invariants, loops in closed form, examples -/

/-- An integer array is non-decreasing. -/
def NonDecreasing (a : List Int) : Prop := a.Pairwise (fun x y => x ≤ y)

instance (a : List Int) : Decidable (NonDecreasing a) := by
  unfold NonDecreasing
  infer_instance

/-- The invariant of the planning loop at the head of a round, as long as
no addition of line 1419 overflows: `numShards` rounds are done, the budget
line is `(numShards + 1) * B`, the vertices below `i` are assigned, round `k`
received the vertices whose prefix weight lies in `(k*B, (k+1)*B]` (round `0`:
in `(-inf, B]`), and `i` is where the previous search stopped. -/
structure PlanInv (scan : List Int) (B : Int) (V : Nat) (st : PlanState) : Prop where
  len : st.shardMapTmp.length = V + 1
  target : st.maxEdgesPerShardTmp = ((st.numShards : Int) + 1) * B
  i_le : st.i ≤ V + 1
  i_zero : st.numShards = 0 → st.i = 0
  below : ∀ j, j < st.i → rdI scan j ≤ st.maxEdgesPerShardTmp - B
  above : 1 ≤ st.numShards → ∀ j, st.i ≤ j → j < V + 1 →
    st.maxEdgesPerShardTmp - B < rdI scan j
  shard_lt : ∀ v, v < st.i → v < V → rdN st.shardMapTmp v < st.numShards
  mono : ∀ v w, v ≤ w → w < st.i → w < V → rdN st.shardMapTmp v ≤ rdN st.shardMapTmp w
  weight : ∀ v, v < st.i → v < V →
    rdI scan v ≤ ((rdN st.shardMapTmp v : Int) + 1) * B ∧
    (1 ≤ rdN st.shardMapTmp v → (rdN st.shardMapTmp v : Int) * B < rdI scan v)

/-- No addition of line 1419 overflows: the largest budget line the loop
computes, `(K + 1) * B` after its last round, where `K = max(1, ceil(W / B))` is
the number of rounds for the total weight `W`, is a value of the machine
type. -/
def NoOverflow (W B : Int) : Prop := (max 1 ((W + B - 1) / B) + 1) * B ≤ 2147483647

instance (W B : Int) : Decidable (NoOverflow W B) := by
  unfold NoOverflow
  infer_instance

/-- The state after one round of the planning loop. -/
def planRound (scan : List Int) (B : Int) (st : PlanState) : PlanState :=
  { i := max st.i (upper_bound scan st.maxEdgesPerShardTmp)
    numShards := st.numShards + 1
    maxEdgesPerShardTmp := wrapInt32 (st.maxEdgesPerShardTmp + B)
    shardMapTmp := fillShard st.numShards (upper_bound scan st.maxEdgesPerShardTmp - st.i)
      st.i st.shardMapTmp }

/-- The loop `for i in [0,n): a[f i] += d i`. -/
def accumLoop {α : Type} [AddCommMonoid α] (f : Nat → Nat) (d : Nat → α) (n : Nat)
    (a : List α) : List α :=
  (List.range n).foldl (fun a i => a.set (f i) (a.getD (f i) 0 + d i)) a

/-- The loop `for i in [1, n]: a[i] += a[i-1]`. -/
def inclScanLoop {α : Type} [AddCommMonoid α] (n : Nat) (a : List α) : List α :=
  (List.range' 1 n).foldl (fun a i => a.set i (a.getD i 0 + a.getD (i - 1) 0)) a

/-- The facts about a finished plan from which the claims are derived. -/
structure PlanFacts (V : Nat) (src dst : List Int) (B : Int) (p : ShardPlan) : Prop where
  nV : p.nVertices = V
  K_pos : 1 ≤ p.numShards
  sm_len : p.shardMapTmp.length = V
  sm_lt : ∀ v, v < V → rdN p.shardMapTmp v < p.numShards
  sm_mono : ∀ v w, v ≤ w → w < V → rdN p.shardMapTmp v ≤ rdN p.shardMapTmp w
  sm_weight : ∀ v, v < V →
    rdI src v + rdI dst v ≤ ((rdN p.shardMapTmp v : Int) + 1) * B ∧
    (1 ≤ rdN p.shardMapTmp v →
      (rdN p.shardMapTmp v : Int) * B < rdI src v + rdI dst v)
  tables : buildTables V p.numShards p.shardMapTmp src dst =
    { vertexShardMap := p.vertexShardMap, edgeShardMapCSR := p.edgeShardMapCSR,
      edgeShardMapCSC := p.edgeShardMapCSC, maxVerticesPerShard := p.maxVerticesPerShard }
  offsets : buildLocalOffsets V p.numShards
      (buildTables V p.numShards p.shardMapTmp src dst) p.shardMapTmp src dst =
    { srcOffsets := p.srcOffsets, dstOffsets := p.dstOffsets, k :=
      (buildLocalOffsets V p.numShards
        (buildTables V p.numShards p.shardMapTmp src dst) p.shardMapTmp src dst).k }

/-- The writes `a[pos + t] = g (k + t)` for `t` in `[0, n)`. -/
def writeRun (g : Nat → Int) (pos k n : Nat) (a : List Int) : List Int :=
  (List.range n).foldl (fun a t => a.set (pos + t) (g (k + t))) a

/-- The invariant of the outer loop for one of the two local offset arrays:
the slices of the shards below `n` are final. -/
def SliceInv (vsm : List Nat) (tmp emap : List Int) (L n : Nat) (a : List Int) : Prop :=
  a.length = L ∧
  ∀ i, i < n → ∀ j, j ≤ rdN vsm (i + 1) - rdN vsm i →
    rdI a (rdN vsm i + i + j) = rdI tmp (rdN vsm i + j) - rdI emap i

/-- Every entry of a flag array is `0` or `1`. -/
def AllBits (flags : List Int) : Prop := ∀ v, rdI flags v = 0 ∨ rdI flags v = 1

/-- The flag array after Phase A (the loop of lines 1653-1705). -/
def phaseA (s : Engine VD ED GR) (haveScatter : Bool) : List Int :=
  (List.range s.numShards).foldl (scatterStep s haveScatter) (List.replicate s.nVertices 0)

/-- The per-shard counts after Phase B (the loop of lines 1711-1728). -/
def phaseB (s : Engine VD ED GR) (flags : List Int) : List Int :=
  (List.range s.numShards).foldl (countStep s flags) s.nActiveShardMap

/-- A vertex program over integer vertex state used in the examples: Gather
sums the states of the in-neighbours, Apply adds the sum to the state and
returns `ret`. -/
def sumProgram (ret : Bool) : Program Int Unit Int :=
  { gatherZero := 0
    gatherMap := fun srcV _ _ => srcV
    gatherReduce := fun a b => a + b
    apply := fun vd g => (vd + g, ret)
    zeroBytes := 0 }

/-- The engine after `setGraph` on the four-cycle `0 -> 1 -> 2 -> 3 -> 0` for
the plan `p`. -/
def cycleEngine (p : ShardPlan) : Engine Int Unit Int :=
  engineOf (sumProgram true) true p [3, 0, 1, 2] [1, 2, 3, 0] [3, 0, 1, 2] [0, 1, 2, 3]
    [10, 20, 30, 40] [(), (), (), ()]

/-- The plan `setGraph` makes for the two-vertex graph with the single edge
`1 -> 0` and the budget `B = 10`: one shard. -/
def pairPlan : ShardPlan :=
  { nVertices := 2, numShards := 1, maxVerticesPerShard := 2, shardMapTmp := [0, 0],
    vertexShardMap := [0, 2], edgeShardMapCSR := [0, 1], edgeShardMapCSC := [0, 1],
    srcOffsets := [0, 1, 1], dstOffsets := [0, 0, 1] }

/-- The engine after `setGraph` on the two-vertex graph with the edge
`1 -> 0` and the vertex states `5` and `7`, for the program `sumProgram ret`. -/
def pairEngine (ret : Bool) : Engine Int Unit Int :=
  engineOf (sumProgram ret) true pairPlan [1] [0] [0] [0] [5, 7] [()]

/-- The pairs the spec-modelled `kGatherMap` emits on the slot `sl` for the
active position `i`. -/
def slotBlock [Inhabited VD] [Inhabited ED] (P : Program VD ED GR) (sl : Slot VD ED GR)
    (indirect : Bool) (i : Nat) : List (Int × GR) :=
  gatherMapBlock P sl.m_active sl.m_srcOffsets sl.m_srcs sl.m_vertexData sl.m_edgeData
    sl.m_edgeIndexCSC sl.m_vertexOffset indirect i

/-- The state `edgeData[e]` of the in-edge `e` at the CSC position `q` of the
engine's topology: with `sortEdgesForGather` the engine holds the edge state in
CSC order, otherwise the state is found through `edgeIndexCSC`. -/
def inEdgeState [Inhabited ED] (s : Engine VD ED GR) (q : Int) : ED :=
  rdD s.edgeData (if s.sortEdgesForGather then q else rdZ s.edgeIndexCSC q)

/-- The plan `setGraph` makes for the two-vertex graph with the single edge
`0 -> 1` and the budget `B = 10`: one shard. -/
def arrowPlan : ShardPlan :=
  { nVertices := 2, numShards := 1, maxVerticesPerShard := 2, shardMapTmp := [0, 0],
    vertexShardMap := [0, 2], edgeShardMapCSR := [0, 1], edgeShardMapCSC := [0, 1],
    srcOffsets := [0, 0, 1], dstOffsets := [0, 1, 1] }

/-- Where the slice of shard `k` starts when the slices follow one another:
`nActiveShardMap[0] + ... + nActiveShardMap[k-1]`. -/
def sliceStart (s : Engine VD ED GR) (k : Nat) : Int :=
  ((List.range k).map (rdI s.nActiveShardMap)).sum

/-- The active list is grouped by shard: the per-shard counts are lengths
of consecutive slices that make up the `nActive` entries of the list, the
slice of shard `k` holds vertices of `[vertexShardMap[k], vertexShardMap[k+1])`,
and each slice is ascending. -/
def ActiveGrouped (s : Engine VD ED GR) : Prop :=
  sliceStart s s.numShards = s.nActive ∧
  ∀ k, k < s.numShards →
    0 ≤ rdI s.nActiveShardMap k ∧
    ∀ q : Nat, sliceStart s k ≤ q → (q : Int) < sliceStart s k + rdI s.nActiveShardMap k →
      ((rdN s.vertexShardMap k : Int) ≤ rdI s.active q ∧
        rdI s.active q < rdN s.vertexShardMap (k + 1)) ∧
      ((q : Int) + 1 < sliceStart s k + rdI s.nActiveShardMap k →
        rdI s.active q < rdI s.active (q + 1))

/-- The plan `setGraph` makes for the four-cycle with the budget `B = 3`:
the shards `[0,2)`, `[2,4)` and the empty `[4,4)`. -/
def cyclePlan : ShardPlan :=
  { nVertices := 4, numShards := 3, maxVerticesPerShard := 2, shardMapTmp := [0, 0, 1, 1],
    vertexShardMap := [0, 2, 4, 4], edgeShardMapCSR := [0, 2, 4, 4],
    edgeShardMapCSC := [0, 2, 4, 4], srcOffsets := [0, 1, 2, 0, 1, 2, 0],
    dstOffsets := [0, 1, 2, 0, 1, 2, 0] }

/-- No staging copy of `copyGraphIn` exceeds the buffers `a` of the slot: the
copies into `m_dsts` and `m_edgeIndexCSR` have `m_nCSREdges` entries, those
into `m_srcs` and `m_edgeIndexCSC` have `m_nCSCEdges`, those into the two
offset arrays have `m_nVertices + 1`. -/
def CopyFits (a : SlotAlloc) (sl : Slot VD ED GR) : Prop :=
  sl.m_nCSREdges ≤ a.edges ∧ sl.m_nCSCEdges ≤ a.edges ∧ sl.m_nVertices + 1 ≤ a.offsets

instance (a : SlotAlloc) (sl : Slot VD ED GR) : Decidable (CopyFits a sl) := by
  unfold CopyFits
  infer_instance

/-- The plan `setGraph` makes with the budget `B = 3` for the graph on five
vertices with the edges `0 -> 2`, `1 -> 2`, `1 -> 3`, `1 -> 4`: the shards
`[0,2)`, `[2,4)` and `[4,5)`. -/
def fanPlan : ShardPlan :=
  { nVertices := 5, numShards := 3, maxVerticesPerShard := 2, shardMapTmp := [0, 0, 1, 1, 2],
    vertexShardMap := [0, 2, 4, 5], edgeShardMapCSR := [0, 4, 4, 4],
    edgeShardMapCSC := [0, 0, 3, 4], srcOffsets := [0, 0, 0, 0, 2, 3, 0, 1],
    dstOffsets := [0, 1, 4, 0, 0, 0, 0, 0] }

/-- The engine after `setGraph` on that graph. -/
def fanEngine : Engine Int Unit Int :=
  engineOf (sumProgram true) true fanPlan [0, 1, 1, 1] [2, 2, 3, 4] [0, 1, 2, 3] [0, 1, 2, 3]
    [1, 2, 3, 4, 5] [(), (), (), ()]

/-- The count of Scatter as the specification words it: predicated on the
`applyRet` entry at the vertex id `a = m_active[i]`, where the source reads
the entry at the list position `i` (`predicatedEdgeCount`). -/
def predicatedEdgeCountByVertex (m_offsets m_active applyRet : List Int) (i : Nat) : Int :=
  let a := rdI m_active i
  if rdZ applyRet a ≠ 0 then rdZ m_offsets (a + 1) - rdZ m_offsets a else 0

/-- The engine on the two-vertex graph with the edge `1 -> 0` in a state in
which vertex `1` is the only active vertex (position `0` of the list of the
only shard), with the given `applyRet` array. -/
def pairState (applyRet : List Int) : Engine Int Unit Int :=
  { pairEngine true with
    nActive := 1, nActiveShardMap := [1], active := [1, 0], applyRet := applyRet }

/-- The destination ids the slot's `scatterActivate` hands to the output
functor, in order: for every active position `i` the entries
`m_dsts[m_dstOffsets[a_i] + e]`, `e < c_i`; none when the total of the counts
is `0`. -/
def activatedDsts (sl : Slot VD ED GR) : List Int :=
  if scanTotal ((List.range sl.m_nActive.toNat).map
      (predicatedEdgeCount sl.m_dstOffsets sl.m_active sl.m_applyRet)) = 0 then []
  else
    (List.range sl.m_nActive.toNat).flatMap (fun i =>
      (List.range (predicatedEdgeCount sl.m_dstOffsets sl.m_active sl.m_applyRet i).toNat).map
        (fun (e : Nat) => rdZ sl.m_dsts (activateGather sl.m_dstOffsets sl.m_active i + (e : Int))))

/-- The destination ids of the activation of shard `i` in the state `s`. -/
def stepDsts (s : Engine VD ED GR) (i : Nat) : List Int :=
  if rdI s.nActiveShardMap i ≠ 0 then activatedDsts (copyGraphIn s i) else []

/-- The values the Gather pass of shard `i` writes at `gatherTmp + vertexShardMap[i]`
(none when the shard is skipped). -/
def gatherOut (K : Kernels VD ED GR) (P : Program VD ED GR) (s : Engine VD ED GR) (i : Nat) :
    List GR :=
  if rdI s.nActiveShardMap i ≠ 0 then shardGather K P s.sortEdgesForGather (copyGraphIn s i)
  else []

/-- The engine on the four-cycle with `B = 3` (shards `[0,2)`, `[2,4)`, `[4,4)`) in
a state in which all four vertices are active: the per-shard counts are
`2, 2, 0`, and the slice of each shard holds its vertices as shard-local ids. -/
def cycleActiveState : Engine Int Unit Int :=
  { cycleEngine cyclePlan with
    nActive := 4, nActiveShardMap := [2, 2, 0], active := [0, 1, 0, 1] }

/-! ## Lemmas on array reads and writes -/

theorem rdI_set (a : List Int) (i j : Nat) (x : Int) :
    rdI (a.set i x) j = if i = j ∧ i < a.length then x else rdI a j := by
  unfold rdI
  simp only [List.getD_eq_getElem?_getD, List.getElem?_set]
  by_cases h : i = j
  · subst h
    by_cases h2 : i < a.length
    · simp [h2]
    · simp [h2]
      rw [List.getElem?_eq_none (by omega)]
      rfl
  · simp [h]

theorem rdN_set (a : List Nat) (i j : Nat) (x : Nat) :
    rdN (a.set i x) j = if i = j ∧ i < a.length then x else rdN a j := by
  unfold rdN
  simp only [List.getD_eq_getElem?_getD, List.getElem?_set]
  by_cases h : i = j
  · subst h
    by_cases h2 : i < a.length
    · simp [h2]
    · simp [h2]
      rw [List.getElem?_eq_none (by omega)]
      rfl
  · simp [h]

theorem rdI_replicate (n j : Nat) : rdI (List.replicate n 0) j = 0 := by
  unfold rdI
  simp only [List.getD_eq_getElem?_getD, List.getElem?_replicate]
  split <;> rfl

theorem rdN_replicate (n j : Nat) : rdN (List.replicate n 0) j = 0 := by
  unfold rdN
  simp only [List.getD_eq_getElem?_getD, List.getElem?_replicate]
  split <;> rfl

theorem rdI_addAtI (a : List Int) (i j : Nat) (d : Int) :
    rdI (addAtI a i d) j = if i = j ∧ i < a.length then rdI a j + d else rdI a j := by
  unfold addAtI
  rw [rdI_set]
  by_cases h : i = j ∧ i < a.length
  · simp [h, h.1]
  · simp [h]

theorem rdN_addAtN (a : List Nat) (i j : Nat) (d : Nat) :
    rdN (addAtN a i d) j = if i = j ∧ i < a.length then rdN a j + d else rdN a j := by
  unfold addAtN
  rw [rdN_set]
  by_cases h : i = j ∧ i < a.length
  · simp [h, h.1]
  · simp [h]

theorem length_addAtI (a : List Int) (i : Nat) (d : Int) : (addAtI a i d).length = a.length := by
  simp [addAtI]

theorem length_addAtN (a : List Nat) (i : Nat) (d : Nat) : (addAtN a i d).length = a.length := by
  simp [addAtN]

theorem NonDecreasing.rdI_le {a : List Int} (h : NonDecreasing a) {i j : Nat}
    (hij : i ≤ j) (hj : j < a.length) : rdI a i ≤ rdI a j := by
  unfold rdI
  rcases Nat.eq_or_lt_of_le hij with h1 | h1
  · subst h1
    exact le_refl _
  · have hi : i < a.length := by omega
    rw [List.getD_eq_getElem _ _ hi, List.getD_eq_getElem _ _ hj]
    exact (List.pairwise_iff_getElem.mp h) i j hi hj h1

/-! ## `std::upper_bound` -/

theorem upperBoundLoop_spec (a : List Int) (val : Int) (hs : NonDecreasing a) :
    ∀ (fuel first len : Nat), len ≤ fuel → first + len ≤ a.length →
      (∀ j, j < first → rdI a j ≤ val) →
      (∀ j, first + len ≤ j → j < a.length → val < rdI a j) →
      upperBoundLoop a val fuel first len ≤ a.length ∧
      (∀ j, j < upperBoundLoop a val fuel first len → rdI a j ≤ val) ∧
      (∀ j, upperBoundLoop a val fuel first len ≤ j → j < a.length → val < rdI a j) := by
  intro fuel
  induction fuel with
  | zero =>
    intro first len hlen hb hlo hhi
    have : len = 0 := by omega
    subst this
    simp only [upperBoundLoop]
    exact ⟨by omega, hlo, fun j hj hj2 => hhi j (by omega) hj2⟩
  | succ n ih =>
    intro first len hlen hb hlo hhi
    simp only [upperBoundLoop]
    by_cases h0 : len = 0
    · subst h0
      simp only [if_true]
      exact ⟨by omega, hlo, fun j hj hj2 => hhi j (by omega) hj2⟩
    · simp only [h0, if_false]
      have hhalf : len / 2 < len := Nat.div_lt_self (by omega) (by omega)
      by_cases hc : val < rdI a (first + len / 2)
      · simp only [hc, if_true]
        apply ih first (len / 2) (by omega) (by omega) hlo
        intro j hj hj2
        exact lt_of_lt_of_le hc (hs.rdI_le hj hj2)
      · simp only [hc, if_false]
        apply ih (first + len / 2 + 1) (len - len / 2 - 1) (by omega) (by omega)
        · intro j hj
          have h1 : rdI a j ≤ rdI a (first + len / 2) := hs.rdI_le (by omega) (by omega)
          exact le_trans h1 (not_lt.mp hc)
        · intro j hj hj2
          exact hhi j (by omega) hj2

theorem upper_bound_spec (a : List Int) (val : Int) (hs : NonDecreasing a) :
    upper_bound a val ≤ a.length ∧
    (∀ j, j < upper_bound a val → rdI a j ≤ val) ∧
    (∀ j, upper_bound a val ≤ j → j < a.length → val < rdI a j) := by
  unfold upper_bound
  apply upperBoundLoop_spec a val hs a.length 0 a.length (le_refl _) (by omega)
  · intro j hj
    omega
  · intro j hj hj2
    omega

/-! ## The planning loop -/

theorem length_fillShard (r : Nat) : ∀ (n i : Nat) (m : List Nat),
    (fillShard r n i m).length = m.length := by
  intro n
  induction n with
  | zero => intro i m; rfl
  | succ n ih =>
    intro i m
    simp only [fillShard]
    rw [ih]
    simp

theorem rdN_fillShard (r : Nat) : ∀ (n i : Nat) (m : List Nat) (v : Nat),
    rdN (fillShard r n i m) v = if i ≤ v ∧ v < i + n ∧ v < m.length then r else rdN m v := by
  intro n
  induction n with
  | zero =>
    intro i m v
    simp only [fillShard]
    rw [if_neg (by omega)]
  | succ n ih =>
    intro i m v
    simp only [fillShard]
    rw [ih, rdN_set, List.length_set]
    by_cases h1 : i + 1 ≤ v ∧ v < i + 1 + n ∧ v < m.length
    · rw [if_pos h1, if_pos (by omega)]
    · rw [if_neg h1]
      by_cases h2 : i = v ∧ i < m.length
      · rw [if_pos h2, if_pos (by omega)]
      · rw [if_neg h2, if_neg (by omega)]

theorem wrapInt32_eq {x : Int} (h1 : -2147483648 ≤ x) (h2 : x ≤ 2147483647) :
    wrapInt32 x = x := by
  unfold wrapInt32
  omega

/-- Without overflow the budget line computed after `k` finished rounds,
the last of which did not end the loop, fits the machine type. -/
theorem fits_of_noOverflow {W B : Int} (hB : 0 < B) (hov : NoOverflow W B) (k : Nat)
    (hprev : 1 ≤ k → (k : Int) * B < W) : ((k : Int) + 2) * B ≤ 2147483647 := by
  unfold NoOverflow at hov
  have h1 : (k : Int) + 1 ≤ max 1 ((W + B - 1) / B) := by
    rcases Nat.eq_zero_or_pos k with hz | hp
    · subst hz
      simp
    · have hk := hprev hp
      have h2 : (k : Int) + 1 ≤ (W + B - 1) / B := by
        apply Int.le_ediv_of_mul_le hB
        have e : ((k : Int) + 1) * B = (k : Int) * B + B := by ring
        omega
      exact le_trans h2 (le_max_right _ _)
  have h3 : ((k : Int) + 2) * B ≤ (max 1 ((W + B - 1) / B) + 1) * B := by
    apply mul_le_mul_of_nonneg_right _ (le_of_lt hB)
    omega
  exact le_trans h3 hov

theorem planLoop_succ (scan : List Int) (B : Int) (fuel : Nat) (st : PlanState) :
    planLoop scan B (fuel + 1) st =
      if upper_bound scan st.maxEdgesPerShardTmp ≠ scan.length
      then planLoop scan B fuel (planRound scan B st) else some (planRound scan B st) := rfl

theorem planInv_init (scan : List Int) (B : Int) (V : Nat) :
    PlanInv scan B V (planInit V B) where
  len := by simp [planInit]
  target := by simp [planInit]
  i_le := by simp [planInit]
  i_zero := by simp [planInit]
  below := by intro j hj; simp [planInit] at hj
  above := by intro h; simp [planInit] at h
  shard_lt := by intro v hv; simp [planInit] at hv
  mono := by intro v w _ hw; simp [planInit] at hw
  weight := by intro v hv; simp [planInit] at hv

theorem pos_ge_i {scan : List Int} {B : Int} {V : Nat} {st : PlanState}
    (hlen : scan.length = V + 1) (hs : NonDecreasing scan) (hB : 0 < B)
    (inv : PlanInv scan B V st) : st.i ≤ upper_bound scan st.maxEdgesPerShardTmp := by
  obtain ⟨h1, h2, h3⟩ := upper_bound_spec scan st.maxEdgesPerShardTmp hs
  by_contra hlt
  have hlt : upper_bound scan st.maxEdgesPerShardTmp < st.i := by omega
  have ha := h3 _ (le_refl _) (by have := inv.i_le; omega)
  have hb := inv.below _ hlt
  omega

/-- The entries of the loop's memory after one round. -/
theorem rdN_planRound {scan : List Int} {B : Int} {V : Nat} {st : PlanState}
    (hlen : scan.length = V + 1) (hs : NonDecreasing scan)
    (hl : st.shardMapTmp.length = V + 1) (v : Nat) :
    rdN (planRound scan B st).shardMapTmp v =
      if st.i ≤ v ∧ v < upper_bound scan st.maxEdgesPerShardTmp
      then st.numShards else rdN st.shardMapTmp v := by
  obtain ⟨h1, _, _⟩ := upper_bound_spec scan st.maxEdgesPerShardTmp hs
  simp only [planRound]
  rw [rdN_fillShard, hl]
  by_cases hc : st.i ≤ v ∧ v < upper_bound scan st.maxEdgesPerShardTmp
  · rw [if_pos hc, if_pos (by omega)]
  · rw [if_neg hc, if_neg (by omega)]

theorem planInv_round {scan : List Int} {B : Int} {V : Nat} {st : PlanState}
    (hlen : scan.length = V + 1) (hs : NonDecreasing scan) (hB : 0 < B)
    (inv : PlanInv scan B V st) (hfit : st.maxEdgesPerShardTmp + B ≤ 2147483647) :
    PlanInv scan B V (planRound scan B st) := by
  obtain ⟨h1, h2, h3⟩ := upper_bound_spec scan st.maxEdgesPerShardTmp hs
  have hge := pos_ge_i hlen hs hB inv
  have hmax : max st.i (upper_bound scan st.maxEdgesPerShardTmp) =
      upper_bound scan st.maxEdgesPerShardTmp := max_eq_right hge
  have hrd := rdN_planRound (B := B) hlen hs inv.len
  have htgt := inv.target
  have hnn : 0 ≤ ((st.numShards : Int) + 1) * B := by positivity
  have hwrap : (planRound scan B st).maxEdgesPerShardTmp = st.maxEdgesPerShardTmp + B := by
    simp only [planRound]
    exact wrapInt32_eq (by omega) hfit
  constructor
  · simp only [planRound]
    rw [length_fillShard]
    exact inv.len
  · rw [hwrap, htgt]
    simp only [planRound]
    push_cast
    ring
  · simp only [planRound]
    rw [hmax]
    omega
  · intro h
    simp [planRound] at h
  · intro j hj
    rw [hwrap]
    simp only [planRound] at hj
    rw [hmax] at hj
    have := h2 j hj
    omega
  · intro _ j hj hj2
    rw [hwrap]
    simp only [planRound] at hj
    rw [hmax] at hj
    have := h3 j hj (by omega)
    omega
  · intro v hv hvV
    simp only [planRound] at hv
    rw [hmax] at hv
    rw [hrd]
    by_cases hc : st.i ≤ v
    · rw [if_pos ⟨hc, hv⟩]
      simp [planRound]
    · rw [if_neg (by omega)]
      have := inv.shard_lt v (by omega) hvV
      simp only [planRound]
      omega
  · intro v w hvw hw hwV
    simp only [planRound] at hw
    rw [hmax] at hw
    rw [hrd v, hrd w]
    by_cases hc : st.i ≤ w
    · have hw1 : st.i ≤ w ∧ w < upper_bound scan st.maxEdgesPerShardTmp := ⟨hc, hw⟩
      rw [if_pos hw1]
      by_cases hc2 : st.i ≤ v
      · have hv1 : st.i ≤ v ∧ v < upper_bound scan st.maxEdgesPerShardTmp := ⟨hc2, by omega⟩
        rw [if_pos hv1]
      · have hv1 : ¬ (st.i ≤ v ∧ v < upper_bound scan st.maxEdgesPerShardTmp) := by omega
        rw [if_neg hv1]
        have := inv.shard_lt v (by omega) (by omega)
        omega
    · have hw1 : ¬ (st.i ≤ w ∧ w < upper_bound scan st.maxEdgesPerShardTmp) := by omega
      have hv1 : ¬ (st.i ≤ v ∧ v < upper_bound scan st.maxEdgesPerShardTmp) := by omega
      rw [if_neg hw1, if_neg hv1]
      exact inv.mono v w hvw (by omega) hwV
  · intro v hv hvV
    simp only [planRound] at hv
    rw [hmax] at hv
    rw [hrd]
    by_cases hc : st.i ≤ v
    · rw [if_pos ⟨hc, hv⟩]
      have hle := h2 v hv
      refine ⟨by rw [← htgt]; exact hle, ?_⟩
      intro hk
      have := inv.above (by exact_mod_cast hk) v hc (by omega)
      rw [htgt] at this
      have e : ((st.numShards : Int) + 1) * B - B = (st.numShards : Int) * B := by ring
      rw [e] at this
      exact this
    · rw [if_neg (by omega)]
      exact inv.weight v (by omega) hvV

theorem planRound_last {scan : List Int} {B : Int} {V : Nat} {st : PlanState}
    (hlen : scan.length = V + 1) (hs : NonDecreasing scan) (hB : 0 < B)
    (inv : PlanInv scan B V st)
    (hpos : upper_bound scan st.maxEdgesPerShardTmp = scan.length) :
    (planRound scan B st).i = V + 1 := by
  have hge := pos_ge_i hlen hs hB inv
  simp only [planRound]
  rw [max_eq_right hge, hpos, hlen]

/-- The budget line of a round fits the machine type when no addition of
line 1419 overflows. -/
theorem planInv_fit {scan : List Int} {B : Int} {V : Nat} {st : PlanState}
    (hB : 0 < B) (hov : NoOverflow (rdI scan V) B) (inv : PlanInv scan B V st)
    (hprev : 1 ≤ st.numShards → (st.numShards : Int) * B < rdI scan V) :
    st.maxEdgesPerShardTmp + B ≤ 2147483647 := by
  have h := fits_of_noOverflow hB hov st.numShards hprev
  have e : ((st.numShards : Int) + 2) * B = ((st.numShards : Int) + 1) * B + B := by ring
  rw [inv.target]
  omega

/-- What the planning loop leaves when it finishes without overflow: the
invariant, all indices up to `V` visited, and the number of rounds `K`, with
`W[V] <= K * B`, and `(K - 1) * B < W[V]` when `K >= 2`. -/
theorem planLoop_result {scan : List Int} {B : Int} {V : Nat}
    (hlen : scan.length = V + 1) (hs : NonDecreasing scan) (hB : 0 < B)
    (hov : NoOverflow (rdI scan V) B) :
    ∀ (fuel : Nat) (st r : PlanState), PlanInv scan B V st →
      (1 ≤ st.numShards → (st.numShards : Int) * B < rdI scan V) →
      planLoop scan B fuel st = some r →
      PlanInv scan B V r ∧ r.i = V + 1 ∧ 1 ≤ r.numShards ∧
      rdI scan V ≤ (r.numShards : Int) * B ∧
      (2 ≤ r.numShards → ((r.numShards : Int) - 1) * B < rdI scan V) := by
  intro fuel
  induction fuel with
  | zero =>
    intro st r _ _ h
    simp [planLoop] at h
  | succ n ih =>
    intro st r inv hprev h
    rw [planLoop_succ] at h
    obtain ⟨u1, u2, u3⟩ := upper_bound_spec scan st.maxEdgesPerShardTmp hs
    have hfit := planInv_fit hB hov inv hprev
    have ht := inv.target
    by_cases hpos : upper_bound scan st.maxEdgesPerShardTmp = scan.length
    · rw [if_neg (by simpa using hpos)] at h
      have e : planRound scan B st = r := by simpa using h
      subst e
      refine ⟨planInv_round hlen hs hB inv hfit, planRound_last hlen hs hB inv hpos,
        by simp [planRound], ?_, ?_⟩
      · have hV := u2 V (by omega)
        simp only [planRound]
        push_cast
        rw [ht] at hV
        exact hV
      · intro h2
        have h3 : 2 ≤ st.numShards + 1 := h2
        have := hprev (by omega)
        simp only [planRound]
        push_cast
        simpa using this
    · rw [if_pos hpos] at h
      apply ih _ r (planInv_round hlen hs hB inv hfit) _ h
      intro _
      have hV := u3 V (by omega) (by omega)
      simp only [planRound]
      push_cast
      rw [ht] at hV
      exact hV

/-- The planning loop finishes when no addition of line 1419 overflows:
some amount of fuel yields a result. -/
theorem planLoop_terminates {scan : List Int} {B : Int} {V : Nat}
    (hlen : scan.length = V + 1) (hs : NonDecreasing scan) (hB : 0 < B)
    (hov : NoOverflow (rdI scan V) B) :
    ∀ (n : Nat) (st : PlanState), PlanInv scan B V st →
      (1 ≤ st.numShards → (st.numShards : Int) * B < rdI scan V) →
      (rdI scan V - st.maxEdgesPerShardTmp).toNat ≤ n →
      ∃ fuel r, planLoop scan B fuel st = some r := by
  intro n
  induction n with
  | zero =>
    intro st _ _ hn
    refine ⟨1, planRound scan B st, ?_⟩
    rw [planLoop_succ]
    obtain ⟨h1, h2, h3⟩ := upper_bound_spec scan st.maxEdgesPerShardTmp hs
    have hpos : upper_bound scan st.maxEdgesPerShardTmp = scan.length := by
      by_contra hne
      have hlt : upper_bound scan st.maxEdgesPerShardTmp < scan.length := by omega
      have ha := h3 _ (le_refl _) hlt
      have hb : rdI scan (upper_bound scan st.maxEdgesPerShardTmp) ≤ rdI scan V :=
        hs.rdI_le (by omega) (by omega)
      omega
    rw [if_neg (by simpa using hpos)]
  | succ n ih =>
    intro st inv hprev hn
    by_cases hpos : upper_bound scan st.maxEdgesPerShardTmp = scan.length
    · refine ⟨1, planRound scan B st, ?_⟩
      rw [planLoop_succ, if_neg (by simpa using hpos)]
    · obtain ⟨u1, u2, u3⟩ := upper_bound_spec scan st.maxEdgesPerShardTmp hs
      have hfit := planInv_fit hB hov inv hprev
      have ht := inv.target
      have hnn : 0 ≤ ((st.numShards : Int) + 1) * B := by positivity
      have hw : (planRound scan B st).maxEdgesPerShardTmp = st.maxEdgesPerShardTmp + B := by
        simp only [planRound]
        exact wrapInt32_eq (by omega) hfit
      obtain ⟨fuel, r, hr⟩ := ih (planRound scan B st) (planInv_round hlen hs hB inv hfit)
        (by
          intro _
          have hV := u3 V (by omega) (by omega)
          simp only [planRound]
          push_cast
          rw [ht] at hV
          exact hV)
        (by
          rw [hw]
          omega)
      refine ⟨fuel + 1, r, ?_⟩
      rw [planLoop_succ, if_pos hpos]
      exact hr

section Accumulate

variable {α : Type} [AddCommMonoid α]

theorem getD_set_zero (a : List α) (i j : Nat) (x : α) :
    (a.set i x).getD j 0 = if i = j ∧ i < a.length then x else a.getD j 0 := by
  simp only [List.getD_eq_getElem?_getD, List.getElem?_set]
  by_cases h : i = j
  · subst h
    by_cases h2 : i < a.length
    · simp [h2]
    · simp [h2]
      rw [List.getElem?_eq_none (by omega)]
      rfl
  · simp [h]

theorem accumLoop_succ (f : Nat → Nat) (d : Nat → α) (n : Nat) (a : List α) :
    accumLoop f d (n + 1) a =
      (accumLoop f d n a).set (f n) ((accumLoop f d n a).getD (f n) 0 + d n) := by
  simp [accumLoop, List.range_succ, List.foldl_append]

theorem length_accumLoop (f : Nat → Nat) (d : Nat → α) (n : Nat) (a : List α) :
    (accumLoop f d n a).length = a.length := by
  induction n with
  | zero => rfl
  | succ n ih => rw [accumLoop_succ, List.length_set, ih]

theorem getD_accumLoop (f : Nat → Nat) (d : Nat → α) (n : Nat) (a : List α) (j : Nat)
    (hj : j < a.length) :
    (accumLoop f d n a).getD j 0 =
      a.getD j 0 + ∑ i in Finset.range n, if f i = j then d i else 0 := by
  induction n with
  | zero => simp [accumLoop]
  | succ n ih =>
    rw [accumLoop_succ, getD_set_zero, length_accumLoop, Finset.sum_range_succ]
    by_cases h : f n = j
    · subst h
      rw [if_pos ⟨rfl, hj⟩, ih, if_pos rfl, add_assoc]
    · rw [if_neg (by tauto), ih, if_neg h, add_zero]

theorem inclScanLoop_succ (n : Nat) (a : List α) :
    inclScanLoop (n + 1) a =
      (inclScanLoop n a).set (n + 1)
        ((inclScanLoop n a).getD (n + 1) 0 + (inclScanLoop n a).getD n 0) := by
  simp [inclScanLoop, List.range'_concat, List.foldl_append, Nat.add_comm]

theorem length_inclScanLoop (n : Nat) (a : List α) : (inclScanLoop n a).length = a.length := by
  induction n with
  | zero => rfl
  | succ n ih => rw [inclScanLoop_succ, List.length_set, ih]

theorem getD_inclScanLoop (n : Nat) (a : List α) (hn : n < a.length) (j : Nat) :
    (inclScanLoop n a).getD j 0 =
      if j ≤ n then ∑ t in Finset.range (j + 1), a.getD t 0 else a.getD j 0 := by
  induction n generalizing j with
  | zero =>
    by_cases h : j ≤ 0
    · have : j = 0 := by omega
      subst this
      simp [inclScanLoop]
    · rw [if_neg h]
      simp [inclScanLoop]
  | succ n ih =>
    have ih := ih (by omega)
    rw [inclScanLoop_succ, getD_set_zero, length_inclScanLoop]
    by_cases h : n + 1 = j
    · subst h
      rw [if_pos ⟨rfl, hn⟩, if_pos (le_refl _), ih (n + 1), ih n, if_neg (by omega),
        if_pos (le_refl _), Finset.sum_range_succ _ (n + 1), add_comm]
    · rw [if_neg (by tauto), ih j]
      by_cases h2 : j ≤ n
      · rw [if_pos h2, if_pos (by omega)]
      · rw [if_neg h2, if_neg (by omega)]

/-- Summing the histogram of `f + 1` over the bins `0..j` counts the indices
with `f i < j`. -/
theorem sum_hist_below (f : Nat → Nat) (d : Nat → α) (V j : Nat) :
    (∑ t in Finset.range (j + 1), ∑ i in Finset.range V, if f i + 1 = t then d i else 0) =
      ∑ i in Finset.range V, if f i < j then d i else 0 := by
  rw [Finset.sum_comm]
  apply Finset.sum_congr rfl
  intro i _
  rw [Finset.sum_ite_eq]
  by_cases h : f i < j
  · rw [if_pos h, if_pos (by simp; omega)]
  · rw [if_neg h, if_neg (by simp; omega)]

end Accumulate

/-! ## The shard tables in closed form -/

theorem histFold_succ (sm : List Nat) (src dst : List Int) (n : Nat) (t : ShardTables) :
    (List.range (n + 1)).foldl (histStep sm src dst) t =
      histStep sm src dst ((List.range n).foldl (histStep sm src dst) t) n := by
  simp [List.range_succ, List.foldl_append]

theorem histFold_vsm (sm : List Nat) (src dst : List Int) (n : Nat) (t : ShardTables) :
    ((List.range n).foldl (histStep sm src dst) t).vertexShardMap =
      accumLoop (fun i => rdN sm i + 1) (fun _ => 1) n t.vertexShardMap := by
  induction n with
  | zero => rfl
  | succ n ih =>
    rw [histFold_succ, accumLoop_succ, ← ih]
    rfl

theorem histFold_csc (sm : List Nat) (src dst : List Int) (n : Nat) (t : ShardTables) :
    ((List.range n).foldl (histStep sm src dst) t).edgeShardMapCSC =
      accumLoop (fun i => rdN sm i + 1) (fun i => rdI src (i + 1) - rdI src i) n
        t.edgeShardMapCSC := by
  induction n with
  | zero => rfl
  | succ n ih =>
    rw [histFold_succ, accumLoop_succ, ← ih]
    rfl

theorem histFold_csr (sm : List Nat) (src dst : List Int) (n : Nat) (t : ShardTables) :
    ((List.range n).foldl (histStep sm src dst) t).edgeShardMapCSR =
      accumLoop (fun i => rdN sm i + 1) (fun i => rdI dst (i + 1) - rdI dst i) n
        t.edgeShardMapCSR := by
  induction n with
  | zero => rfl
  | succ n ih =>
    rw [histFold_succ, accumLoop_succ, ← ih]
    rfl

theorem scanFold_succ (n : Nat) (t : ShardTables) :
    (List.range' 1 (n + 1)).foldl scanStep t =
      scanStep ((List.range' 1 n).foldl scanStep t) (n + 1) := by
  simp [List.range'_concat, List.foldl_append, Nat.add_comm]

theorem scanFold_vsm (n : Nat) (t : ShardTables) :
    ((List.range' 1 n).foldl scanStep t).vertexShardMap = inclScanLoop n t.vertexShardMap := by
  induction n with
  | zero => rfl
  | succ n ih =>
    rw [scanFold_succ, inclScanLoop_succ, ← ih]
    rfl

theorem scanFold_csc (n : Nat) (t : ShardTables) :
    ((List.range' 1 n).foldl scanStep t).edgeShardMapCSC =
      inclScanLoop n t.edgeShardMapCSC := by
  induction n with
  | zero => rfl
  | succ n ih =>
    rw [scanFold_succ, inclScanLoop_succ, ← ih]
    rfl

theorem scanFold_csr (n : Nat) (t : ShardTables) :
    ((List.range' 1 n).foldl scanStep t).edgeShardMapCSR =
      inclScanLoop n t.edgeShardMapCSR := by
  induction n with
  | zero => rfl
  | succ n ih =>
    rw [scanFold_succ, inclScanLoop_succ, ← ih]
    rfl

/-- Histogram followed by the in-place prefix sum, started from a zeroed
array of `K + 1` entries: entry `j` is the sum of `d i` over the `i < V`
with `f i < j`. -/
theorem getD_scan_hist {α : Type} [AddCommMonoid α] (f : Nat → Nat) (d : Nat → α)
    (V K j : Nat) (hj : j ≤ K) :
    (inclScanLoop K (accumLoop (fun i => f i + 1) d V (List.replicate (K + 1) 0))).getD j 0 =
      ∑ i in Finset.range V, if f i < j then d i else 0 := by
  rw [getD_inclScanLoop _ _ (by rw [length_accumLoop]; simp), if_pos hj, ← sum_hist_below]
  apply Finset.sum_congr rfl
  intro t ht
  have ht : t < K + 1 := by
    have := Finset.mem_range.mp ht
    omega
  rw [getD_accumLoop _ _ _ _ _ (by simp; omega)]
  simp [List.getD_eq_getElem?_getD, List.getElem?_replicate, ht]

theorem length_scan_hist {α : Type} [AddCommMonoid α] (f : Nat → Nat) (d : Nat → α)
    (V K : Nat) :
    (inclScanLoop K (accumLoop f d V (List.replicate (K + 1) 0))).length = K + 1 := by
  rw [length_inclScanLoop, length_accumLoop]
  simp

theorem buildTables_vsm (V K : Nat) (sm : List Nat) (src dst : List Int) :
    (buildTables V K sm src dst).vertexShardMap =
      inclScanLoop K (accumLoop (fun i => rdN sm i + 1) (fun _ => 1) V
        (List.replicate (K + 1) 0)) := by
  simp only [buildTables]
  rw [scanFold_vsm, histFold_vsm]

theorem buildTables_csc (V K : Nat) (sm : List Nat) (src dst : List Int) :
    (buildTables V K sm src dst).edgeShardMapCSC =
      inclScanLoop K (accumLoop (fun i => rdN sm i + 1)
        (fun i => rdI src (i + 1) - rdI src i) V (List.replicate (K + 1) 0)) := by
  simp only [buildTables]
  rw [scanFold_csc, histFold_csc]

theorem buildTables_csr (V K : Nat) (sm : List Nat) (src dst : List Int) :
    (buildTables V K sm src dst).edgeShardMapCSR =
      inclScanLoop K (accumLoop (fun i => rdN sm i + 1)
        (fun i => rdI dst (i + 1) - rdI dst i) V (List.replicate (K + 1) 0)) := by
  simp only [buildTables]
  rw [scanFold_csr, histFold_csr]

/-- For a non-decreasing `f` on `[0, V)`, the indices with `f i < j` are an
initial segment, whose length is their number. -/
theorem count_below (f : Nat → Nat) (j : Nat) : ∀ (V : Nat),
    (∀ v w, v ≤ w → w < V → f v ≤ f w) →
    (∑ i in Finset.range V, if f i < j then 1 else 0) ≤ V ∧
    ∀ v, v < V → (f v < j ↔ v < ∑ i in Finset.range V, if f i < j then 1 else 0) := by
  intro V
  induction V with
  | zero =>
    intro _
    simp
  | succ n ih =>
    intro hm
    obtain ⟨h1, h2⟩ := ih (fun v w hvw hw => hm v w hvw (by omega))
    rw [Finset.sum_range_succ]
    by_cases hn : f n < j
    · rw [if_pos hn]
      have hall : ∀ v, v < n → v < ∑ i in Finset.range n, if f i < j then 1 else 0 := by
        intro v hv
        exact (h2 v hv).mp (lt_of_le_of_lt (hm v n (by omega) (by omega)) hn)
      have hc : (∑ i in Finset.range n, if f i < j then 1 else 0) = n := by
        rcases Nat.eq_zero_or_pos n with h0 | h0
        · subst h0
          simp
        · have := hall (n - 1) (by omega)
          omega
      rw [hc]
      refine ⟨le_refl _, ?_⟩
      intro v hv
      constructor
      · intro _
        omega
      · intro _
        exact lt_of_le_of_lt (hm v n (by omega) (by omega)) hn
    · rw [if_neg hn, add_zero]
      refine ⟨by omega, ?_⟩
      intro v hv
      rcases Nat.eq_or_lt_of_le (Nat.lt_succ_iff.mp hv) with h | h
      · subst h
        constructor
        · intro h
          exact absurd h hn
        · intro h
          omega
      · exact h2 v h

/-- For a non-decreasing `f`, a sum over the indices with `f i < j` is a sum
over the initial segment they form. -/
theorem sum_below {α : Type} [AddCommMonoid α] (f : Nat → Nat) (d : Nat → α) (j : Nat)
    (V : Nat) (hm : ∀ v w, v ≤ w → w < V → f v ≤ f w) :
    (∑ i in Finset.range V, if f i < j then d i else 0) =
      ∑ i in Finset.range (∑ i in Finset.range V, if f i < j then 1 else 0), d i := by
  obtain ⟨h1, h2⟩ := count_below f j V hm
  have e : ∀ i ∈ Finset.range V, (if f i < j then d i else 0) =
      if i < (∑ i in Finset.range V, if f i < j then 1 else 0) then d i else 0 := by
    intro i hi
    have hi := Finset.mem_range.mp hi
    by_cases h : f i < j
    · rw [if_pos h, if_pos ((h2 i hi).mp h)]
    · rw [if_neg h, if_neg (fun hh => h ((h2 i hi).mpr hh))]
  rw [Finset.sum_congr rfl e]
  generalize (∑ i in Finset.range V, if f i < j then 1 else 0) = c at h1
  clear e h2 hm
  induction V with
  | zero =>
    have : c = 0 := by omega
    subst this
    simp
  | succ n ih =>
    rw [Finset.sum_range_succ]
    rcases Nat.eq_or_lt_of_le h1 with h | h
    · subst h
      rw [Finset.sum_range_succ, if_pos (by omega)]
      congr 1
      apply Finset.sum_congr rfl
      intro i hi
      have hi := Finset.mem_range.mp hi
      rw [if_pos (by omega)]
    · rw [if_neg (by omega), add_zero]
      exact ih (by omega)

/-! ## What `setGraph` establishes -/

theorem length_scanArr (V : Nat) (src dst : List Int) :
    (edgesPerVertexTmpScan V src dst).length = V + 1 := by
  simp [edgesPerVertexTmpScan]

theorem rdI_scanArr (V : Nat) (src dst : List Int) (i : Nat) (hi : i < V + 1) :
    rdI (edgesPerVertexTmpScan V src dst) i = rdI src i + rdI dst i := by
  unfold edgesPerVertexTmpScan
  conv_lhs => unfold rdI
  rw [List.getD_eq_getElem _ _ (by simpa using hi)]
  simp [rdI, List.getD_eq_getElem?_getD]

theorem nonDecreasing_scanArr (V : Nat) (src dst : List Int)
    (hsl : src.length = V + 1) (hdl : dst.length = V + 1)
    (hs : NonDecreasing src) (hd : NonDecreasing dst) :
    NonDecreasing (edgesPerVertexTmpScan V src dst) := by
  unfold NonDecreasing
  rw [List.pairwise_iff_getElem]
  intro i j hi hj hij
  rw [length_scanArr] at hi hj
  have e1 := rdI_scanArr V src dst i hi
  have e2 := rdI_scanArr V src dst j hj
  unfold rdI at e1 e2
  rw [List.getD_eq_getElem _ _ (by rw [length_scanArr]; exact hi)] at e1
  rw [List.getD_eq_getElem _ _ (by rw [length_scanArr]; exact hj)] at e2
  rw [e1, e2]
  have a1 : rdI src i ≤ rdI src j := hs.rdI_le (by omega) (by omega)
  have a2 : rdI dst i ≤ rdI dst j := hd.rdI_le (by omega) (by omega)
  unfold rdI at a1 a2
  omega

theorem rdN_take (l : List Nat) (n v : Nat) (h : v < n) : rdN (l.take n) v = rdN l v := by
  unfold rdN
  simp only [List.getD_eq_getElem?_getD, List.getElem?_take, if_pos h]

theorem noOverflow_scanArr {V : Nat} {src dst : List Int} {B : Int}
    (hov : NoOverflow (rdI src V + rdI dst V) B) :
    NoOverflow (rdI (edgesPerVertexTmpScan V src dst) V) B := by
  rw [rdI_scanArr V src dst V (by omega)]
  exact hov

theorem setGraph_facts {V : Nat} {src dst : List Int} {B : Int}
    (hsl : src.length = V + 1) (hdl : dst.length = V + 1)
    (hs : NonDecreasing src) (hd : NonDecreasing dst) (hB : 0 < B)
    (hov : NoOverflow (rdI src V + rdI dst V) B)
    {fuel : Nat} {p : ShardPlan} (h : setGraph fuel V src dst B = some p) :
    PlanFacts V src dst B p := by
  unfold setGraph at h
  cases hl : planLoop (edgesPerVertexTmpScan V src dst) B fuel (planInit V B) with
  | none => rw [hl] at h; simp at h
  | some st =>
    rw [hl] at h
    simp only [Option.some.injEq] at h
    obtain ⟨inv, hi, hK, _, _⟩ := planLoop_result (length_scanArr V src dst)
      (nonDecreasing_scanArr V src dst hsl hdl hs hd) hB (noOverflow_scanArr hov) fuel _ st
      (planInv_init _ B V) (by intro h1; simp [planInit] at h1) hl
    subst h
    constructor
    · rfl
    · exact hK
    · simp only [List.length_take, inv.len]
      omega
    · intro v hv
      simp only
      rw [rdN_take _ _ _ hv]
      exact inv.shard_lt v (by omega) hv
    · intro v w hvw hw
      simp only
      rw [rdN_take _ _ _ hw, rdN_take _ _ _ (by omega)]
      exact inv.mono v w hvw (by omega) hw
    · intro v hv
      have := inv.weight v (by omega) hv
      rw [rdI_scanArr V src dst v (by omega)] at this
      simp only
      rw [rdN_take _ _ _ hv]
      exact this
    · rfl
    · rfl

theorem setGraph_terminates {V : Nat} {src dst : List Int} {B : Int}
    (hsl : src.length = V + 1) (hdl : dst.length = V + 1)
    (hs : NonDecreasing src) (hd : NonDecreasing dst) (hB : 0 < B)
    (hov : NoOverflow (rdI src V + rdI dst V) B) :
    ∃ fuel p, setGraph fuel V src dst B = some p := by
  obtain ⟨fuel, r, hr⟩ := planLoop_terminates (length_scanArr V src dst)
    (nonDecreasing_scanArr V src dst hsl hdl hs hd) hB (noOverflow_scanArr hov) _ (planInit V B)
    (planInv_init _ B V) (by intro h1; simp [planInit] at h1) (le_refl _)
  refine ⟨fuel, ?_⟩
  unfold setGraph
  rw [hr]
  exact ⟨_, rfl⟩

/-- The number of rounds of the planning loop: when it finishes with
`numShards = K` and no addition of line 1419 overflows, `W[V] <= K * B`, and
`(K - 1) * B < W[V]` when `K >= 2`. -/
theorem setGraph_count {V : Nat} {src dst : List Int} {B : Int}
    (hsl : src.length = V + 1) (hdl : dst.length = V + 1)
    (hs : NonDecreasing src) (hd : NonDecreasing dst) (hB : 0 < B)
    (hov : NoOverflow (rdI src V + rdI dst V) B)
    {fuel : Nat} {p : ShardPlan} (h : setGraph fuel V src dst B = some p) :
    rdI src V + rdI dst V ≤ (p.numShards : Int) * B ∧
    (2 ≤ p.numShards → ((p.numShards : Int) - 1) * B < rdI src V + rdI dst V) := by
  unfold setGraph at h
  cases hl : planLoop (edgesPerVertexTmpScan V src dst) B fuel (planInit V B) with
  | none => rw [hl] at h; simp at h
  | some st =>
    rw [hl] at h
    simp only [Option.some.injEq] at h
    obtain ⟨_, _, _, c1, c2⟩ := planLoop_result (length_scanArr V src dst)
      (nonDecreasing_scanArr V src dst hsl hdl hs hd) hB (noOverflow_scanArr hov) fuel _ st
      (planInv_init _ B V) (by intro h1; simp [planInit] at h1) hl
    rw [rdI_scanArr V src dst V (by omega)] at c1 c2
    subst h
    exact ⟨c1, c2⟩

namespace PlanFacts

variable {V : Nat} {src dst : List Int} {B : Int} {p : ShardPlan}

theorem vsm_eq (f : PlanFacts V src dst B p) (j : Nat) (hj : j ≤ p.numShards) :
    rdN p.vertexShardMap j =
      ∑ i in Finset.range V, if rdN p.shardMapTmp i < j then 1 else 0 := by
  have h := congrArg ShardTables.vertexShardMap f.tables
  simp only at h
  rw [← h, buildTables_vsm]
  exact getD_scan_hist (fun i => rdN p.shardMapTmp i) (fun _ => 1) V p.numShards j hj

theorem vsm_len (f : PlanFacts V src dst B p) : p.vertexShardMap.length = p.numShards + 1 := by
  have h := congrArg ShardTables.vertexShardMap f.tables
  simp only at h
  rw [← h, buildTables_vsm]
  exact length_scan_hist _ _ V p.numShards

theorem csc_len (f : PlanFacts V src dst B p) : p.edgeShardMapCSC.length = p.numShards + 1 := by
  have h := congrArg ShardTables.edgeShardMapCSC f.tables
  simp only at h
  rw [← h, buildTables_csc]
  exact length_scan_hist _ _ V p.numShards

theorem csr_len (f : PlanFacts V src dst B p) : p.edgeShardMapCSR.length = p.numShards + 1 := by
  have h := congrArg ShardTables.edgeShardMapCSR f.tables
  simp only at h
  rw [← h, buildTables_csr]
  exact length_scan_hist _ _ V p.numShards

theorem vsm_le (f : PlanFacts V src dst B p) (j : Nat) (hj : j ≤ p.numShards) :
    rdN p.vertexShardMap j ≤ V := by
  rw [f.vsm_eq j hj]
  exact (count_below (fun i => rdN p.shardMapTmp i) j V f.sm_mono).1

theorem vsm_iff (f : PlanFacts V src dst B p) (j : Nat) (hj : j ≤ p.numShards)
    (v : Nat) (hv : v < V) : rdN p.shardMapTmp v < j ↔ v < rdN p.vertexShardMap j := by
  rw [f.vsm_eq j hj]
  exact (count_below (fun i => rdN p.shardMapTmp i) j V f.sm_mono).2 v hv

theorem vsm_zero (f : PlanFacts V src dst B p) : rdN p.vertexShardMap 0 = 0 := by
  rw [f.vsm_eq 0 (Nat.zero_le _)]
  simp

theorem vsm_last (f : PlanFacts V src dst B p) : rdN p.vertexShardMap p.numShards = V := by
  have hle := f.vsm_le p.numShards (le_refl _)
  rcases Nat.eq_zero_or_pos V with h0 | h0
  · omega
  · have := (f.vsm_iff p.numShards (le_refl _) (V - 1) (by omega)).mp
      (f.sm_lt (V - 1) (by omega))
    omega

theorem vsm_mono (f : PlanFacts V src dst B p) (j k : Nat) (hjk : j ≤ k)
    (hk : k ≤ p.numShards) : rdN p.vertexShardMap j ≤ rdN p.vertexShardMap k := by
  rw [f.vsm_eq j (by omega), f.vsm_eq k hk]
  apply Finset.sum_le_sum
  intro i _
  by_cases h : rdN p.shardMapTmp i < j
  · rw [if_pos h, if_pos (by omega)]
  · rw [if_neg h]
    exact Nat.zero_le _

theorem shard_iff (f : PlanFacts V src dst B p) (k : Nat) (hk : k < p.numShards)
    (v : Nat) (hv : v < V) :
    rdN p.shardMapTmp v = k ↔
      rdN p.vertexShardMap k ≤ v ∧ v < rdN p.vertexShardMap (k + 1) := by
  have h1 := f.vsm_iff k (by omega) v hv
  have h2 := f.vsm_iff (k + 1) (by omega) v hv
  constructor
  · intro h
    constructor
    · by_contra hc
      have := h1.mpr (by omega)
      omega
    · exact h2.mp (by omega)
  · intro ⟨ha, hb⟩
    have := h2.mpr hb
    by_contra hc
    have := h1.mp (by omega)
    omega

theorem csc_eq (f : PlanFacts V src dst B p) (j : Nat) (hj : j ≤ p.numShards) :
    rdI p.edgeShardMapCSC j = rdI src (rdN p.vertexShardMap j) - rdI src 0 := by
  have h := congrArg ShardTables.edgeShardMapCSC f.tables
  simp only at h
  rw [← h, buildTables_csc]
  have e := getD_scan_hist (fun i => rdN p.shardMapTmp i)
    (fun i => rdI src (i + 1) - rdI src i) V p.numShards j hj
  unfold rdI at e ⊢
  rw [e, sum_below (fun i => rdN p.shardMapTmp i) _ j V f.sm_mono, ← f.vsm_eq j hj]
  exact Finset.sum_range_sub (fun i => List.getD src i 0) _

theorem csr_eq (f : PlanFacts V src dst B p) (j : Nat) (hj : j ≤ p.numShards) :
    rdI p.edgeShardMapCSR j = rdI dst (rdN p.vertexShardMap j) - rdI dst 0 := by
  have h := congrArg ShardTables.edgeShardMapCSR f.tables
  simp only at h
  rw [← h, buildTables_csr]
  have e := getD_scan_hist (fun i => rdN p.shardMapTmp i)
    (fun i => rdI dst (i + 1) - rdI dst i) V p.numShards j hj
  unfold rdI at e ⊢
  rw [e, sum_below (fun i => rdN p.shardMapTmp i) _ j V f.sm_mono, ← f.vsm_eq j hj]
  exact Finset.sum_range_sub (fun i => List.getD dst i 0) _

end PlanFacts

/-! ## The local offset arrays -/

theorem writeRun_succ (g : Nat → Int) (pos k n : Nat) (a : List Int) :
    writeRun g pos k (n + 1) a = (writeRun g pos k n a).set (pos + n) (g (k + n)) := by
  simp [writeRun, List.range_succ, List.foldl_append]

theorem length_writeRun (g : Nat → Int) (pos k n : Nat) (a : List Int) :
    (writeRun g pos k n a).length = a.length := by
  induction n with
  | zero => rfl
  | succ n ih => rw [writeRun_succ, List.length_set, ih]

theorem rdI_writeRun (g : Nat → Int) (pos k n : Nat) (a : List Int) (q : Nat) :
    rdI (writeRun g pos k n a) q =
      if pos ≤ q ∧ q < pos + n ∧ q < a.length then g (k + (q - pos)) else rdI a q := by
  induction n with
  | zero =>
    rw [if_neg (by omega)]
    rfl
  | succ n ih =>
    rw [writeRun_succ, rdI_set, length_writeRun, ih]
    by_cases h : pos + n = q ∧ pos + n < a.length
    · rw [if_pos h, if_pos (by omega)]
      congr 1
      omega
    · rw [if_neg h]
      by_cases h2 : pos ≤ q ∧ q < pos + n ∧ q < a.length
      · rw [if_pos h2, if_pos (by omega)]
      · rw [if_neg h2, if_neg (by omega)]

theorem innerFold_succ (t : ShardTables) (sm : List Nat) (src dst : List Int)
    (i lo n : Nat) (l : LocalOffsets) :
    (List.range' lo (n + 1)).foldl (localInner t sm src dst i) l =
      localInner t sm src dst i ((List.range' lo n).foldl (localInner t sm src dst i) l)
        (lo + n) := by
  simp [List.range'_concat, List.foldl_append]

theorem innerFold_eq (t : ShardTables) (sm : List Nat) (src dst : List Int)
    (i lo n : Nat) (l : LocalOffsets) :
    (List.range' lo n).foldl (localInner t sm src dst i) l =
      { srcOffsets := writeRun (fun k => rdI src (k + 1) - rdI t.edgeShardMapCSC (rdN sm k))
          (lo + i + 1) l.k n l.srcOffsets
        dstOffsets := writeRun (fun k => rdI dst (k + 1) - rdI t.edgeShardMapCSR (rdN sm k))
          (lo + i + 1) l.k n l.dstOffsets
        k := l.k + n } := by
  induction n with
  | zero => rfl
  | succ n ih =>
    rw [innerFold_succ, ih, writeRun_succ, writeRun_succ]
    simp only [localInner]
    have e : lo + n + i + 1 = lo + i + 1 + n := by omega
    rw [e]
    rfl

theorem localOuter_eq (t : ShardTables) (sm : List Nat) (src dst : List Int)
    (l : LocalOffsets) (i : Nat) :
    localOuter t sm src dst l i =
      { srcOffsets := writeRun (fun k => rdI src (k + 1) - rdI t.edgeShardMapCSC (rdN sm k))
          (rdN t.vertexShardMap i + i + 1) l.k
          (rdN t.vertexShardMap (i + 1) - rdN t.vertexShardMap i)
          (l.srcOffsets.set (rdN t.vertexShardMap i + i) 0)
        dstOffsets := writeRun (fun k => rdI dst (k + 1) - rdI t.edgeShardMapCSR (rdN sm k))
          (rdN t.vertexShardMap i + i + 1) l.k
          (rdN t.vertexShardMap (i + 1) - rdN t.vertexShardMap i)
          (l.dstOffsets.set (rdN t.vertexShardMap i + i) 0)
        k := l.k + (rdN t.vertexShardMap (i + 1) - rdN t.vertexShardMap i) } := by
  simp only [localOuter]
  rw [innerFold_eq]

/-- One shard's writes into one local offset array of `L` entries: the
entries below the slice are kept, the slice holds `0` followed by
`g lo, ..., g (lo + cnt - 1)`. -/
theorem writeSlice (g : Nat → Int) (a : List Int) (lo cnt i L : Nat)
    (hlen : a.length = L) (hb : lo + i + cnt < L) :
    (writeRun g (lo + i + 1) lo cnt (a.set (lo + i) 0)).length = L ∧
    (∀ q, q < lo + i → rdI (writeRun g (lo + i + 1) lo cnt (a.set (lo + i) 0)) q = rdI a q) ∧
    rdI (writeRun g (lo + i + 1) lo cnt (a.set (lo + i) 0)) (lo + i) = 0 ∧
    (∀ j, 1 ≤ j → j ≤ cnt →
      rdI (writeRun g (lo + i + 1) lo cnt (a.set (lo + i) 0)) (lo + i + j) =
        g (lo + j - 1)) := by
  refine ⟨by rw [length_writeRun, List.length_set, hlen], ?_, ?_, ?_⟩
  · intro q hq
    rw [rdI_writeRun, if_neg (by omega), rdI_set, if_neg (by omega)]
  · rw [rdI_writeRun, if_neg (by omega), rdI_set, if_pos ⟨rfl, by omega⟩]
  · intro j hj1 hj2
    rw [rdI_writeRun, List.length_set, if_pos (by omega)]
    congr 1
    omega

theorem sliceInv_step (vsm sm : List Nat) (tmp emap : List Int) (V K n : Nat)
    (a : List Int) (hn : n < K)
    (hmono : ∀ j k, j ≤ k → k ≤ K → rdN vsm j ≤ rdN vsm k)
    (hle : ∀ j, j ≤ K → rdN vsm j ≤ V)
    (hshard : ∀ i, i < K → ∀ v, rdN vsm i ≤ v → v < rdN vsm (i + 1) → rdN sm v = i)
    (hemap : ∀ i, i ≤ K → rdI emap i = rdI tmp (rdN vsm i) - rdI tmp 0)
    (h0 : rdI tmp 0 = 0)
    (inv : SliceInv vsm tmp emap (V + K) n a) :
    SliceInv vsm tmp emap (V + K) (n + 1)
      (writeRun (fun k => rdI tmp (k + 1) - rdI emap (rdN sm k)) (rdN vsm n + n + 1)
        (rdN vsm n) (rdN vsm (n + 1) - rdN vsm n) (a.set (rdN vsm n + n) 0)) := by
  have hm := hmono n (n + 1) (by omega) (by omega)
  have hl := hle (n + 1) (by omega)
  obtain ⟨w1, w2, w3, w4⟩ := writeSlice (fun k => rdI tmp (k + 1) - rdI emap (rdN sm k)) a
    (rdN vsm n) (rdN vsm (n + 1) - rdN vsm n) n (V + K) inv.1 (by omega)
  refine ⟨w1, ?_⟩
  intro i hi j hj
  rcases Nat.eq_or_lt_of_le (Nat.lt_succ_iff.mp hi) with h | h
  · subst h
    rcases Nat.eq_zero_or_pos j with hj0 | hj0
    · subst hj0
      simp only [Nat.add_zero]
      rw [w3, hemap i (by omega), h0]
      ring
    · rw [w4 j hj0 hj]
      have e1 : rdN vsm i + j - 1 + 1 = rdN vsm i + j := by omega
      rw [e1, hshard i hn (rdN vsm i + j - 1) (by omega) (by omega)]
  · have hm2 := hmono (i + 1) n (by omega) (by omega)
    have hm3 := hmono i (i + 1) (by omega) (by omega)
    rw [w2 _ (by omega)]
    exact inv.2 i h j hj

/-- The outer loop's invariant after the shards below `n`. -/
theorem localFold_inv (V K : Nat) (t : ShardTables) (sm : List Nat) (src dst : List Int)
    (hmono : ∀ j k, j ≤ k → k ≤ K → rdN t.vertexShardMap j ≤ rdN t.vertexShardMap k)
    (hle : ∀ j, j ≤ K → rdN t.vertexShardMap j ≤ V)
    (hz : rdN t.vertexShardMap 0 = 0)
    (hshard : ∀ i, i < K → ∀ v, rdN t.vertexShardMap i ≤ v →
      v < rdN t.vertexShardMap (i + 1) → rdN sm v = i)
    (hcsc : ∀ i, i ≤ K →
      rdI t.edgeShardMapCSC i = rdI src (rdN t.vertexShardMap i) - rdI src 0)
    (hcsr : ∀ i, i ≤ K →
      rdI t.edgeShardMapCSR i = rdI dst (rdN t.vertexShardMap i) - rdI dst 0)
    (hs0 : rdI src 0 = 0) (hd0 : rdI dst 0 = 0) (l0 : LocalOffsets)
    (hl0s : l0.srcOffsets.length = V + K) (hl0d : l0.dstOffsets.length = V + K)
    (hl0k : l0.k = 0) :
    ∀ n, n ≤ K →
      ((List.range n).foldl (localOuter t sm src dst) l0).k = rdN t.vertexShardMap n ∧
      SliceInv t.vertexShardMap src t.edgeShardMapCSC (V + K) n
        ((List.range n).foldl (localOuter t sm src dst) l0).srcOffsets ∧
      SliceInv t.vertexShardMap dst t.edgeShardMapCSR (V + K) n
        ((List.range n).foldl (localOuter t sm src dst) l0).dstOffsets := by
  intro n
  induction n with
  | zero =>
    intro _
    refine ⟨by simp [hl0k, hz], ⟨hl0s, ?_⟩, ⟨hl0d, ?_⟩⟩
    · intro i hi
      omega
    · intro i hi
      omega
  | succ n ih =>
    intro hn
    obtain ⟨hk, hsrc, hdst⟩ := ih (by omega)
    rw [List.range_succ, List.foldl_append]
    simp only [List.foldl_cons, List.foldl_nil]
    rw [localOuter_eq, hk]
    have hm := hmono n (n + 1) (by omega) (by omega)
    refine ⟨by simp only; omega, ?_, ?_⟩
    · exact sliceInv_step t.vertexShardMap sm src t.edgeShardMapCSC V K n _ (by omega)
        hmono hle hshard hcsc hs0 hsrc
    · exact sliceInv_step t.vertexShardMap sm dst t.edgeShardMapCSR V K n _ (by omega)
        hmono hle hshard hcsr hd0 hdst

/-! ## Claims on the shard planner -/

/-- C1 (shard budget), evaluated on the two-vertex graph with the edges
`(0,1)` and `(1,0)` and the budget `B = 3`: the planner puts both vertices
into shard `0`, whose in-edges plus out-edges number `4`, more than `B`. -/
theorem C1_budget_exceeded :
    ∃ p, setGraph 2 2 [0, 1, 2] [0, 1, 2] 3 = some p ∧
      rdN p.vertexShardMap 1 - rdN p.vertexShardMap 0 = 2 ∧
      (rdI p.edgeShardMapCSC 1 - rdI p.edgeShardMapCSC 0) +
        (rdI p.edgeShardMapCSR 1 - rdI p.edgeShardMapCSR 0) = 4 ∧
      ¬ ((rdI p.edgeShardMapCSC 1 - rdI p.edgeShardMapCSC 0) +
        (rdI p.edgeShardMapCSR 1 - rdI p.edgeShardMapCSR 0) ≤ 3) :=
  ⟨_, rfl, by decide, by decide, by decide⟩

/-- The tables the lines after the planning loop compute when the store
past `shardMapTmp` lands in unused memory and no addition of line 1419
overflows: for non-decreasing offset arrays of `V + 1` entries and a budget
`B > 0` the model of `setGraph` finishes, `vertexShardMap[0] = 0`,
`vertexShardMap` is non-decreasing, `vertexShardMap[K] = V`, every vertex
`v < V` has `shard[v] < K`, and `shard[v] = k` exactly when
`vertexShardMap[k] <= v < vertexShardMap[k+1]`. -/
theorem setGraph_partition (V : Nat) (src dst : List Int) (B : Int)
    (hsl : src.length = V + 1) (hdl : dst.length = V + 1)
    (hs : NonDecreasing src) (hd : NonDecreasing dst) (hB : 0 < B)
    (hov : NoOverflow (rdI src V + rdI dst V) B) :
    (∃ fuel p, setGraph fuel V src dst B = some p) ∧
    ∀ fuel p, setGraph fuel V src dst B = some p →
      p.vertexShardMap.length = p.numShards + 1 ∧
      p.shardMapTmp.length = V ∧
      rdN p.vertexShardMap 0 = 0 ∧
      (∀ k, k < p.numShards → rdN p.vertexShardMap k ≤ rdN p.vertexShardMap (k + 1)) ∧
      rdN p.vertexShardMap p.numShards = V ∧
      (∀ v, v < V → rdN p.shardMapTmp v < p.numShards) ∧
      (∀ v k, v < V → k < p.numShards →
        (rdN p.shardMapTmp v = k ↔
          rdN p.vertexShardMap k ≤ v ∧ v < rdN p.vertexShardMap (k + 1))) := by
  refine ⟨setGraph_terminates hsl hdl hs hd hB hov, ?_⟩
  intro fuel p h
  have f := setGraph_facts hsl hdl hs hd hB hov h
  exact ⟨f.vsm_len, f.sm_len, f.vsm_zero,
    fun k hk => f.vsm_mono k (k + 1) (by omega) (by omega), f.vsm_last, f.sm_lt,
    fun v k hv hk => f.shard_iff k hk v hv⟩

/-- The local offset arrays the lines 1452-1469 compute when the store past
`shardMapTmp` lands in unused memory and no addition of line 1419 overflows:
for offset arrays that start at `0` and are non-decreasing, for every shard
`k` and local index `j` in `[0, |V_k|]`, the stored local `srcOffsets` entry at
`vertexShardMap[k] + k + j` (inside the array) is
`srcOffsets_global[vertexShardMap[k] + j] - edgeShardMapCSC[k]`; the slice
starts with `0` and ends with `edgeShardMapCSC[k+1] - edgeShardMapCSC[k]`;
likewise `dstOffsets` with `edgeShardMapCSR`. -/
theorem setGraph_local_offsets (V : Nat) (src dst : List Int) (B : Int)
    (hsl : src.length = V + 1) (hdl : dst.length = V + 1)
    (hs : NonDecreasing src) (hd : NonDecreasing dst) (hB : 0 < B)
    (hov : NoOverflow (rdI src V + rdI dst V) B)
    (hs0 : rdI src 0 = 0) (hd0 : rdI dst 0 = 0) :
    (∃ fuel p, setGraph fuel V src dst B = some p) ∧
    ∀ fuel p, setGraph fuel V src dst B = some p →
      p.srcOffsets.length = V + p.numShards ∧
      p.dstOffsets.length = V + p.numShards ∧
      ∀ k, k < p.numShards →
        (∀ j, j ≤ rdN p.vertexShardMap (k + 1) - rdN p.vertexShardMap k →
          rdN p.vertexShardMap k + k + j < V + p.numShards ∧
          rdI p.srcOffsets (rdN p.vertexShardMap k + k + j) =
            rdI src (rdN p.vertexShardMap k + j) - rdI p.edgeShardMapCSC k ∧
          rdI p.dstOffsets (rdN p.vertexShardMap k + k + j) =
            rdI dst (rdN p.vertexShardMap k + j) - rdI p.edgeShardMapCSR k) ∧
        rdI p.srcOffsets (rdN p.vertexShardMap k + k) = 0 ∧
        rdI p.srcOffsets (rdN p.vertexShardMap k + k +
            (rdN p.vertexShardMap (k + 1) - rdN p.vertexShardMap k)) =
          rdI p.edgeShardMapCSC (k + 1) - rdI p.edgeShardMapCSC k ∧
        rdI p.dstOffsets (rdN p.vertexShardMap k + k) = 0 ∧
        rdI p.dstOffsets (rdN p.vertexShardMap k + k +
            (rdN p.vertexShardMap (k + 1) - rdN p.vertexShardMap k)) =
          rdI p.edgeShardMapCSR (k + 1) - rdI p.edgeShardMapCSR k := by
  refine ⟨setGraph_terminates hsl hdl hs hd hB hov, ?_⟩
  intro fuel p h
  have f := setGraph_facts hsl hdl hs hd hB hov h
  have ht := f.tables
  have hv := congrArg ShardTables.vertexShardMap ht
  have hc := congrArg ShardTables.edgeShardMapCSC ht
  have hr := congrArg ShardTables.edgeShardMapCSR ht
  simp only at hv hc hr
  have inv := localFold_inv V p.numShards
    (buildTables V p.numShards p.shardMapTmp src dst) p.shardMapTmp src dst
    (by rw [hv]; exact fun j k hjk hk => f.vsm_mono j k hjk hk)
    (by rw [hv]; exact fun j hj => f.vsm_le j hj)
    (by rw [hv]; exact f.vsm_zero)
    (by
      rw [hv]
      intro i hi v hv1 hv2
      have := f.vsm_le (i + 1) (by omega)
      exact (f.shard_iff i hi v (by omega)).mpr ⟨hv1, hv2⟩)
    (by rw [hv, hc]; exact fun i hi => f.csc_eq i hi)
    (by rw [hv, hr]; exact fun i hi => f.csr_eq i hi)
    hs0 hd0
    { srcOffsets := List.replicate (V + p.numShards) 0
      dstOffsets := List.replicate (V + p.numShards) 0
      k := 0 }
    (by simp) (by simp) rfl p.numShards (le_refl _)
  have ho := f.offsets
  have hso := congrArg LocalOffsets.srcOffsets ho
  have hdo := congrArg LocalOffsets.dstOffsets ho
  simp only at hso hdo
  unfold buildLocalOffsets at hso hdo
  rw [hso, hdo, hv, hc, hr] at inv
  obtain ⟨_, ⟨ls, is⟩, ⟨ld, id⟩⟩ := inv
  refine ⟨ls, ld, ?_⟩
  intro k hk
  have hm := f.vsm_mono k (k + 1) (by omega) (by omega)
  have hl := f.vsm_le (k + 1) (by omega)
  refine ⟨fun j hj => ⟨by omega, is k hk j hj, id k hk j hj⟩, ?_, ?_, ?_, ?_⟩
  · have := is k hk 0 (Nat.zero_le _)
    simp only [Nat.add_zero] at this
    rw [this, f.csc_eq k (by omega), hs0]
    ring
  · rw [is k hk _ (le_refl _), f.csc_eq (k + 1) (by omega), f.csc_eq k (by omega)]
    have e : rdN p.vertexShardMap k +
        (rdN p.vertexShardMap (k + 1) - rdN p.vertexShardMap k) =
        rdN p.vertexShardMap (k + 1) := by omega
    rw [e]
    omega
  · have := id k hk 0 (Nat.zero_le _)
    simp only [Nat.add_zero] at this
    rw [this, f.csr_eq k (by omega), hd0]
    ring
  · rw [id k hk _ (le_refl _), f.csr_eq (k + 1) (by omega), f.csr_eq k (by omega)]
    have e : rdN p.vertexShardMap k +
        (rdN p.vertexShardMap (k + 1) - rdN p.vertexShardMap k) =
        rdN p.vertexShardMap (k + 1) := by omega
    rw [e]
    omega

/-- C2 (the shard map is a partition of `[0,V)`), evaluated on the six-cycle
`0 -> 1 -> 2 -> 3 -> 4 -> 5 -> 0` (`srcOffsets = dstOffsets = [0,1,2,3,4,5,6]`) with the
budget `B = 3`: the planning loop makes four shards and stores at the indices
`0, .., 6` of `shardMapTmp`, an array of `V = 6` entries (line 1405); the store
at index `6` lands in the word after the array, and it precedes the
allocation and the construction of `vertexShardMap` (lines 1429-1450), of
which the claim speaks. -/
theorem C2_store_past_shard_map :
    setGraphWrites 4 6 [0, 1, 2, 3, 4, 5, 6] [0, 1, 2, 3, 4, 5, 6] 3 = some [0, 1, 2, 3, 4, 5, 6] ∧
    (∃ r, planLoop (edgesPerVertexTmpScan 6 [0, 1, 2, 3, 4, 5, 6] [0, 1, 2, 3, 4, 5, 6]) 3 4 (planInit 6 3) = some r ∧
      r.numShards = 4 ∧ r.shardMapTmp = [0, 0, 1, 1, 2, 3, 3]) ∧
    ¬ (∀ i, i ∈ [0, 1, 2, 3, 4, 5, 6] → i < 6) :=
  ⟨rfl, ⟨_, rfl, rfl, rfl⟩, by decide⟩

/-- C3 (local-offset remapping), evaluated on the six-cycle with the budget
`B = 3`: after three rounds of the planning loop the vertices `0, .., 4` are
assigned and the budget line is `12`; in the fourth round the search returns
the end of `edgesPerVertexTmpScan`, `pos = V + 1 = 7`, and the inner loop,
entered with `i = 5`, stores the shard id `3` at `shardMapTmp[5]` and at
`shardMapTmp[6]`.  The array has the entries `0, .., 5`: the second store lands
in the word after it, and it precedes the allocation of the local offset
arrays (lines 1452-1453), of which the claim speaks. -/
theorem C3_last_round_stores_past_array :
    planRound (edgesPerVertexTmpScan 6 [0, 1, 2, 3, 4, 5, 6] [0, 1, 2, 3, 4, 5, 6]) 3
      (planRound (edgesPerVertexTmpScan 6 [0, 1, 2, 3, 4, 5, 6] [0, 1, 2, 3, 4, 5, 6]) 3
        (planRound (edgesPerVertexTmpScan 6 [0, 1, 2, 3, 4, 5, 6] [0, 1, 2, 3, 4, 5, 6]) 3 (planInit 6 3))) =
      { i := 5, numShards := 3, maxEdgesPerShardTmp := 12,
        shardMapTmp := [0, 0, 1, 1, 2, 0, 0] } ∧
    upper_bound (edgesPerVertexTmpScan 6 [0, 1, 2, 3, 4, 5, 6] [0, 1, 2, 3, 4, 5, 6]) 12 = 7 ∧
    fillShard 3 (7 - 5) 5 [0, 0, 1, 1, 2, 0, 0] = [0, 0, 1, 1, 2, 3, 3] ∧
    planWrites (edgesPerVertexTmpScan 6 [0, 1, 2, 3, 4, 5, 6] [0, 1, 2, 3, 4, 5, 6]) 3 1
      { i := 5, numShards := 3, maxEdgesPerShardTmp := 12,
        shardMapTmp := [0, 0, 1, 1, 2, 0, 0] } = some [5, 6] ∧
    ¬ (6 < 6) :=
  ⟨rfl, rfl, rfl, rfl, by decide⟩

/-! ## Lemmas on the scatter / activate phase -/

section Phases

variable {VD ED GR : Type}

theorem scanTotal_eq_sum (c : List Int) : scanTotal c = c.sum := by
  unfold scanTotal
  have h : ∀ (l : List Int) (a : Int), l.foldl (fun acc x => acc + x) a = a + l.sum := by
    intro l
    induction l with
    | nil => intro a; simp
    | cons x xs ih =>
      intro a
      rw [List.foldl_cons, ih, List.sum_cons]
      ring
  rw [h]
  simp

theorem rdI_view (a : List Int) (off i : Nat) : rdI (view a (off : Int)) i = rdI a (off + i) := by
  unfold rdI view
  simp [List.getD_eq_getElem?_getD, List.getElem?_drop]

theorem allBits_replicate (n : Nat) : AllBits (List.replicate n 0) := by
  intro v
  left
  exact rdI_replicate n v

theorem allBits_activateOutput (flags : List Int) (dst : Int) (h : AllBits flags) :
    AllBits (activateOutput flags dst) := by
  intro v
  unfold activateOutput
  by_cases hd : 0 ≤ dst
  · rw [if_pos hd, rdI_set]
    by_cases hc : dst.toNat = v ∧ dst.toNat < flags.length
    · rw [if_pos hc]
      right
      rfl
    · rw [if_neg hc]
      exact h v
  · rw [if_neg hd]
    exact h v

theorem length_activateOutput (flags : List Int) (dst : Int) :
    (activateOutput flags dst).length = flags.length := by
  unfold activateOutput
  split <;> simp

/-- A property of flag arrays kept by every single activation is kept by
`intervalGather`. -/
theorem intervalGather_induct (Q : List Int → Prop)
    (hstep : ∀ fl dst, Q fl → Q (activateOutput fl dst))
    (moveCount : Int) (gatherAt : Nat → Int) (scan : List Int) (n : Nat)
    (input flags : List Int) (h : Q flags) :
    Q (intervalGather moveCount gatherAt scan n input flags) := by
  unfold intervalGather
  have inner : ∀ (l : List Nat) (g : Nat → Int) (fl : List Int), Q fl →
      Q (l.foldl (fun fl e => activateOutput fl (g e)) fl) := by
    intro l g
    induction l with
    | nil => intro fl hfl; exact hfl
    | cons e es ih =>
      intro fl hfl
      rw [List.foldl_cons]
      exact ih _ (hstep _ _ hfl)
  generalize List.range n = l
  induction l generalizing flags with
  | nil => exact h
  | cons i is ih =>
    rw [List.foldl_cons]
    apply ih
    exact inner _ (fun (e : Nat) => rdZ input (gatherAt i + (e : Int))) _ h

theorem shardScatterActivate_induct (Q : List Int → Prop)
    (hstep : ∀ fl dst, Q fl → Q (activateOutput fl dst))
    (sl : Slot VD ED GR) (flags : List Int) (b : Bool) (h : Q flags) :
    Q (shardScatterActivate sl flags b) := by
  unfold shardScatterActivate
  simp only
  split
  · exact h
  · exact intervalGather_induct Q hstep _ _ _ _ _ _ h

theorem phaseA_induct (Q : List Int → Prop)
    (hstep : ∀ fl dst, Q fl → Q (activateOutput fl dst))
    (s : Engine VD ED GR) (b : Bool) (h0 : Q (List.replicate s.nVertices 0)) :
    Q (phaseA s b) := by
  have fold : ∀ (l : List Nat) (fl : List Int), Q fl → Q (l.foldl (scatterStep s b) fl) := by
    intro l
    induction l with
    | nil => intro fl hfl; exact hfl
    | cons i is ih =>
      intro fl hfl
      rw [List.foldl_cons]
      apply ih
      unfold scatterStep
      split
      · exact shardScatterActivate_induct Q hstep _ _ _ hfl
      · exact hfl
  exact fold _ _ h0

theorem allBits_phaseA (s : Engine VD ED GR) (b : Bool) : AllBits (phaseA s b) :=
  phaseA_induct AllBits allBits_activateOutput s b (allBits_replicate _)

theorem length_phaseA (s : Engine VD ED GR) (b : Bool) : (phaseA s b).length = s.nVertices :=
  phaseA_induct (fun fl => fl.length = s.nVertices)
    (fun fl dst h => by
      show (activateOutput fl dst).length = s.nVertices
      rw [length_activateOutput]
      exact h) s b (by simp)

theorem scatterActivate_activeFlags (K : Kernels VD ED GR) (s : Engine VD ED GR) (b : Bool) :
    (scatterActivate K s b).activeFlags = phaseA s b := by
  unfold scatterActivate phaseA
  simp only
  split <;> rfl

theorem scatterActivate_nActive (K : Kernels VD ED GR) (s : Engine VD ED GR) (b : Bool) :
    (scatterActivate K s b).nActive =
      (((List.range s.nVertices).filter (fun v => rdI (phaseA s b) v ≠ 0)).length : Int) := by
  unfold scatterActivate phaseA scatter_if_inputloc_twophase
  simp only
  split <;> rfl

theorem scatterActivate_nActiveShardMap (K : Kernels VD ED GR) (s : Engine VD ED GR)
    (b : Bool) : (scatterActivate K s b).nActiveShardMap = phaseB s (phaseA s b) := by
  unfold scatterActivate phaseA phaseB
  simp only
  split <;> rfl

theorem scatterActivate_plan (K : Kernels VD ED GR) (s : Engine VD ED GR) (b : Bool) :
    (scatterActivate K s b).numShards = s.numShards ∧
    (scatterActivate K s b).nVertices = s.nVertices ∧
    (scatterActivate K s b).vertexShardMap = s.vertexShardMap := by
  unfold scatterActivate
  simp only
  split <;> exact ⟨rfl, rfl, rfl⟩

theorem card_filter_range (n : Nat) (p : Nat → Prop) [DecidablePred p] :
    ((Finset.range n).filter p).card = ((List.range n).filter (fun v => decide (p v))).length := by
  rw [Finset.card_def, Finset.filter_val, Finset.range_val]
  unfold Multiset.range
  rw [Multiset.filter_coe, Multiset.coe_card]

end Phases

/-! ## Claims on `setActive`, `scatterActivate` and `run` -/

section EngineClaims

variable {VD ED GR : Type}

/-- C5 (per-shard counts of `setActive`), evaluated on the four-cycle planned
with `B = 4` (shard `0` owns `[0,3)`, shard `1` owns `[3,4)`): after
`setActive(0, 1)` no vertex of `[0,1)` lies in shard `1`, yet
`nActiveShardMap[1]` is `-2`, whatever the kernels do. -/
theorem C5_setActive_negative_count :
    ∃ p, setGraph 2 4 [0, 1, 2, 3, 4] [0, 1, 2, 3, 4] 4 = some p ∧
      p.numShards = 2 ∧ p.vertexShardMap = [0, 3, 4] ∧
      ((Finset.range 4).filter (fun v => 0 ≤ v ∧ v < 1 ∧ 3 ≤ v ∧ v < 4)).card = 0 ∧
      ∀ K : Kernels Int Unit Int,
        rdI (setActive K 0 1 (cycleEngine p)).nActiveShardMap 1 = -2 :=
  ⟨_, rfl, rfl, rfl, by decide, fun _ => rfl⟩

/-- C6 (the per-shard counts add up to `nActive`), evaluated on the same
input: after `setActive(0, 1)` the counts are `1` and `-2`, their sum is
`-1`, and `countActive()` returns `1`. -/
theorem C6_setActive_sum_mismatch :
    ∃ p, setGraph 2 4 [0, 1, 2, 3, 4] [0, 1, 2, 3, 4] 4 = some p ∧
      ∀ K : Kernels Int Unit Int,
        (setActive K 0 1 (cycleEngine p)).nActiveShardMap = [1, -2] ∧
        ((List.range (setActive K 0 1 (cycleEngine p)).numShards).map
          (rdI (setActive K 0 1 (cycleEngine p)).nActiveShardMap)).sum = -1 ∧
        countActive (setActive K 0 1 (cycleEngine p)) = 1 :=
  ⟨_, rfl, fun _ => ⟨rfl, rfl, rfl⟩⟩

/-- C8: after `scatterActivate`, `nActive` is the number of vertices
`v < nVertices` with `activeFlags[v] = 1`, for every engine state and
whatever the kernels do (the compact-if primitive returns the number of set
flags). -/
theorem C8_nActive_is_popcount (K : Kernels VD ED GR) (s : Engine VD ED GR)
    (haveScatter : Bool) :
    (scatterActivate K s haveScatter).nActive =
      (((Finset.range s.nVertices).filter
        (fun v => rdI (scatterActivate K s haveScatter).activeFlags v = 1)).card : Int) := by
  rw [scatterActivate_nActive, scatterActivate_activeFlags, card_filter_range]
  congr 2
  apply List.filter_congr
  intro v _
  rcases allBits_phaseA s haveScatter v with h | h
  · simp [h]
  · simp [h]

theorem runLoop_shift (K : Kernels VD ED GR) (P : Program VD ED GR) :
    ∀ (fuel : Nat) (s : Engine VD ED GR) (i d : Int),
      runLoop K P fuel s (i + d) = (runLoop K P fuel s i).map (fun r => (r.1, r.2 + d)) := by
  intro fuel
  induction fuel with
  | zero =>
    intro s i d
    simp only [runLoop]
    split <;> rfl
  | succ n ih =>
    intro s i d
    simp only [runLoop]
    split
    · have e : i + d + 1 = i + 1 + d := by ring
      rw [e, ih]
    · rfl

theorem runLoop_nActive (K : Kernels VD ED GR) (P : Program VD ED GR) :
    ∀ (fuel : Nat) (s s1 : Engine VD ED GR) (i j : Int),
      runLoop K P fuel s i = some (s1, j) → s1.nActive = 0 := by
  intro fuel
  induction fuel with
  | zero =>
    intro s s1 i j h
    simp only [runLoop, countActive] at h
    by_cases hc : s.nActive ≠ 0
    · rw [if_pos hc] at h
      simp at h
    · rw [if_neg hc] at h
      simp only [Option.some.injEq, Prod.mk.injEq] at h
      rw [← h.1]
      exact not_not.mp hc
  | succ n ih =>
    intro s s1 i j h
    simp only [runLoop, countActive] at h
    by_cases hc : s.nActive ≠ 0
    · rw [if_pos hc] at h
      exact ih _ _ _ _ h
    · rw [if_neg hc] at h
      simp only [Option.some.injEq, Prod.mk.injEq] at h
      rw [← h.1]
      exact not_not.mp hc

/-- C9: `run()` executes the body exactly while `countActive()` is non-zero.
If `nActive = 0` on entry it returns at once, with every field of the engine
as it was and `0` iterations; whenever it returns, `nActive = 0`; and when
`nActive` is not `0` on entry it runs the body (gather, apply,
scatterActivate) once and goes on from the state the body leaves. -/
theorem C9_run_while_active (K : Kernels VD ED GR) (P : Program VD ED GR)
    (s : Engine VD ED GR) :
    (s.nActive = 0 → ∀ fuel, run K P fuel s = some (s, 0)) ∧
    (∀ fuel s1 n, run K P fuel s = some (s1, n) → s1.nActive = 0) ∧
    (s.nActive ≠ 0 → ∀ fuel,
      run K P (fuel + 1) s =
        (run K P fuel (scatterActivate K (apply K P (gather K P s true)) true)).map
          (fun r => (r.1, r.2 + 1))) := by
  refine ⟨?_, ?_, ?_⟩
  · intro h fuel
    unfold run
    cases fuel with
    | zero => simp [runLoop, countActive, h]
    | succ n => simp [runLoop, countActive, h]
  · intro fuel s1 n h
    unfold run at h
    cases hr : runLoop K P fuel s 1 with
    | none => rw [hr] at h; simp at h
    | some r =>
      rw [hr] at h
      obtain ⟨s2, j⟩ := r
      simp only [Option.some.injEq, Prod.mk.injEq] at h
      rw [← h.1]
      exact runLoop_nActive K P fuel s s2 1 j hr
  · intro h fuel
    unfold run
    simp only [runLoop, countActive]
    rw [if_pos h, runLoop_shift K P fuel _ 1 1]
    unfold runBody
    cases runLoop K P fuel (scatterActivate K (apply K P (gather K P s true)) true) 1 with
    | none => rfl
    | some r =>
      simp only [Option.map_some']
      congr 2
      ring

theorem setFold_succ (f : Nat → Int) (n : Nat) (m : List Int) :
    (List.range (n + 1)).foldl (fun m i => m.set i (f i)) m =
      ((List.range n).foldl (fun m i => m.set i (f i)) m).set n (f n) := by
  simp [List.range_succ, List.foldl_append]

theorem length_setFold (f : Nat → Int) (n : Nat) (m : List Int) :
    ((List.range n).foldl (fun m i => m.set i (f i)) m).length = m.length := by
  induction n with
  | zero => rfl
  | succ n ih => rw [setFold_succ, List.length_set, ih]

/-- The loop `for i in [0,n): m[i] = f i`. -/
theorem rdI_setFold (f : Nat → Int) (n : Nat) (m : List Int) (k : Nat) :
    rdI ((List.range n).foldl (fun m i => m.set i (f i)) m) k =
      if k < n ∧ k < m.length then f k else rdI m k := by
  induction n with
  | zero =>
    rw [if_neg (by omega)]
    rfl
  | succ n ih =>
    rw [setFold_succ, rdI_set, length_setFold, ih]
    by_cases h : n = k ∧ n < m.length
    · rw [if_pos h, if_pos (by omega), h.1]
    · rw [if_neg h]
      by_cases h2 : k < n ∧ k < m.length
      · rw [if_pos h2, if_pos (by omega)]
      · rw [if_neg h2, if_neg (by omega)]

theorem rdI_phaseB (s : Engine VD ED GR) (flags : List Int) (k : Nat) :
    rdI (phaseB s flags) k =
      if k < s.numShards ∧ k < s.nActiveShardMap.length then
        scanTotal ((view flags (rdN s.vertexShardMap k)).take
          (rdN s.vertexShardMap (k + 1) - rdN s.vertexShardMap k))
      else rdI s.nActiveShardMap k := by
  unfold phaseB
  exact rdI_setFold (fun i => scanTotal ((view flags (rdN s.vertexShardMap i)).take
    (rdN s.vertexShardMap (i + 1) - rdN s.vertexShardMap i))) s.numShards s.nActiveShardMap k

theorem pairPlan_eq : setGraph 1 2 [0, 1, 1] [0, 0, 1] 10 = some pairPlan := rfl

end EngineClaims

/-! ## Lemmas on the gather phase -/

section GatherLemmas

variable {VD ED GR : Type}

theorem zip_fst_snd {α β : Type} (l : List (α × β)) :
    List.zip (l.map Prod.fst) (l.map Prod.snd) = l := by
  induction l with
  | nil => rfl
  | cons p ps ih => simp [ih]

/-- Inside a run of equal keys the segmented reduction only accumulates. -/
theorem reduceByKeyAux_run (identity : GR) (op : GR → GR → GR) (cur : Int) :
    ∀ (r : List (Int × GR)) (acc : GR) (tail : List (Int × GR)),
      (∀ p, p ∈ r → p.1 = cur) →
      reduceByKeyAux identity op cur acc (r ++ tail) =
        reduceByKeyAux identity op cur ((r.map Prod.snd).foldl op acc) tail := by
  intro r
  induction r with
  | nil => intro acc tail _; rfl
  | cons p ps ih =>
    intro acc tail h
    obtain ⟨k, v⟩ := p
    have hk : k = cur := h (k, v) (List.mem_cons_self _ _)
    subst hk
    simp only [List.cons_append, reduceByKeyAux, if_true, List.map_cons, List.foldl_cons]
    exact ih _ _ (fun q hq => h q (List.mem_cons_of_mem _ hq))

theorem length_writeAt {α : Type} (a : List α) (off : Nat) (out : List α) :
    (writeAt a off out).length = a.length := by
  unfold writeAt
  generalize List.range out.length = l
  induction l generalizing a with
  | nil => rfl
  | cons j js ih =>
    rw [List.foldl_cons, ih]
    split <;> simp

theorem getElem?_writeAt {α : Type} (a : List α) (off : Nat) (out : List α) (q : Nat) :
    (writeAt a off out)[q]? =
      if off ≤ q ∧ q < off + out.length ∧ q < a.length then out[q - off]? else a[q]? := by
  unfold writeAt
  have h : ∀ (n : Nat), n ≤ out.length →
      (((List.range n).foldl (fun a j => match out.get? j with
        | some x => a.set (off + j) x
        | none => a) a)[q]? =
      if off ≤ q ∧ q < off + n ∧ q < a.length then out[q - off]? else a[q]?) ∧
      ((List.range n).foldl (fun a j => match out.get? j with
        | some x => a.set (off + j) x
        | none => a) a).length = a.length := by
    intro n
    induction n with
    | zero =>
      intro _
      rw [if_neg (by omega)]
      exact ⟨rfl, rfl⟩
    | succ n ih =>
      intro hn
      obtain ⟨ih1, ih2⟩ := ih (by omega)
      rw [List.range_succ, List.foldl_append]
      simp only [List.foldl_cons, List.foldl_nil]
      have hx : out.get? n = some (out.get ⟨n, by omega⟩) := List.get?_eq_get (by omega)
      rw [hx]
      simp only
      refine ⟨?_, by rw [List.length_set, ih2]⟩
      rw [List.getElem?_set, ih2, ih1]
      by_cases hq : off + n = q
      · subst hq
        rw [if_pos rfl]
        by_cases hl : off + n < a.length
        · rw [if_pos hl, if_pos ⟨by omega, by omega, hl⟩]
          have e : off + n - off = n := by omega
          rw [e, List.getElem?_eq_getElem (by omega)]
          rfl
        · rw [if_neg hl, if_neg (by omega)]
          exact (List.getElem?_eq_none (by omega)).symm
      · rw [if_neg hq]
        by_cases hc : off ≤ q ∧ q < off + n ∧ q < a.length
        · rw [if_pos hc, if_pos (by omega)]
        · rw [if_neg hc, if_neg (by omega)]
  exact (h out.length (le_refl _)).1

theorem slotBlock_keys [Inhabited VD] [Inhabited ED] (P : Program VD ED GR)
    (sl : Slot VD ED GR) (indirect : Bool) (i : Nat) :
    slotBlock P sl indirect i ≠ [] ∧
    ∀ p, p ∈ slotBlock P sl indirect i → p.1 = rdI sl.m_active i + sl.m_vertexOffset := by
  unfold slotBlock gatherMapBlock
  simp only
  split
  · exact ⟨by simp, by intro p hp; simp at hp; rw [hp]⟩
  · rename_i hdeg
    constructor
    · intro h
      have hl := congrArg List.length h
      simp at hl
      omega
    · intro p hp
      obtain ⟨e, _, rfl⟩ := List.mem_map.mp hp
      rfl

theorem slotBlock_length [Inhabited VD] [Inhabited ED] (P : Program VD ED GR)
    (sl : Slot VD ED GR) (indirect : Bool) (i : Nat) :
    ((slotBlock P sl indirect i).length : Int) = edgeCount sl.m_srcOffsets sl.m_active i := by
  unfold slotBlock gatherMapBlock edgeCount
  simp only
  split
  · rename_i hdeg
    rw [max_eq_right (by omega)]
    rfl
  · rename_i hdeg
    rw [List.length_map, List.length_range, max_eq_left (by omega)]
    omega

theorem length_flatMap_int (block : Nat → List (Int × GR)) (c : Nat → Int) :
    ∀ (l : List Nat), (∀ i, i ∈ l → ((block i).length : Int) = c i) →
      ((l.flatMap block).length : Int) = (l.map c).sum := by
  intro l
  induction l with
  | nil => intro _; rfl
  | cons i is ih =>
    intro h
    rw [List.flatMap_cons, List.length_append, List.map_cons, List.sum_cons]
    push_cast
    rw [h i (List.mem_cons_self _ _), ih (fun j hj => h j (List.mem_cons_of_mem _ hj))]

theorem rdD_stage {α : Type} [Inhabited α] (l : List α) (off n x : Int) (hoff : 0 ≤ off)
    (hx : 0 ≤ x) (hxn : x < n) : rdD (stage l off n) x = rdD l (off + x) := by
  unfold rdD stage
  rw [if_pos hx, if_pos (by omega)]
  simp only [List.getD_eq_getElem?_getD, List.getElem?_take, List.getElem?_drop]
  rw [if_pos (by omega)]
  have e : (off + x).toNat = off.toNat + x.toNat := Int.toNat_add hoff hx
  rw [e]

/-- The edge state Gather reads from the slot of shard `k` is that of the
shard's in-edges when the edge state is sorted for Gather and the staged
range `[edgeShardMapCSR[k], edgeShardMapCSR[k+1])` starts where the in-edges of
the shard start and is at least as long. -/
theorem stage_edge_state_aligned [Inhabited ED] (s : Engine VD ED GR) (k : Nat)
    (hsort : s.sortEdgesForGather = true) (hex : s.edgeDataExist = true)
    (h0 : 0 ≤ rdI s.edgeShardMapCSC k)
    (heq : rdI s.edgeShardMapCSR k = rdI s.edgeShardMapCSC k)
    (hcnt : rdI s.edgeShardMapCSC (k + 1) ≤ rdI s.edgeShardMapCSR (k + 1)) :
    ∀ j : Int, 0 ≤ j → j < rdI s.edgeShardMapCSC (k + 1) - rdI s.edgeShardMapCSC k →
      rdD (copyGraphIn s k).m_edgeData
          (if !s.sortEdgesForGather then rdZ (copyGraphIn s k).m_edgeIndexCSC j else j) =
        inEdgeState s (rdI s.edgeShardMapCSC k + j) := by
  intro j hj hjn
  unfold inEdgeState
  simp only [copyGraphIn, hsort, hex, if_true, Bool.not_true, Bool.false_eq_true, if_false]
  rw [heq]
  exact rdD_stage _ _ _ _ h0 hj (by omega)

theorem vsm_chain (vsm : List Nat) (K : Nat)
    (hmono : ∀ k, k < K → rdN vsm k ≤ rdN vsm (k + 1)) :
    ∀ j k, j ≤ k → k ≤ K → rdN vsm j ≤ rdN vsm k := by
  intro j k hjk
  induction k with
  | zero =>
    intro _
    have : j = 0 := by omega
    subst this
    exact le_refl _
  | succ k ih =>
    intro hk
    rcases Nat.eq_or_lt_of_le hjk with h | h
    · subst h
      exact le_refl _
    · exact le_trans (ih (by omega) (by omega)) (hmono k (by omega))

theorem arrowPlan_eq : setGraph 1 2 [0, 0, 1] [0, 1, 1] 10 = some arrowPlan := rfl

end GatherLemmas

/-! ## The grouping of the active list -/

section Grouping

variable {VD ED GR : Type}

theorem cyclePlan_eq : setGraph 3 4 [0, 1, 2, 3, 4] [0, 1, 2, 3, 4] 3 = some cyclePlan := rfl

/-- C7 (active-list grouping), evaluated on the four-cycle planned with
`B = 3` (shards `[0,2)`, `[2,4)` and the empty `[4,4)`): after
`setActive(3, 4)` the per-shard counts are `-1, 1, 0`, whatever the kernels
do.  They are not the lengths of slices that make up the one-entry active
list: the first is negative, their sum is `0` and not `nActive = 1`, and
position `0` of the list lies in none of the three slices. -/
theorem C7_setActive_not_grouped :
    setGraph 3 4 [0, 1, 2, 3, 4] [0, 1, 2, 3, 4] 3 = some cyclePlan ∧
    ∀ K : Kernels Int Unit Int,
      (setActive K 3 4 (cycleEngine cyclePlan)).nActiveShardMap = [-1, 1, 0] ∧
      (setActive K 3 4 (cycleEngine cyclePlan)).nActive = 1 ∧
      sliceStart (setActive K 3 4 (cycleEngine cyclePlan))
        (setActive K 3 4 (cycleEngine cyclePlan)).numShards = 0 ∧
      (∀ k, k < 3 →
        ¬ (sliceStart (setActive K 3 4 (cycleEngine cyclePlan)) k ≤ 0 ∧
          0 < sliceStart (setActive K 3 4 (cycleEngine cyclePlan)) k +
            rdI (setActive K 3 4 (cycleEngine cyclePlan)).nActiveShardMap k)) ∧
      ¬ ActiveGrouped (setActive K 3 4 (cycleEngine cyclePlan)) := by
  refine ⟨rfl, fun K => ⟨rfl, rfl, rfl, ?_, ?_⟩⟩
  · intro k hk
    have e : (setActive K 3 4 (cycleEngine cyclePlan)).nActiveShardMap = [-1, 1, 0] := rfl
    unfold sliceStart
    rw [e]
    interval_cases k <;> decide
  · intro h
    have hK3 : (0 : Nat) < (setActive K 3 4 (cycleEngine cyclePlan)).numShards :=
      show (0 : Nat) < 3 by omega
    have h0 := (h.2 0 hK3).1
    have e : rdI (setActive K 3 4 (cycleEngine cyclePlan)).nActiveShardMap 0 = -1 := rfl
    rw [e] at h0
    omega

end Grouping

/-! ## Further claims on the shard planner -/

section PlannerClaims

variable {VD ED GR : Type}

/-- A position `e` between `f a` and `f b` lies in one of the intervals
`[f v, f (v + 1))` with `a <= v < b`. -/
theorem exists_interval (f : Nat → Int) (e : Int) (a : Nat) : ∀ (b : Nat), a ≤ b →
    f a ≤ e → e < f b → ∃ v, a ≤ v ∧ v < b ∧ f v ≤ e ∧ e < f (v + 1) := by
  intro b
  induction b with
  | zero =>
    intro hab h1 h2
    have : a = 0 := by omega
    subst this
    omega
  | succ n ih =>
    intro hab h1 h2
    rcases Nat.eq_or_lt_of_le hab with h | h
    · subst h
      omega
    · by_cases hn : e < f n
      · obtain ⟨v, hv1, hv2, hv3, hv4⟩ := ih (by omega) h1 hn
        exact ⟨v, hv1, by omega, hv3, hv4⟩
      · exact ⟨n, by omega, by omega, by omega, h2⟩

/-- The running maximum of the prefix-sum loop: after the iterations
`1..n` it is at least every histogram entry `hist[1..n]`. -/
theorem scanFold_maxV (hist : List Nat) (t : ShardTables)
    (ht : t.vertexShardMap = hist) : ∀ n, n < hist.length →
    ∀ i, 1 ≤ i → i ≤ n →
      rdN hist i ≤ ((List.range' 1 n).foldl scanStep t).maxVerticesPerShard := by
  intro n
  induction n with
  | zero => intro _ i h1 h2; omega
  | succ n ih =>
    intro hn i h1 h2
    rw [scanFold_succ]
    have hv : rdN ((List.range' 1 n).foldl scanStep t).vertexShardMap (n + 1) =
        rdN hist (n + 1) := by
      rw [scanFold_vsm, ht]
      unfold rdN
      rw [getD_inclScanLoop _ _ (by omega), if_neg (by omega)]
    simp only [scanStep, hv]
    rcases Nat.eq_or_lt_of_le h2 with h | h
    · subst h
      split <;> omega
    · have := ih (by omega) i h1 (by omega)
      split <;> omega

theorem buildTables_maxV (V K : Nat) (sm : List Nat) (src dst : List Int) (k : Nat)
    (hk : k < K) :
    rdN (buildTables V K sm src dst).vertexShardMap (k + 1) -
        rdN (buildTables V K sm src dst).vertexShardMap k ≤
      (buildTables V K sm src dst).maxVerticesPerShard := by
  have hlen : (accumLoop (fun i => rdN sm i + 1) (fun _ => 1) V
      (List.replicate (K + 1) 0)).length = K + 1 := by
    rw [length_accumLoop]
    simp
  have h1 : rdN (buildTables V K sm src dst).vertexShardMap (k + 1) =
      rdN (buildTables V K sm src dst).vertexShardMap k +
        rdN (accumLoop (fun i => rdN sm i + 1) (fun _ => 1) V (List.replicate (K + 1) 0))
          (k + 1) := by
    rw [buildTables_vsm]
    unfold rdN
    rw [getD_inclScanLoop _ _ (by rw [length_accumLoop]; simp),
      getD_inclScanLoop _ _ (by rw [length_accumLoop]; simp), if_pos (by omega),
      if_pos (by omega), Finset.sum_range_succ _ (k + 1)]
  have h2 := scanFold_maxV
    (accumLoop (fun i => rdN sm i + 1) (fun _ => 1) V (List.replicate (K + 1) 0))
    ((List.range V).foldl (histStep sm src dst)
      { vertexShardMap := List.replicate (K + 1) 0
        edgeShardMapCSR := List.replicate (K + 1) 0
        edgeShardMapCSC := List.replicate (K + 1) 0
        maxVerticesPerShard := 0 })
    (by rw [histFold_vsm]) K (by omega) (k + 1) (by omega) (by omega)
  have h3 : (buildTables V K sm src dst).maxVerticesPerShard =
      ((List.range' 1 K).foldl scanStep ((List.range V).foldl (histStep sm src dst)
      { vertexShardMap := List.replicate (K + 1) 0
        edgeShardMapCSR := List.replicate (K + 1) 0
        edgeShardMapCSC := List.replicate (K + 1) 0
        maxVerticesPerShard := 0 })).maxVerticesPerShard := rfl
  rw [h3, h1]
  omega

theorem PlanFacts.maxV {V : Nat} {src dst : List Int} {B : Int} {p : ShardPlan}
    (f : PlanFacts V src dst B p) (k : Nat) (hk : k < p.numShards) :
    rdN p.vertexShardMap (k + 1) - rdN p.vertexShardMap k ≤ p.maxVerticesPerShard := by
  have h := buildTables_maxV V p.numShards p.shardMapTmp src dst k hk
  rw [f.tables] at h
  exact h

/-- The part of the slot-capacity claim that holds: for non-decreasing offset
arrays and `B > 0`, without overflow of line 1419, the model of `setGraph`
finishes, and no shard of the plan owns more than `maxVerticesPerShard` vertices, so the copies of `copyGraphIn` into the
two offset arrays of the slot (`|V_k| + 1` entries into `maxVerticesPerShard + 1`)
fit. -/
theorem slot_vertex_capacity (V : Nat) (src dst : List Int) (B : Int)
    (hsl : src.length = V + 1) (hdl : dst.length = V + 1)
    (hs : NonDecreasing src) (hd : NonDecreasing dst) (hB : 0 < B)
    (hov : NoOverflow (rdI src V + rdI dst V) B) :
    (∃ fuel p, setGraph fuel V src dst B = some p) ∧
    ∀ fuel p, setGraph fuel V src dst B = some p →
      ∀ k, k < p.numShards →
        rdN p.vertexShardMap (k + 1) - rdN p.vertexShardMap k ≤ p.maxVerticesPerShard ∧
        ((rdN p.vertexShardMap (k + 1) : Int) - rdN p.vertexShardMap k) + 1 ≤
          (slotAlloc p B).offsets := by
  refine ⟨setGraph_terminates hsl hdl hs hd hB hov, ?_⟩
  intro fuel p h k hk
  have f := setGraph_facts hsl hdl hs hd hB hov h
  have h1 := f.maxV k hk
  refine ⟨h1, ?_⟩
  show _ ≤ (p.maxVerticesPerShard : Int) + 1
  omega

/-- C11 (planner minimality), evaluated on the three-cycle `0 -> 1 -> 2 -> 0`
with the budget `B = 3`: every vertex has the weight `2 <= B`, yet the planner
makes `K = 2` shards, `[0,2)` and `[2,3)`, the first of which holds
`2 + 2 = 4 > B` edges; and no split of `[0,3)` into two contiguous ranges
keeps both ranges within `B` (three ranges are needed), so `K` is not the
number of ranges of a smallest split within the budget either. -/
theorem C11_minimality_fails :
    ∃ p, setGraph 2 3 [0, 1, 2, 3] [0, 1, 2, 3] 3 = some p ∧
      (∀ v, v < 3 →
        (rdI [0, 1, 2, 3] (v + 1) - rdI [0, 1, 2, 3] v) +
          (rdI [0, 1, 2, 3] (v + 1) - rdI [0, 1, 2, 3] v) ≤ 3) ∧
      p.numShards = 2 ∧
      p.vertexShardMap = [0, 2, 3] ∧
      (rdI p.edgeShardMapCSC 1 - rdI p.edgeShardMapCSC 0) +
        (rdI p.edgeShardMapCSR 1 - rdI p.edgeShardMapCSR 0) = 4 ∧
      ¬ ((rdI p.edgeShardMapCSC 1 - rdI p.edgeShardMapCSC 0) +
        (rdI p.edgeShardMapCSR 1 - rdI p.edgeShardMapCSR 0) ≤ 3) ∧
      (∀ m, m ≤ 3 →
        ¬ (rdI (edgesPerVertexTmpScan 3 [0, 1, 2, 3] [0, 1, 2, 3]) m -
              rdI (edgesPerVertexTmpScan 3 [0, 1, 2, 3] [0, 1, 2, 3]) 0 ≤ 3 ∧
            rdI (edgesPerVertexTmpScan 3 [0, 1, 2, 3] [0, 1, 2, 3]) 3 -
              rdI (edgesPerVertexTmpScan 3 [0, 1, 2, 3] [0, 1, 2, 3]) m ≤ 3)) :=
  ⟨_, rfl, by decide, by decide, by decide, by decide, by decide, by decide⟩

/-- C12 (heavy vertex), evaluated on the graph with the edges `0 -> 1`,
`2 -> 1`, `1 -> 2` (`srcOffsets = [0,0,2,3]`, `dstOffsets = [0,1,2,3]`) and the
budget `B = 2`: vertex `1` has the weight `2 + 1 = 3 > B`, and the planner puts
it into shard `0` together with vertex `0` (`shardMapTmp = [0,0,1]`, shard `0`
is the range `[0,2)`). -/
theorem C12_heavy_vertex_shares_shard :
    ∃ p, setGraph 3 3 [0, 0, 2, 3] [0, 1, 2, 3] 2 = some p ∧
      (rdI [0, 0, 2, 3] 2 - rdI [0, 0, 2, 3] 1) + (rdI [0, 1, 2, 3] 2 - rdI [0, 1, 2, 3] 1) = 3 ∧
      p.shardMapTmp = [0, 0, 1] ∧
      p.vertexShardMap = [0, 2, 3, 3] ∧
      rdN p.shardMapTmp 0 = rdN p.shardMapTmp 1 :=
  ⟨_, rfl, by decide, by decide, by decide, by decide⟩

/-- C13 (empty graph) as the specification states it fails: on the graph
with `V = 0` and `E = 0` (`srcOffsets = dstOffsets = [0]`) and `B = 3` the
planner leaves `numShards = 1`, not `0`. -/
theorem C13_empty_graph_not_zero_shards :
    ∃ p, setGraph 1 0 [0] [0] 3 = some p ∧ p.numShards = 1 ∧ ¬ p.numShards = 0 :=
  ⟨_, rfl, by decide, by decide⟩

/-- C13 (empty graph), amended: for every budget `B > 0`, `setGraph` on the
graph with `V = 0` and `E = 0` finishes after one round of the planning loop
(any fuel of at least one round) and leaves `K = numShards = 1`: one shard,
the empty range `[0,0)` without edges (`vertexShardMap = [0,0]`,
`edgeShardMapCSR = edgeShardMapCSC = [0,0]`, `maxVerticesPerShard = 0`). -/
theorem C13_empty_graph_one_shard (B : Int) (hB : 0 < B) (fuel : Nat) :
    setGraph (fuel + 1) 0 [0] [0] B =
      some { nVertices := 0, numShards := 1, maxVerticesPerShard := 0, shardMapTmp := [],
             vertexShardMap := [0, 0], edgeShardMapCSR := [0, 0], edgeShardMapCSC := [0, 0],
             srcOffsets := [0], dstOffsets := [0] } := by
  have hub : upper_bound [0] B = 1 := by
    unfold upper_bound
    simp only [List.length_singleton, upperBoundLoop]
    have : ¬ B < rdI [0] 0 := by
      have : rdI [0] 0 = 0 := rfl
      omega
    simp [this]
  unfold setGraph
  have hscan : edgesPerVertexTmpScan 0 [0] [0] = [0] := rfl
  rw [hscan]
  simp only [planLoop, planInit, hub]
  rfl

/-- C13 amended, at `B = 3` with fuel for one round. -/
theorem C13_empty_graph_one_shard_witness :
    setGraph (0 + 1) 0 [0] [0] 3 =
      some { nVertices := 0, numShards := 1, maxVerticesPerShard := 0, shardMapTmp := [],
             vertexShardMap := [0, 0], edgeShardMapCSR := [0, 0], edgeShardMapCSC := [0, 0],
             srcOffsets := [0], dstOffsets := [0] } :=
  C13_empty_graph_one_shard 3 (by decide) 0

/-- The edge shard maps the lines 1429-1450 compute when the store past
`shardMapTmp` lands in unused memory and no addition of line 1419 overflows:
for offset arrays of `V + 1` entries that start at `0` and are non-decreasing,
and `B > 0`, for every `k` in `[0,K]`, `edgeShardMapCSC[k] = srcOffsets_global[vertexShardMap[k]]` and
`edgeShardMapCSR[k] = dstOffsets_global[vertexShardMap[k]]`; for every shard
`k` the positions `e` of the in-edges of its vertices (`srcOffsets[v] <= e <
srcOffsets[v+1]` for a `v` of `V_k`) are exactly those of
`[edgeShardMapCSC[k], edgeShardMapCSC[k+1])`, likewise the out-edges with
`edgeShardMapCSR`; and `edgeShardMapCSC[K] = edgeShardMapCSR[K] = E` when
`srcOffsets[V] = dstOffsets[V] = E`. -/
theorem setGraph_edge_shard_maps (V : Nat) (src dst : List Int) (B : Int)
    (hsl : src.length = V + 1) (hdl : dst.length = V + 1)
    (hs : NonDecreasing src) (hd : NonDecreasing dst) (hB : 0 < B)
    (hov : NoOverflow (rdI src V + rdI dst V) B)
    (hs0 : rdI src 0 = 0) (hd0 : rdI dst 0 = 0) :
    (∃ fuel p, setGraph fuel V src dst B = some p) ∧
    ∀ fuel p, setGraph fuel V src dst B = some p →
      (∀ k, k ≤ p.numShards →
        rdI p.edgeShardMapCSC k = rdI src (rdN p.vertexShardMap k) ∧
        rdI p.edgeShardMapCSR k = rdI dst (rdN p.vertexShardMap k)) ∧
      (∀ k, k < p.numShards → ∀ e : Int,
        ((∃ v, rdN p.vertexShardMap k ≤ v ∧ v < rdN p.vertexShardMap (k + 1) ∧
            rdI src v ≤ e ∧ e < rdI src (v + 1)) ↔
          (rdI p.edgeShardMapCSC k ≤ e ∧ e < rdI p.edgeShardMapCSC (k + 1))) ∧
        ((∃ v, rdN p.vertexShardMap k ≤ v ∧ v < rdN p.vertexShardMap (k + 1) ∧
            rdI dst v ≤ e ∧ e < rdI dst (v + 1)) ↔
          (rdI p.edgeShardMapCSR k ≤ e ∧ e < rdI p.edgeShardMapCSR (k + 1)))) ∧
      (∀ E : Int, rdI src V = E → rdI dst V = E →
        rdI p.edgeShardMapCSC p.numShards = E ∧ rdI p.edgeShardMapCSR p.numShards = E) := by
  refine ⟨setGraph_terminates hsl hdl hs hd hB hov, ?_⟩
  intro fuel p h
  have f := setGraph_facts hsl hdl hs hd hB hov h
  have hcsc : ∀ k, k ≤ p.numShards →
      rdI p.edgeShardMapCSC k = rdI src (rdN p.vertexShardMap k) := by
    intro k hk
    rw [f.csc_eq k hk, hs0, sub_zero]
  have hcsr : ∀ k, k ≤ p.numShards →
      rdI p.edgeShardMapCSR k = rdI dst (rdN p.vertexShardMap k) := by
    intro k hk
    rw [f.csr_eq k hk, hd0, sub_zero]
  have key : ∀ (a : List Int), a.length = V + 1 → NonDecreasing a →
      ∀ k, k < p.numShards → ∀ e : Int,
      ((∃ v, rdN p.vertexShardMap k ≤ v ∧ v < rdN p.vertexShardMap (k + 1) ∧
          rdI a v ≤ e ∧ e < rdI a (v + 1)) ↔
        (rdI a (rdN p.vertexShardMap k) ≤ e ∧ e < rdI a (rdN p.vertexShardMap (k + 1)))) := by
    intro a hal ha k hk e
    have hle := f.vsm_le (k + 1) (by omega)
    have hmono := f.vsm_mono k (k + 1) (by omega) (by omega)
    constructor
    · rintro ⟨v, hv1, hv2, hv3, hv4⟩
      have h1 : rdI a (rdN p.vertexShardMap k) ≤ rdI a v := ha.rdI_le hv1 (by omega)
      have h2 : rdI a (v + 1) ≤ rdI a (rdN p.vertexShardMap (k + 1)) :=
        ha.rdI_le (by omega) (by omega)
      omega
    · rintro ⟨h1, h2⟩
      exact exists_interval (fun v => rdI a v) e _ _ hmono h1 h2
  refine ⟨fun k hk => ⟨hcsc k hk, hcsr k hk⟩, ?_, ?_⟩
  · intro k hk e
    rw [hcsc k (by omega), hcsc (k + 1) (by omega), hcsr k (by omega), hcsr (k + 1) (by omega)]
    exact ⟨key src hsl hs k hk e, key dst hdl hd k hk e⟩
  · intro E h1 h2
    rw [hcsc _ (le_refl _), hcsr _ (le_refl _), f.vsm_last]
    exact ⟨h1, h2⟩

/-- C14 (the edge shard maps are the edge prefix sums of the shard plan),
evaluated on the six-cycle `0 -> 1 -> 2 -> 3 -> 4 -> 5 -> 0` with the budget `B = 3`:
some round of the planning loop stores at `shardMapTmp[6]`, and `6` is no
index of the array of `V = 6` entries; in the memory the loop leaves, the word
after the array holds the shard id `3`.  The store precedes the allocation
and the construction of `edgeShardMapCSC` and `edgeShardMapCSR` (lines
1429-1450), of which the claim speaks. -/
theorem C14_store_before_edge_maps :
    (∃ fuel ws, setGraphWrites fuel 6 [0, 1, 2, 3, 4, 5, 6] [0, 1, 2, 3, 4, 5, 6] 3 = some ws ∧ 6 ∈ ws ∧ ¬ 6 < 6) ∧
    (∃ r, planLoop (edgesPerVertexTmpScan 6 [0, 1, 2, 3, 4, 5, 6] [0, 1, 2, 3, 4, 5, 6]) 3 4 (planInit 6 3) = some r ∧
      r.i = 7 ∧ r.shardMapTmp.take 6 = [0, 0, 1, 1, 2, 3] ∧ rdN r.shardMapTmp 6 = 3) :=
  ⟨⟨4, _, rfl, by decide, by decide⟩, ⟨_, rfl, rfl, rfl, rfl⟩⟩

theorem fanPlan_eq : setGraph 3 5 [0, 0, 0, 2, 3, 4] [0, 1, 4, 4, 4, 4] 3 = some fanPlan := rfl

/-- C15 (slot capacity), evaluated on the graph on five vertices with the
edges `0 -> 2`, `1 -> 2`, `1 -> 3`, `1 -> 4` (`srcOffsets = [0,0,0,2,3,4]`,
`dstOffsets = [0,1,4,4,4,4]`) and the budget `B = 3`: no vertex weighs more
than `B`, the slots are allocated for `B = 3` edges, and staging shard `0`
(the vertices `0` and `1`) copies `edgeShardMapCSR[1] - edgeShardMapCSR[0] = 4`
out-edges into `m_dsts`: the copy does not fit the slot. -/
theorem C15_slot_capacity_exceeded :
    setGraph 3 5 [0, 0, 0, 2, 3, 4] [0, 1, 4, 4, 4, 4] 3 = some fanPlan ∧
    (∀ v, v < 5 →
      (rdI [0, 0, 0, 2, 3, 4] (v + 1) - rdI [0, 0, 0, 2, 3, 4] v) +
        (rdI [0, 1, 4, 4, 4, 4] (v + 1) - rdI [0, 1, 4, 4, 4, 4] v) ≤ 3) ∧
    (slotAlloc fanPlan 3).edges = 3 ∧
    (copyGraphIn fanEngine 0).m_nVertices = 2 ∧
    (copyGraphIn fanEngine 0).m_nCSREdges = 4 ∧
    (copyGraphIn fanEngine 0).m_dsts.length = 4 ∧
    ¬ CopyFits (slotAlloc fanPlan 3) (copyGraphIn fanEngine 0) :=
  ⟨rfl, by decide, rfl, rfl, rfl, rfl, by decide⟩

/-- The assignment of the planner when no addition of line 1419 overflows
(and the store past `shardMapTmp` lands in unused memory): with
`W[i] = srcOffsets[i] + dstOffsets[i]` non-decreasing and `B > 0`, round `k` stopped at the smallest index `p` with `W[p] > (k+1)*B` (every
vertex below `vertexShardMap[k+1]` has `W[v] <= (k+1)*B`, and the vertex at
`vertexShardMap[k+1]`, when there is one, has a larger `W`), and the vertices
of shard `k` are those of `[vertexShardMap[k], vertexShardMap[k+1])`; hence
every vertex `v < V` has the shard `0` if `W[v] <= B`, and otherwise its shard
is the unique `k >= 1` with `k*B < W[v] <= (k+1)*B`. -/
theorem setGraph_assignment_rule (V : Nat) (src dst : List Int) (B : Int)
    (hsl : src.length = V + 1) (hdl : dst.length = V + 1)
    (hs : NonDecreasing src) (hd : NonDecreasing dst) (hB : 0 < B)
    (hov : NoOverflow (rdI src V + rdI dst V) B) :
    (∃ fuel p, setGraph fuel V src dst B = some p) ∧
    ∀ fuel p, setGraph fuel V src dst B = some p →
      (∀ k, k < p.numShards →
        (∀ v, v < rdN p.vertexShardMap (k + 1) →
          rdI src v + rdI dst v ≤ ((k : Int) + 1) * B) ∧
        (rdN p.vertexShardMap (k + 1) < V →
          ((k : Int) + 1) * B <
            rdI src (rdN p.vertexShardMap (k + 1)) + rdI dst (rdN p.vertexShardMap (k + 1))) ∧
        (∀ v, v < V → (rdN p.shardMapTmp v = k ↔
          rdN p.vertexShardMap k ≤ v ∧ v < rdN p.vertexShardMap (k + 1)))) ∧
      (∀ v, v < V →
        (rdI src v + rdI dst v ≤ B → rdN p.shardMapTmp v = 0) ∧
        (B < rdI src v + rdI dst v →
          1 ≤ rdN p.shardMapTmp v ∧
          (rdN p.shardMapTmp v : Int) * B < rdI src v + rdI dst v ∧
          rdI src v + rdI dst v ≤ ((rdN p.shardMapTmp v : Int) + 1) * B ∧
          ∀ k : Nat, 1 ≤ k → (k : Int) * B < rdI src v + rdI dst v →
            rdI src v + rdI dst v ≤ ((k : Int) + 1) * B → rdN p.shardMapTmp v = k)) := by
  refine ⟨setGraph_terminates hsl hdl hs hd hB hov, ?_⟩
  intro fuel p h
  have f := setGraph_facts hsl hdl hs hd hB hov h
  have mulmono : ∀ a b : Nat, a + 1 ≤ b → ((a : Int) + 1) * B ≤ (b : Int) * B := by
    intro a b hab
    apply mul_le_mul_of_nonneg_right _ (le_of_lt hB)
    exact_mod_cast hab
  constructor
  · intro k hk
    refine ⟨?_, ?_, fun v hv => f.shard_iff k hk v hv⟩
    · intro v hv
      have hle := f.vsm_le (k + 1) (by omega)
      have hvV : v < V := by omega
      have h1 := (f.vsm_iff (k + 1) (by omega) v hvV).mpr hv
      have h2 := (f.sm_weight v hvV).1
      have h3 := mulmono (rdN p.shardMapTmp v) (k + 1) (by omega)
      have h4 : ((k + 1 : Nat) : Int) = (k : Int) + 1 := by push_cast; ring
      rw [h4] at h3
      omega
    · intro hlt
      have h1 : ¬ rdN p.shardMapTmp (rdN p.vertexShardMap (k + 1)) < k + 1 := by
        intro hc
        have := (f.vsm_iff (k + 1) (by omega) _ hlt).mp hc
        omega
      have h2 := (f.sm_weight _ hlt).2 (by omega)
      have h3 := mulmono k (rdN p.shardMapTmp (rdN p.vertexShardMap (k + 1))) (by omega)
      omega
  · intro v hv
    obtain ⟨w1, w2⟩ := f.sm_weight v hv
    constructor
    · intro hle
      by_contra hne
      have h2 := w2 (by omega)
      have h3 := mulmono 0 (rdN p.shardMapTmp v) (by omega)
      simp only [Nat.cast_zero, zero_add, one_mul] at h3
      omega
    · intro hgt
      have hpos : 1 ≤ rdN p.shardMapTmp v := by
        by_contra hc
        have h0 : rdN p.shardMapTmp v = 0 := by omega
        rw [h0] at w1
        simp only [Nat.cast_zero, zero_add, one_mul] at w1
        omega
      refine ⟨hpos, w2 hpos, w1, ?_⟩
      intro k hk1 hk2 hk3
      have h2 := w2 hpos
      rcases Nat.lt_trichotomy (rdN p.shardMapTmp v) k with hlt | heq | hgt2
      · have := mulmono (rdN p.shardMapTmp v) k (by omega)
        omega
      · exact heq
      · have := mulmono k (rdN p.shardMapTmp v) (by omega)
        omega

set_option maxRecDepth 100000 in
/-- C18 (planner assignment rule), evaluated on the graph with `V = 2`,
`srcOffsets = dstOffsets = [0, 1046983116, 1046983116]` (the prefix weights are
`W = [0, 2093966232, 2093966232]`) and the budget `B = 91042010`, the engine's
`maxEdgesPerShard`: `W[1]` lies in `(23*B, 24*B]`, so the claim assigns vertex `1`
to shard `23`.  The budget line `24*B = 2185008240` of the round of shard `23` is
no value of the machine type; line 1419 wraps it around to `-2109959056`, the
planning loop runs `165` rounds and assigns vertex `1` to shard `164`. -/
theorem C18_budget_line_wraps :
    (23 : Int) * 91042010 <
      rdI (edgesPerVertexTmpScan 2 [0, 1046983116, 1046983116] [0, 1046983116, 1046983116]) 1 ∧
    rdI (edgesPerVertexTmpScan 2 [0, 1046983116, 1046983116] [0, 1046983116, 1046983116]) 1 ≤
      ((23 : Int) + 1) * 91042010 ∧
    wrapInt32 (23 * 91042010 + 91042010) = -2109959056 ∧
    ¬ NoOverflow (rdI [0, 1046983116, 1046983116] 2 + rdI [0, 1046983116, 1046983116] 2)
      91042010 ∧
    ∃ r, planLoop
        (edgesPerVertexTmpScan 2 [0, 1046983116, 1046983116] [0, 1046983116, 1046983116])
        91042010 165 (planInit 2 91042010) = some r ∧
      r.numShards = 165 ∧ rdN r.shardMapTmp 1 = 164 ∧ ¬ rdN r.shardMapTmp 1 = 23 := by
  refine ⟨by decide, by decide, by decide, by decide, ?_⟩
  exact ⟨PlanState.mk 3 165 (-2066895524) [0, 164, 164], by decide, rfl, rfl, by decide⟩

end PlannerClaims

/-! ## Claims on the edge counts and on opting out of a phase -/

section Counts

variable {VD ED GR : Type}

theorem length_exclScan (c : List Int) : ∀ acc, (exclScan c acc).length = c.length := by
  induction c with
  | nil => intro acc; rfl
  | cons x xs ih => intro acc; simp [exclScan, ih]

/-- Entry `i` of the exclusive scan is the start value plus `c[0] + ... + c[i-1]`. -/
theorem rdI_exclScan (c : List Int) : ∀ (acc : Int) (i : Nat), i < c.length →
    rdI (exclScan c acc) i = acc + ∑ t in Finset.range i, rdI c t := by
  induction c with
  | nil => intro acc i hi; simp at hi
  | cons x xs ih =>
    intro acc i hi
    cases i with
    | zero => simp [exclScan, rdI]
    | succ i =>
      have hi2 : i < xs.length := by simpa using hi
      have e1 : rdI (exclScan (x :: xs) acc) (i + 1) = rdI (exclScan xs (acc + x)) i := by
        simp [exclScan, rdI]
      have e2 : ∀ t, rdI (x :: xs) (t + 1) = rdI xs t := by
        intro t
        simp [rdI]
      have e3 : rdI (x :: xs) 0 = x := by simp [rdI]
      rw [e1, ih _ _ hi2, Finset.sum_range_succ', e3]
      simp only [e2]
      ring

theorem rdI_map_range (f : Nat → Int) (n t : Nat) (ht : t < n) :
    rdI ((List.range n).map f) t = f t := by
  unfold rdI
  rw [List.getD_eq_getElem _ _ (by simpa using ht)]
  simp

theorem sum_map_range (f : Nat → Int) (n : Nat) :
    ((List.range n).map f).sum = ∑ t in Finset.range n, f t := by
  induction n with
  | zero => simp
  | succ n ih =>
    rw [List.range_succ, List.map_append, List.sum_append, ih, Finset.sum_range_succ]
    simp

/-- Partial sums of counts that are all at least `1` grow by at least `1` per
entry. -/
theorem sum_range_step (f : Nat → Int) (hf : ∀ t, 1 ≤ f t) (i : Nat) : ∀ j, i ≤ j →
    (∑ t in Finset.range i, f t) + ((j : Int) - i) ≤ ∑ t in Finset.range j, f t := by
  intro j
  induction j with
  | zero =>
    intro h
    have : i = 0 := by omega
    subst this
    simp
  | succ n ih =>
    intro h
    rcases Nat.eq_or_lt_of_le h with h1 | h1
    · subst h1
      simp
    · have := ih (by omega)
      have := hf n
      rw [Finset.sum_range_succ]
      push_cast
      omega

theorem edgeCount_pos (m_offsets m_active : List Int) (i : Nat) :
    1 ≤ edgeCount m_offsets m_active i := by
  unfold edgeCount
  exact le_max_right _ _

/-- C16 (phase opt-out) as the specification states it fails for
`scatterActivate`: on the two-vertex graph with the edge `1 -> 0`, vertex `1`
the only active vertex, `scatterActivate(haveScatter = false)` with a set
`applyRet` entry changes `activeFlags` from `[0,0]` to `[1,0]`, and with a clear
`applyRet` entry it changes `nActivePerShard` from `[1]` to `[0]`, whatever the
kernels do. -/
theorem C16_scatterActivate_false_changes_state :
    (pairState [1, 0]).activeFlags = [0, 0] ∧
    (pairState [0, 0]).nActiveShardMap = [1] ∧
    ∀ K : Kernels Int Unit Int,
      (scatterActivate K (pairState [1, 0]) false).activeFlags = [1, 0] ∧
      (scatterActivate K (pairState [0, 0]) false).nActiveShardMap = [0] :=
  ⟨rfl, rfl, fun _ => ⟨rfl, rfl⟩⟩

/-- C19 (gather edge count with virtual edge): for every offsets array,
active list and position `i`, `EdgeCountIterator` yields
`c_i = max(1, offsets[a+1] - offsets[a])` with `a = active[i]`, which is the
in-degree when that is at least `1` and `1` when it is `0`; consequently the
exclusive scan of the `n` counts (entry `i` is `c_0 + ... + c_(i-1)`) is
strictly increasing, every entry is below the total `T`, and `T >= n`. -/
theorem C19_gather_edge_count (m_offsets m_active : List Int) (n : Nat) :
    (∀ i, edgeCount m_offsets m_active i =
        max 1 (rdZ m_offsets (rdI m_active i + 1) - rdZ m_offsets (rdI m_active i)) ∧
      (1 ≤ rdZ m_offsets (rdI m_active i + 1) - rdZ m_offsets (rdI m_active i) →
        edgeCount m_offsets m_active i =
          rdZ m_offsets (rdI m_active i + 1) - rdZ m_offsets (rdI m_active i)) ∧
      (rdZ m_offsets (rdI m_active i + 1) - rdZ m_offsets (rdI m_active i) = 0 →
        edgeCount m_offsets m_active i = 1)) ∧
    (exclScan ((List.range n).map (edgeCount m_offsets m_active)) 0).length = n ∧
    (∀ i, i < n → rdI (exclScan ((List.range n).map (edgeCount m_offsets m_active)) 0) i =
      ∑ t in Finset.range i, edgeCount m_offsets m_active t) ∧
    scanTotal ((List.range n).map (edgeCount m_offsets m_active)) =
      ∑ t in Finset.range n, edgeCount m_offsets m_active t ∧
    (∀ i j, i < j → j < n →
      rdI (exclScan ((List.range n).map (edgeCount m_offsets m_active)) 0) i <
        rdI (exclScan ((List.range n).map (edgeCount m_offsets m_active)) 0) j) ∧
    (∀ i, i < n →
      rdI (exclScan ((List.range n).map (edgeCount m_offsets m_active)) 0) i <
        scanTotal ((List.range n).map (edgeCount m_offsets m_active))) ∧
    (n : Int) ≤ scanTotal ((List.range n).map (edgeCount m_offsets m_active)) := by
  have hscan : ∀ i, i < n →
      rdI (exclScan ((List.range n).map (edgeCount m_offsets m_active)) 0) i =
        ∑ t in Finset.range i, edgeCount m_offsets m_active t := by
    intro i hi
    rw [rdI_exclScan _ _ _ (by simpa using hi), zero_add]
    apply Finset.sum_congr rfl
    intro t ht
    exact rdI_map_range _ n t (by have := Finset.mem_range.mp ht; omega)
  have htot : scanTotal ((List.range n).map (edgeCount m_offsets m_active)) =
      ∑ t in Finset.range n, edgeCount m_offsets m_active t := by
    rw [scanTotal_eq_sum, sum_map_range]
  have hstep := sum_range_step (edgeCount m_offsets m_active) (edgeCount_pos m_offsets m_active)
  refine ⟨?_, ?_, hscan, htot, ?_, ?_, ?_⟩
  · intro i
    refine ⟨?_, ?_, ?_⟩
    · show max (rdZ m_offsets (rdI m_active i + 1) - rdZ m_offsets (rdI m_active i)) 1 = _
      exact max_comm _ _
    · intro h
      show max (rdZ m_offsets (rdI m_active i + 1) - rdZ m_offsets (rdI m_active i)) 1 = _
      exact max_eq_left h
    · intro h
      show max (rdZ m_offsets (rdI m_active i + 1) - rdZ m_offsets (rdI m_active i)) 1 = 1
      rw [h]
      rfl
  · rw [length_exclScan]
    simp
  · intro i j hij hj
    rw [hscan i (by omega), hscan j hj]
    have := hstep i j (by omega)
    omega
  · intro i hi
    rw [hscan i hi, htot]
    have := hstep i n (by omega)
    omega
  · rw [htot]
    have := hstep 0 n (by omega)
    simp at this
    omega

/-- C20 (scatter edge count) as the specification states it fails: on the
staged slot of the two-vertex graph with the edge `1 -> 0`, with vertex `1`
the only active vertex and `applyRet = [0,1]`, the entry at the vertex id
`a = 1` is set, so the specification's count for position `0` is the
out-degree `1` of vertex `1`; the count `PredicatedEdgeCountIterator` yields is `0`,
because it reads `applyRet[0]`, and the slot's `scatterActivate` sets no flag. -/
theorem C20_predicate_by_vertex_fails :
    rdI (copyGraphIn (pairState [0, 1]) 0).m_active 0 = 1 ∧
    rdZ (copyGraphIn (pairState [0, 1]) 0).m_applyRet 1 = 1 ∧
    predicatedEdgeCountByVertex (copyGraphIn (pairState [0, 1]) 0).m_dstOffsets
      (copyGraphIn (pairState [0, 1]) 0).m_active (copyGraphIn (pairState [0, 1]) 0).m_applyRet 0
      = 1 ∧
    predicatedEdgeCount (copyGraphIn (pairState [0, 1]) 0).m_dstOffsets
      (copyGraphIn (pairState [0, 1]) 0).m_active (copyGraphIn (pairState [0, 1]) 0).m_applyRet 0
      = 0 ∧
    shardScatterActivate (copyGraphIn (pairState [0, 1]) 0) [0, 0] true = [0, 0] := by
  refine ⟨by decide, by decide, by decide, by decide, by decide⟩

/-- C20 (scatter edge count), amended: for every engine state, staged shard
`k` and position `i`, the count `scatterActivate` uses is
`c_i = dstOffsetsLocal[a+1] - dstOffsetsLocal[a]` with `a = active[vertexShardMap[k] + i]`
if `applyRet[vertexShardMap[k] + i]` is non-zero and `0` otherwise: `applyRet` is
read at the list position `i` of the shard's slice, not at the vertex id `a`;
and the slot's `scatterActivate` is the interval gather over the exclusive scan
of these counts (nothing when their total is `0`). -/
theorem C20_predicate_by_position (s : Engine VD ED GR) (k : Nat) (activeFlags : List Int)
    (haveScatter : Bool) :
    (∀ i, predicatedEdgeCount (copyGraphIn s k).m_dstOffsets (copyGraphIn s k).m_active
        (copyGraphIn s k).m_applyRet i =
      if rdI s.applyRet (rdN s.vertexShardMap k + i) ≠ 0 then
        rdZ (copyGraphIn s k).m_dstOffsets (rdI s.active (rdN s.vertexShardMap k + i) + 1) -
          rdZ (copyGraphIn s k).m_dstOffsets (rdI s.active (rdN s.vertexShardMap k + i))
      else 0) ∧
    shardScatterActivate (copyGraphIn s k) activeFlags haveScatter =
      if scanTotal ((List.range (rdI s.nActiveShardMap k).toNat).map
          (predicatedEdgeCount (copyGraphIn s k).m_dstOffsets (copyGraphIn s k).m_active
            (copyGraphIn s k).m_applyRet)) = 0 then activeFlags
      else
        intervalGather
          (scanTotal ((List.range (rdI s.nActiveShardMap k).toNat).map
            (predicatedEdgeCount (copyGraphIn s k).m_dstOffsets (copyGraphIn s k).m_active
              (copyGraphIn s k).m_applyRet)))
          (activateGather (copyGraphIn s k).m_dstOffsets (copyGraphIn s k).m_active)
          (exclScan ((List.range (rdI s.nActiveShardMap k).toNat).map
            (predicatedEdgeCount (copyGraphIn s k).m_dstOffsets (copyGraphIn s k).m_active
              (copyGraphIn s k).m_applyRet)) 0)
          (rdI s.nActiveShardMap k).toNat (copyGraphIn s k).m_dsts activeFlags := by
  constructor
  · intro i
    have e1 : rdI (copyGraphIn s k).m_active i = rdI s.active (rdN s.vertexShardMap k + i) :=
      rdI_view s.active (rdN s.vertexShardMap k) i
    have e2 : rdI (copyGraphIn s k).m_applyRet i = rdI s.applyRet (rdN s.vertexShardMap k + i) :=
      rdI_view s.applyRet (rdN s.vertexShardMap k) i
    unfold predicatedEdgeCount
    simp only [e1, e2]
  · rfl

end Counts

/-! ## Claims on `setActive` in closed form and on the planner's guarantees -/

section PlannerGuarantees

variable {VD ED GR : Type}

/-- The case analysis of `setActive` in closed form. -/
theorem setActiveCount_eq (vertexStart vertexEnd lo hi : Int) :
    setActiveCount vertexStart vertexEnd lo hi = min vertexEnd hi - max vertexStart lo := by
  unfold setActiveCount
  split_ifs <;> omega

/-- C26 (closed form of the case analysis of `setActive`): for every
`vertexStart`, `vertexEnd` and every shard `k < numShards` (the array
`nActiveShardMap` having `numShards` entries), with `lo = vertexShardMap[k]` and
`hi = vertexShardMap[k+1]`, `setActive` stores
`nActiveShardMap[k] = min(vertexEnd, hi) - max(vertexStart, lo)`, without clamping
at zero: the stored value is negative when `hi < vertexStart` and when
`vertexEnd < lo`; and one of the four tested conditions always holds, so the
final `else` branch that stores `0` is never taken. -/
theorem C26_setActive_closed_form (K : Kernels VD ED GR) (vertexStart vertexEnd : Int)
    (s : Engine VD ED GR) (k : Nat) (hk : k < s.numShards)
    (hlen : s.nActiveShardMap.length = s.numShards) :
    rdI (setActive K vertexStart vertexEnd s).nActiveShardMap k =
      min vertexEnd (rdN s.vertexShardMap (k + 1)) - max vertexStart (rdN s.vertexShardMap k) ∧
    ((rdN s.vertexShardMap (k + 1) : Int) < vertexStart →
      rdI (setActive K vertexStart vertexEnd s).nActiveShardMap k < 0) ∧
    (vertexEnd < (rdN s.vertexShardMap k : Int) →
      rdI (setActive K vertexStart vertexEnd s).nActiveShardMap k < 0) ∧
    ((vertexStart ≥ (rdN s.vertexShardMap k : Int) ∧
        vertexEnd ≤ (rdN s.vertexShardMap (k + 1) : Int)) ∨
      (vertexStart ≥ (rdN s.vertexShardMap k : Int) ∧
        vertexEnd > (rdN s.vertexShardMap (k + 1) : Int)) ∨
      (vertexStart < (rdN s.vertexShardMap k : Int) ∧
        vertexEnd ≤ (rdN s.vertexShardMap (k + 1) : Int)) ∨
      (vertexStart < (rdN s.vertexShardMap k : Int) ∧
        vertexEnd > (rdN s.vertexShardMap (k + 1) : Int))) := by
  have e : rdI (setActive K vertexStart vertexEnd s).nActiveShardMap k =
      setActiveCount vertexStart vertexEnd (rdN s.vertexShardMap k)
        (rdN s.vertexShardMap (k + 1)) := by
    show rdI (setActiveCounts vertexStart vertexEnd s.vertexShardMap s.numShards
      s.nActiveShardMap) k = _
    unfold setActiveCounts
    rw [rdI_setFold (fun i => setActiveCount vertexStart vertexEnd (rdN s.vertexShardMap i)
      (rdN s.vertexShardMap (i + 1))) s.numShards s.nActiveShardMap k,
      if_pos ⟨hk, by omega⟩]
  rw [e, setActiveCount_eq]
  refine ⟨rfl, ?_, ?_, ?_⟩
  · intro h
    omega
  · intro h
    omega
  · omega

/-- C26 on the four-cycle with `B = 3` (shards `[0,2)`, `[2,4)`, `[4,4)`), for
`setActive(0, 1)` and shard `1`: the stored count is `min(1,4) - max(0,2) = -1`. -/
theorem C26_setActive_closed_form_witness :
    (rdI (setActive (specKernels Int Unit Int) 0 1 (cycleEngine cyclePlan)).nActiveShardMap 1 =
      min (1 : Int) (rdN (cycleEngine cyclePlan).vertexShardMap (1 + 1)) -
        max (0 : Int) (rdN (cycleEngine cyclePlan).vertexShardMap 1) ∧
    ((rdN (cycleEngine cyclePlan).vertexShardMap (1 + 1) : Int) < 0 →
      rdI (setActive (specKernels Int Unit Int) 0 1 (cycleEngine cyclePlan)).nActiveShardMap 1
        < 0) ∧
    ((1 : Int) < (rdN (cycleEngine cyclePlan).vertexShardMap 1 : Int) →
      rdI (setActive (specKernels Int Unit Int) 0 1 (cycleEngine cyclePlan)).nActiveShardMap 1
        < 0) ∧
    (((0 : Int) ≥ (rdN (cycleEngine cyclePlan).vertexShardMap 1 : Int) ∧
        (1 : Int) ≤ (rdN (cycleEngine cyclePlan).vertexShardMap (1 + 1) : Int)) ∨
      ((0 : Int) ≥ (rdN (cycleEngine cyclePlan).vertexShardMap 1 : Int) ∧
        (1 : Int) > (rdN (cycleEngine cyclePlan).vertexShardMap (1 + 1) : Int)) ∨
      ((0 : Int) < (rdN (cycleEngine cyclePlan).vertexShardMap 1 : Int) ∧
        (1 : Int) ≤ (rdN (cycleEngine cyclePlan).vertexShardMap (1 + 1) : Int)) ∨
      ((0 : Int) < (rdN (cycleEngine cyclePlan).vertexShardMap 1 : Int) ∧
        (1 : Int) > (rdN (cycleEngine cyclePlan).vertexShardMap (1 + 1) : Int)))) ∧
    rdI (setActive (specKernels Int Unit Int) 0 1 (cycleEngine cyclePlan)).nActiveShardMap 1 =
      -1 :=
  ⟨C26_setActive_closed_form (specKernels Int Unit Int) 0 1 (cycleEngine cyclePlan) 1
    (by decide) (by decide), rfl⟩

/-- C28 (shard count and termination of the planner): for
non-decreasing offset arrays of `V + 1` entries and `B > 0`, without integer
overflow (`NoOverflow`: the budget line of line 1419 stays a value of the
machine type), the planning loop finishes, and it leaves `numShards = K` with
`K >= 1`, `W[V] <= K * B` and `(K - 1) * B < W[V]` when `K >= 2`, that is
`K = max(1, ceil(W[V] / B))`, where `W[V] = srcOffsets[V] + dstOffsets[V]`; the
count does not depend on how the weight is spread over the vertices, and a
shard without vertices can result (four-cycle with `B = 3`: `K = 3`, the last
shard is `[4,4)`). -/
theorem C28_shard_count (V : Nat) (src dst : List Int) (B : Int)
    (hsl : src.length = V + 1) (hdl : dst.length = V + 1)
    (hs : NonDecreasing src) (hd : NonDecreasing dst) (hB : 0 < B)
    (hov : NoOverflow (rdI src V + rdI dst V) B) :
    (∃ fuel p, setGraph fuel V src dst B = some p) ∧
    (∀ fuel p, setGraph fuel V src dst B = some p →
      1 ≤ p.numShards ∧
      rdI src V + rdI dst V ≤ (p.numShards : Int) * B ∧
      (2 ≤ p.numShards → ((p.numShards : Int) - 1) * B < rdI src V + rdI dst V) ∧
      (p.numShards : Int) = max 1 ⌈((rdI src V + rdI dst V : Int) : ℚ) / (B : ℚ)⌉ ∧
      (p.numShards : Int) = max 1 ((rdI src V + rdI dst V + B - 1) / B)) ∧
    (∃ p, setGraph 3 4 [0, 1, 2, 3, 4] [0, 1, 2, 3, 4] 3 = some p ∧ p.numShards = 3 ∧
      rdN p.vertexShardMap 2 = rdN p.vertexShardMap 3) := by
  refine ⟨setGraph_terminates hsl hdl hs hd hB hov, ?_, ⟨_, rfl, rfl, rfl⟩⟩
  intro fuel p h
  have f := setGraph_facts hsl hdl hs hd hB hov h
  obtain ⟨c1, c2⟩ := setGraph_count hsl hdl hs hd hB hov h
  have hBq : (0 : ℚ) < (B : ℚ) := by exact_mod_cast hB
  refine ⟨f.K_pos, c1, c2, ?_, ?_⟩
  · rcases Nat.lt_or_ge p.numShards 2 with hlt | hge
    · have hK : p.numShards = 1 := by have := f.K_pos; omega
      rw [hK] at c1 ⊢
      rw [max_eq_left]
      · rfl
      · rw [Int.ceil_le, div_le_iff₀ hBq]
        exact_mod_cast c1
    · have c2 := c2 hge
      have hc : ⌈((rdI src V + rdI dst V : Int) : ℚ) / (B : ℚ)⌉ = (p.numShards : Int) := by
        rw [Int.ceil_eq_iff]
        constructor
        · rw [lt_div_iff₀ hBq]
          exact_mod_cast c2
        · rw [div_le_iff₀ hBq]
          exact_mod_cast c1
      rw [hc, max_eq_right]
      exact_mod_cast f.K_pos
  · rcases Nat.lt_or_ge p.numShards 2 with hlt | hge
    · have hK : p.numShards = 1 := by have := f.K_pos; omega
      rw [hK] at c1 ⊢
      rw [max_eq_left]
      · rfl
      · have : (rdI src V + rdI dst V + B - 1) / B < 2 := by
          apply Int.ediv_lt_of_lt_mul hB
          push_cast at c1
          omega
        omega
    · have c2 := c2 hge
      have hc : (rdI src V + rdI dst V + B - 1) / B = (p.numShards : Int) := by
        apply le_antisymm
        · have : (rdI src V + rdI dst V + B - 1) / B < (p.numShards : Int) + 1 := by
            apply Int.ediv_lt_of_lt_mul hB
            have : ((p.numShards : Int) + 1) * B = (p.numShards : Int) * B + B := by ring
            omega
          omega
        · apply Int.le_ediv_of_mul_le hB
          have : ((p.numShards : Int) - 1) * B = (p.numShards : Int) * B - B := by ring
          omega
      rw [hc, max_eq_right]
      exact_mod_cast f.K_pos

/-- C28 at the four-cycle `0 -> 1 -> 2 -> 3 -> 0` with `B = 3`
(`W[V] = 8`, `K = 3`). -/
theorem C28_shard_count_witness :
    (∃ fuel p, setGraph fuel 4 [0, 1, 2, 3, 4] [0, 1, 2, 3, 4] 3 = some p) ∧
    (∀ fuel p, setGraph fuel 4 [0, 1, 2, 3, 4] [0, 1, 2, 3, 4] 3 = some p →
      1 ≤ p.numShards ∧
      rdI [0, 1, 2, 3, 4] 4 + rdI [0, 1, 2, 3, 4] 4 ≤ (p.numShards : Int) * 3 ∧
      (2 ≤ p.numShards →
        ((p.numShards : Int) - 1) * 3 < rdI [0, 1, 2, 3, 4] 4 + rdI [0, 1, 2, 3, 4] 4) ∧
      (p.numShards : Int) =
        max 1 ⌈((rdI [0, 1, 2, 3, 4] 4 + rdI [0, 1, 2, 3, 4] 4 : Int) : ℚ) / ((3 : Int) : ℚ)⌉ ∧
      (p.numShards : Int) =
        max 1 ((rdI [0, 1, 2, 3, 4] 4 + rdI [0, 1, 2, 3, 4] 4 + 3 - 1) / 3)) ∧
    (∃ p, setGraph 3 4 [0, 1, 2, 3, 4] [0, 1, 2, 3, 4] 3 = some p ∧ p.numShards = 3 ∧
      rdN p.vertexShardMap 2 = rdN p.vertexShardMap 3) :=
  C28_shard_count 4 [0, 1, 2, 3, 4] [0, 1, 2, 3, 4] 3 (by decide) (by decide)
    (by decide) (by decide) (by decide) (by decide)

theorem planWrites_succ (scan : List Int) (B : Int) (fuel : Nat) (st : PlanState) :
    planWrites scan B (fuel + 1) st =
      if upper_bound scan st.maxEdgesPerShardTmp ≠ scan.length then
        (planWrites scan B fuel (planRound scan B st)).map
          (fun ws => List.range' st.i (upper_bound scan st.maxEdgesPerShardTmp - st.i) ++ ws)
      else some (List.range' st.i (upper_bound scan st.maxEdgesPerShardTmp - st.i)) := rfl

/-- For a non-decreasing scan array of `V + 1` entries and `B > 0`, without
overflow of line 1419, the planning loop finishes, the last index it writes
is `V`, and it writes no index above `V`. -/
theorem planWrites_spec {scan : List Int} {B : Int} {V : Nat}
    (hlen : scan.length = V + 1) (hs : NonDecreasing scan) (hB : 0 < B)
    (hov : NoOverflow (rdI scan V) B) :
    ∀ (n : Nat) (st : PlanState), PlanInv scan B V st → st.i ≤ V →
      (1 ≤ st.numShards → (st.numShards : Int) * B < rdI scan V) →
      (rdI scan V - st.maxEdgesPerShardTmp).toNat ≤ n →
      ∃ fuel ws, planWrites scan B fuel st = some ws ∧ V ∈ ws ∧ ∀ i, i ∈ ws → i ≤ V := by
  have last : ∀ st : PlanState, st.i ≤ V →
      upper_bound scan st.maxEdgesPerShardTmp = scan.length →
      ∃ fuel ws, planWrites scan B fuel st = some ws ∧ V ∈ ws ∧ ∀ i, i ∈ ws → i ≤ V := by
    intro st hi hpos
    refine ⟨1, List.range' st.i (upper_bound scan st.maxEdgesPerShardTmp - st.i), ?_, ?_, ?_⟩
    · rw [planWrites_succ, if_neg (by simpa using hpos)]
    · rw [hpos, hlen, List.mem_range'_1]
      omega
    · intro i hmem
      rw [hpos, hlen, List.mem_range'_1] at hmem
      omega
  intro n
  induction n with
  | zero =>
    intro st _ hi _ hn
    apply last st hi
    obtain ⟨h1, h2, h3⟩ := upper_bound_spec scan st.maxEdgesPerShardTmp hs
    by_contra hne
    have hlt : upper_bound scan st.maxEdgesPerShardTmp < scan.length := by omega
    have ha := h3 _ (le_refl _) hlt
    have hb : rdI scan (upper_bound scan st.maxEdgesPerShardTmp) ≤ rdI scan V :=
      hs.rdI_le (by omega) (by omega)
    omega
  | succ n ih =>
    intro st inv hi hprev hn
    by_cases hpos : upper_bound scan st.maxEdgesPerShardTmp = scan.length
    · exact last st hi hpos
    · obtain ⟨h1, h2, h3⟩ := upper_bound_spec scan st.maxEdgesPerShardTmp hs
      have hfit := planInv_fit hB hov inv hprev
      have ht := inv.target
      have hnn : 0 ≤ ((st.numShards : Int) + 1) * B := by positivity
      have hw : (planRound scan B st).maxEdgesPerShardTmp = st.maxEdgesPerShardTmp + B := by
        simp only [planRound]
        exact wrapInt32_eq (by omega) hfit
      obtain ⟨fuel, ws, hr, hV, hall⟩ := ih (planRound scan B st)
        (planInv_round hlen hs hB inv hfit)
        (by simp only [planRound]; omega)
        (by
          intro _
          have hV := h3 V (by omega) (by omega)
          simp only [planRound]
          push_cast
          rw [ht] at hV
          exact hV)
        (by rw [hw]; omega)
      refine ⟨fuel + 1,
        List.range' st.i (upper_bound scan st.maxEdgesPerShardTmp - st.i) ++ ws, ?_, ?_, ?_⟩
      · rw [planWrites_succ, if_pos hpos, hr]
        rfl
      · exact List.mem_append_right _ hV
      · intro i hmem
        rcases List.mem_append.mp hmem with hm | hm
        · rw [List.mem_range'_1] at hm
          omega
        · exact hall i hm

/-- On every input with non-decreasing offsets and `B > 0`, without overflow
of line 1419, `setGraph` writes `shardMapTmp[V]`, one entry past the end of the
array of `V` entries, and no index beyond that. -/
theorem setGraphWrites_hits_end (V : Nat) (src dst : List Int) (B : Int)
    (hsl : src.length = V + 1) (hdl : dst.length = V + 1)
    (hs : NonDecreasing src) (hd : NonDecreasing dst) (hB : 0 < B)
    (hov : NoOverflow (rdI src V + rdI dst V) B) :
    ∃ fuel ws, setGraphWrites fuel V src dst B = some ws ∧ V ∈ ws ∧ ∀ i, i ∈ ws → i ≤ V :=
  planWrites_spec (length_scanArr V src dst) (nonDecreasing_scanArr V src dst hsl hdl hs hd) hB
    (noOverflow_scanArr hov) _ (planInit V B) (planInv_init _ B V) (Nat.zero_le _)
    (by intro h1; simp [planInit] at h1) (le_refl _)

/-- C29 (the planner's writes stay in bounds), evaluated on the
two-vertex graph with the edges `(0,1)` and `(1,0)` and `B = 3`: the planning
loop writes `shardMapTmp` at the indices `0, 1, 2`, and the array has `V = 2`
entries, so the write at index `2` is out of bounds. -/
theorem C29_write_out_of_bounds :
    setGraphWrites 2 2 [0, 1, 2] [0, 1, 2] 3 = some [0, 1, 2] ∧
    (∃ p, setGraph 2 2 [0, 1, 2] [0, 1, 2] 3 = some p ∧ p.shardMapTmp.length = 2) ∧
    ¬ (∀ i, i ∈ [0, 1, 2] → i < 2) :=
  ⟨rfl, ⟨_, rfl, rfl⟩, by decide⟩

end PlannerGuarantees

/-! ## Claims on the activation phase -/

section Activation

variable {VD ED GR : Type}

theorem rdI_activateOutput (fl : List Int) (x : Int) (d : Nat) :
    rdI (activateOutput fl x) d = if d < fl.length ∧ (d : Int) = x then 1 else rdI fl d := by
  unfold activateOutput
  by_cases hx : 0 ≤ x
  · rw [if_pos hx, rdI_set]
    by_cases h : x.toNat = d ∧ x.toNat < fl.length
    · rw [if_pos h, if_pos ⟨by omega, by omega⟩]
    · rw [if_neg h, if_neg (by omega)]
  · rw [if_neg hx, if_neg (by omega)]

theorem length_activateFold (L : List Int) : ∀ (fl : List Int),
    (L.foldl activateOutput fl).length = fl.length := by
  induction L with
  | nil => intro fl; rfl
  | cons x xs ih =>
    intro fl
    rw [List.foldl_cons, ih, length_activateOutput]

/-- Folding the output functor over a list of destination ids sets exactly
the flags of the ids in the list (that lie inside the array) to `1`. -/
theorem rdI_activateFold (L : List Int) : ∀ (fl : List Int) (d : Nat),
    rdI (L.foldl activateOutput fl) d =
      if d < fl.length ∧ (d : Int) ∈ L then 1 else rdI fl d := by
  induction L with
  | nil =>
    intro fl d
    simp
  | cons x xs ih =>
    intro fl d
    rw [List.foldl_cons, ih, length_activateOutput, rdI_activateOutput]
    by_cases h1 : d < fl.length
    · by_cases h2 : (d : Int) ∈ xs
      · rw [if_pos ⟨h1, h2⟩, if_pos ⟨h1, List.mem_cons_of_mem _ h2⟩]
      · rw [if_neg (fun h => h2 h.2)]
        by_cases h3 : (d : Int) = x
        · rw [if_pos ⟨h1, h3⟩, if_pos ⟨h1, by rw [h3]; exact List.mem_cons_self _ _⟩]
        · rw [if_neg (fun h => h3 h.2), if_neg]
          rintro ⟨_, hm⟩
          rcases List.mem_cons.mp hm with h | h
          · exact h3 h
          · exact h2 h
    · rw [if_neg (fun h => h1 h.1), if_neg (fun h => h1 h.1), if_neg (fun h => h1 h.1)]

theorem ext_rdI (l1 l2 : List Int) (hl : l1.length = l2.length)
    (h : ∀ d, d < l1.length → rdI l1 d = rdI l2 d) : l1 = l2 := by
  apply List.ext_getElem hl
  intro d h1 h2
  have := h d h1
  unfold rdI at this
  rw [List.getD_eq_getElem _ _ h1, List.getD_eq_getElem _ _ h2] at this
  exact this

theorem foldl_flatMap_activate (l : List Nat) (f : Nat → List Int) : ∀ (fl : List Int),
    l.foldl (fun fl i => (f i).foldl activateOutput fl) fl =
      (l.flatMap f).foldl activateOutput fl := by
  induction l with
  | nil => intro fl; rfl
  | cons i is ih =>
    intro fl
    rw [List.foldl_cons, List.flatMap_cons, List.foldl_append, ih]

/-- The length `IntervalGather` derives for interval `i` from the exclusive scan
of the counts and their total is the count `c i` itself. -/
theorem interval_length (c : Nat → Int) (n i : Nat) (hi : i < n) :
    (if i + 1 < n then rdI (exclScan ((List.range n).map c) 0) (i + 1)
      else scanTotal ((List.range n).map c)) -
      rdI (exclScan ((List.range n).map c) 0) i = c i := by
  have hscan : ∀ j, j < n →
      rdI (exclScan ((List.range n).map c) 0) j = ∑ t in Finset.range j, c t := by
    intro j hj
    rw [rdI_exclScan _ _ _ (by simpa using hj), zero_add]
    apply Finset.sum_congr rfl
    intro t ht
    exact rdI_map_range _ n t (by have := Finset.mem_range.mp ht; omega)
  rw [hscan i hi]
  by_cases h : i + 1 < n
  · rw [if_pos h, hscan (i + 1) h, Finset.sum_range_succ]
    ring
  · rw [if_neg h, scanTotal_eq_sum, sum_map_range]
    have e : n = i + 1 := by omega
    rw [e, Finset.sum_range_succ]
    ring

/-- The slot's `scatterActivate` is the fold of the output functor over the
destination ids of the active vertices' counted out-edges. -/
theorem shardScatterActivate_eq_fold (sl : Slot VD ED GR) (fl : List Int) (b : Bool) :
    shardScatterActivate sl fl b = (activatedDsts sl).foldl activateOutput fl := by
  unfold shardScatterActivate activatedDsts
  simp only
  split
  · rfl
  · unfold intervalGather
    rw [← foldl_flatMap_activate]
    apply List.foldl_ext
    intro a i hi
    have hi2 : i < sl.m_nActive.toNat := List.mem_range.mp hi
    simp only
    rw [interval_length _ _ i hi2, List.foldl_map]

theorem scatterStep_eq_fold (s : Engine VD ED GR) (b : Bool) (fl : List Int) (i : Nat) :
    scatterStep s b fl i = (stepDsts s i).foldl activateOutput fl := by
  unfold scatterStep stepDsts
  split
  · exact shardScatterActivate_eq_fold _ _ _
  · rfl

theorem mem_activatedDsts (sl : Slot VD ED GR)
    (hc : ∀ i, i < sl.m_nActive.toNat →
      0 ≤ predicatedEdgeCount sl.m_dstOffsets sl.m_active sl.m_applyRet i) (x : Int) :
    x ∈ activatedDsts sl ↔
      ∃ i e : Nat, i < sl.m_nActive.toNat ∧
        (e : Int) < predicatedEdgeCount sl.m_dstOffsets sl.m_active sl.m_applyRet i ∧
        rdZ sl.m_dsts (rdZ sl.m_dstOffsets (rdI sl.m_active i) + (e : Int)) = x := by
  unfold activatedDsts
  split
  · rename_i hT
    constructor
    · intro h
      simp at h
    · rintro ⟨i, e, hi, he, _⟩
      exfalso
      rw [scanTotal_eq_sum, sum_map_range] at hT
      have hz := (Finset.sum_eq_zero_iff_of_nonneg
        (fun t ht => hc t (Finset.mem_range.mp ht))).mp hT i (Finset.mem_range.mpr hi)
      omega
  · simp only [List.mem_flatMap, List.mem_map, List.mem_range, activateGather]
    constructor
    · rintro ⟨i, hi, e, he, rfl⟩
      exact ⟨i, e, hi, by omega, rfl⟩
    · rintro ⟨i, e, hi, he, rfl⟩
      exact ⟨i, hi, e, by omega, rfl⟩

/-- C21 (Phase A activation of one staged shard): let the predicated edge
counts of the `n` active positions of the staged slot be non-negative.  After
the slot's `scatterActivate` the flag array has its length, and for every
vertex `d` inside it, `activeFlags[d] = 1` if and only if it was `1` before or
`d = m_dsts[m_dstOffsets[a_i] + e]` for some active position `i < n` and some
`e < c_i`, with `a_i = m_active[i]` and `c_i` the predicated edge count; every
entry is `1` or what it was (no flag is reset to `0`); and when the total of
the counts is `0` the array is unchanged. -/
theorem C21_phaseA_one_shard (sl : Slot VD ED GR) (activeFlags : List Int)
    (haveScatter : Bool)
    (hc : ∀ i, i < sl.m_nActive.toNat →
      0 ≤ predicatedEdgeCount sl.m_dstOffsets sl.m_active sl.m_applyRet i) :
    (shardScatterActivate sl activeFlags haveScatter).length = activeFlags.length ∧
    (∀ d, d < activeFlags.length →
      (rdI (shardScatterActivate sl activeFlags haveScatter) d = 1 ↔
        rdI activeFlags d = 1 ∨
        ∃ i e : Nat, i < sl.m_nActive.toNat ∧
          (e : Int) < predicatedEdgeCount sl.m_dstOffsets sl.m_active sl.m_applyRet i ∧
          rdZ sl.m_dsts (rdZ sl.m_dstOffsets (rdI sl.m_active i) + (e : Int)) = (d : Int))) ∧
    (∀ d, rdI (shardScatterActivate sl activeFlags haveScatter) d = 1 ∨
      rdI (shardScatterActivate sl activeFlags haveScatter) d = rdI activeFlags d) ∧
    (scanTotal ((List.range sl.m_nActive.toNat).map
        (predicatedEdgeCount sl.m_dstOffsets sl.m_active sl.m_applyRet)) = 0 →
      shardScatterActivate sl activeFlags haveScatter = activeFlags) := by
  refine ⟨?_, ?_, ?_, ?_⟩
  · rw [shardScatterActivate_eq_fold, length_activateFold]
  · intro d hd
    rw [shardScatterActivate_eq_fold, rdI_activateFold, ← mem_activatedDsts sl hc]
    by_cases hm : (d : Int) ∈ activatedDsts sl
    · rw [if_pos ⟨hd, hm⟩]
      exact ⟨fun _ => Or.inr hm, fun _ => rfl⟩
    · rw [if_neg (fun h => hm h.2)]
      exact ⟨fun h => Or.inl h, fun h => h.elim id (fun h2 => absurd h2 hm)⟩
  · intro d
    rw [shardScatterActivate_eq_fold, rdI_activateFold]
    split
    · exact Or.inl rfl
    · exact Or.inr rfl
  · intro hT
    unfold shardScatterActivate
    simp only
    rw [if_pos hT]

/-- C21 on the staged slot of the two-vertex graph with the edge `1 -> 0`,
vertex `1` active with a set `applyRet` entry, and the flags `[0,0]`. -/
theorem C21_phaseA_one_shard_witness :
    (shardScatterActivate (copyGraphIn (pairState [1, 0]) 0) [0, 0] true).length =
      ([0, 0] : List Int).length ∧
    (∀ d, d < ([0, 0] : List Int).length →
      (rdI (shardScatterActivate (copyGraphIn (pairState [1, 0]) 0) [0, 0] true) d = 1 ↔
        rdI [0, 0] d = 1 ∨
        ∃ i e : Nat, i < (copyGraphIn (pairState [1, 0]) 0).m_nActive.toNat ∧
          (e : Int) < predicatedEdgeCount (copyGraphIn (pairState [1, 0]) 0).m_dstOffsets
            (copyGraphIn (pairState [1, 0]) 0).m_active
            (copyGraphIn (pairState [1, 0]) 0).m_applyRet i ∧
          rdZ (copyGraphIn (pairState [1, 0]) 0).m_dsts
            (rdZ (copyGraphIn (pairState [1, 0]) 0).m_dstOffsets
              (rdI (copyGraphIn (pairState [1, 0]) 0).m_active i) + (e : Int)) = (d : Int))) ∧
    (∀ d, rdI (shardScatterActivate (copyGraphIn (pairState [1, 0]) 0) [0, 0] true) d = 1 ∨
      rdI (shardScatterActivate (copyGraphIn (pairState [1, 0]) 0) [0, 0] true) d =
        rdI [0, 0] d) ∧
    (scanTotal ((List.range (copyGraphIn (pairState [1, 0]) 0).m_nActive.toNat).map
        (predicatedEdgeCount (copyGraphIn (pairState [1, 0]) 0).m_dstOffsets
          (copyGraphIn (pairState [1, 0]) 0).m_active
          (copyGraphIn (pairState [1, 0]) 0).m_applyRet)) = 0 →
      shardScatterActivate (copyGraphIn (pairState [1, 0]) 0) [0, 0] true = [0, 0]) :=
  C21_phaseA_one_shard (copyGraphIn (pairState [1, 0]) 0) [0, 0] true (by
    intro i hi
    have hi1 : i < 1 := hi
    have hi0 : i = 0 := by omega
    subst hi0
    decide)

/-- The sum of the first `n` entries of an array, entries outside it counting `0`. -/
theorem sum_take_getD : ∀ (n : Nat) (l : List Int),
    (l.take n).sum = ∑ t in Finset.range n, l.getD t 0 := by
  intro n
  induction n with
  | zero => intro l; simp
  | succ n ih =>
    intro l
    cases l with
    | nil => simp
    | cons x xs =>
      rw [List.take_succ_cons, List.sum_cons, ih, Finset.sum_range_succ']
      simp [add_comm]

/-- The total of the scan of a `0/1` flag array over `[a, b)` is the number
of set flags in that range. -/
theorem scanTotal_flags (fl : List Int) (hbits : AllBits fl) (a b : Nat) :
    scanTotal ((view fl (a : Int)).take (b - a)) =
      (((Finset.Ico a b).filter (fun v => rdI fl v = 1)).card : Int) := by
  rw [scanTotal_eq_sum, sum_take_getD, Finset.card_filter, Nat.cast_sum,
    Finset.sum_Ico_eq_sum_range]
  apply Finset.sum_congr rfl
  intro t _
  have e : (view fl (a : Int)).getD t 0 = rdI fl (a + t) := rdI_view fl a t
  rw [e]
  rcases hbits (a + t) with h | h
  · rw [h]
    simp
  · rw [h]
    simp

/-- C22 (Phase B per-shard counts): after `scatterActivate`, every entry of
`activeFlags` is `0` or `1`, and for every shard `k < numShards` (the array
`nActiveShardMap` having `numShards` entries), whether or not it had an active
vertex or owns a vertex, `nActiveShardMap[k]` is the number of vertices `v` in
`[vertexShardMap[k], vertexShardMap[k+1])` with `activeFlags[v] = 1`. -/
theorem C22_phaseB_counts (K : Kernels VD ED GR) (s : Engine VD ED GR) (haveScatter : Bool)
    (k : Nat) (hk : k < s.numShards) (hlen : s.nActiveShardMap.length = s.numShards) :
    (∀ v, rdI (scatterActivate K s haveScatter).activeFlags v = 0 ∨
      rdI (scatterActivate K s haveScatter).activeFlags v = 1) ∧
    rdI (scatterActivate K s haveScatter).nActiveShardMap k =
      (((Finset.Ico (rdN s.vertexShardMap k) (rdN s.vertexShardMap (k + 1))).filter
        (fun v => rdI (scatterActivate K s haveScatter).activeFlags v = 1)).card : Int) := by
  rw [scatterActivate_nActiveShardMap, scatterActivate_activeFlags, rdI_phaseB,
    if_pos ⟨hk, by omega⟩]
  exact ⟨allBits_phaseA s haveScatter,
    scanTotal_flags _ (allBits_phaseA s haveScatter) _ _⟩

/-- C22 on the two-vertex graph with the edge `1 -> 0`, vertex `1` active
with a set `applyRet` entry, at shard `0`. -/
theorem C22_phaseB_counts_witness :
    (∀ v, rdI (scatterActivate (specKernels Int Unit Int) (pairState [1, 0]) true).activeFlags v
        = 0 ∨
      rdI (scatterActivate (specKernels Int Unit Int) (pairState [1, 0]) true).activeFlags v
        = 1) ∧
    rdI (scatterActivate (specKernels Int Unit Int) (pairState [1, 0]) true).nActiveShardMap 0 =
      (((Finset.Ico (rdN (pairState [1, 0]).vertexShardMap 0)
          (rdN (pairState [1, 0]).vertexShardMap (0 + 1))).filter
        (fun v => rdI (scatterActivate (specKernels Int Unit Int) (pairState [1, 0])
          true).activeFlags v = 1)).card : Int) :=
  C22_phaseB_counts (specKernels Int Unit Int) (pairState [1, 0]) true 0 (by decide) (by decide)

/-- C23 (activation writes are idempotent and order-independent): every
Phase A write stores the constant `1`: a write of the output functor with the
destination `dst` leaves the length of `activeFlags`, sets `activeFlags[dst]` to
`1` when `dst` is an index of the array and changes no other entry, and the
activation of a shard sets exactly the flags of its destination ids to `1`
and leaves the others as they were.  So, for every engine state (active
list, `applyRet` and topology fixed), every flag array and shards `j`, `k`, the
activation of shard `j` followed by that of shard `k` yields the same
`activeFlags` as `k` followed by `j`, and the activation of a shard applied twice
yields the same `activeFlags` as applied once (also for the slot's
`scatterActivate` on any staged slot, and for two single writes). -/
theorem C23_activation_commutes (s : Engine VD ED GR) (haveScatter : Bool)
    (activeFlags : List Int) (j k : Nat) :
    (∀ (fl : List Int) (dst : Int),
      (activateOutput fl dst).length = fl.length ∧
      ∀ d : Nat, rdI (activateOutput fl dst) d =
        if d < fl.length ∧ (d : Int) = dst then 1 else rdI fl d) ∧
    ((scatterStep s haveScatter activeFlags k).length = activeFlags.length ∧
      ∀ d : Nat, rdI (scatterStep s haveScatter activeFlags k) d =
        if d < activeFlags.length ∧ (d : Int) ∈ stepDsts s k then 1 else rdI activeFlags d) ∧
    scatterStep s haveScatter (scatterStep s haveScatter activeFlags j) k =
      scatterStep s haveScatter (scatterStep s haveScatter activeFlags k) j ∧
    scatterStep s haveScatter (scatterStep s haveScatter activeFlags k) k =
      scatterStep s haveScatter activeFlags k ∧
    (∀ (sl : Slot VD ED GR),
      shardScatterActivate sl (shardScatterActivate sl activeFlags haveScatter) haveScatter =
        shardScatterActivate sl activeFlags haveScatter) ∧
    (∀ (fl : List Int) (d1 d2 : Int),
      activateOutput (activateOutput fl d1) d2 = activateOutput (activateOutput fl d2) d1 ∧
      activateOutput (activateOutput fl d1) d1 = activateOutput fl d1) := by
  have comm : ∀ (L1 L2 : List Int) (fl : List Int),
      L2.foldl activateOutput (L1.foldl activateOutput fl) =
        L1.foldl activateOutput (L2.foldl activateOutput fl) := by
    intro L1 L2 fl
    apply ext_rdI
    · simp only [length_activateFold]
    · intro d _
      simp only [rdI_activateFold, length_activateFold]
      by_cases h1 : d < fl.length ∧ (d : Int) ∈ L1 <;>
        by_cases h2 : d < fl.length ∧ (d : Int) ∈ L2 <;> simp [h1, h2]
  have idem : ∀ (L : List Int) (fl : List Int),
      L.foldl activateOutput (L.foldl activateOutput fl) = L.foldl activateOutput fl := by
    intro L fl
    apply ext_rdI
    · simp only [length_activateFold]
    · intro d _
      simp only [rdI_activateFold, length_activateFold]
      by_cases h1 : d < fl.length ∧ (d : Int) ∈ L <;> simp [h1]
  refine ⟨?_, ?_, ?_, ?_, ?_, ?_⟩
  · intro fl dst
    exact ⟨length_activateOutput fl dst, fun d => rdI_activateOutput fl dst d⟩
  · constructor
    · rw [scatterStep_eq_fold, length_activateFold]
    · intro d
      rw [scatterStep_eq_fold, rdI_activateFold]
  · simp only [scatterStep_eq_fold]
    exact comm _ _ _
  · simp only [scatterStep_eq_fold]
    exact idem _ _
  · intro sl
    simp only [shardScatterActivate_eq_fold]
    exact idem _ _
  · intro fl d1 d2
    exact ⟨comm [d1] [d2] fl, idem [d1] fl⟩

/-- The flag array after Phase A: the flags of the destination ids of all
shards are `1`, all others are `0`. -/
theorem rdI_phaseA (s : Engine VD ED GR) (b : Bool) (d : Nat) :
    rdI (phaseA s b) d =
      if d < s.nVertices ∧ (d : Int) ∈ (List.range s.numShards).flatMap (stepDsts s)
      then 1 else 0 := by
  unfold phaseA
  have e : scatterStep s b = fun fl i => (stepDsts s i).foldl activateOutput fl := by
    funext fl i
    exact scatterStep_eq_fold s b fl i
  rw [e, foldl_flatMap_activate, rdI_activateFold, List.length_replicate, rdI_replicate]

/-- C16 (phase opt-out), amended: `gather(haveGather = false)` leaves
`gatherTmp` and every other field of the engine unchanged.  `scatterActivate`
does not read `haveScatter`: `scatterActivate(false)` yields the same engine
state as `scatterActivate(true)`, and it is not skipped.  It clears
`activeFlags` and runs the activation of Phase A: afterwards `activeFlags` has
`nVertices` entries, each `0` or `1`, and `activeFlags[d] = 1` exactly for the
vertices `d < nVertices` that are a destination id of the activation of some
shard `k < numShards` (`stepDsts`: the ids the slot's `scatterActivate` hands to
the output functor, none for a shard with `nActiveShardMap[k] = 0`).  It
rebuilds the counts in Phase B: `nActiveShardMap[k]` becomes the number of set
flags in `[vertexShardMap[k], vertexShardMap[k+1])` for every shard `k` (the
array having an entry `k`), and `nActive` the number of set flags in
`[0, nVertices)`. -/
theorem C16_phase_opt_out (K : Kernels VD ED GR) (P : Program VD ED GR) (s : Engine VD ED GR) :
    gather K P s false = s ∧
    scatterActivate K s false = scatterActivate K s true ∧
    (scatterActivate K s false).activeFlags.length = s.nVertices ∧
    (∀ d : Nat,
      (rdI (scatterActivate K s false).activeFlags d = 0 ∨
        rdI (scatterActivate K s false).activeFlags d = 1) ∧
      (rdI (scatterActivate K s false).activeFlags d = 1 ↔
        d < s.nVertices ∧ ∃ k, k < s.numShards ∧ (d : Int) ∈ stepDsts s k)) ∧
    (∀ k, k < s.numShards → k < s.nActiveShardMap.length →
      rdI (scatterActivate K s false).nActiveShardMap k =
        (((Finset.Ico (rdN s.vertexShardMap k) (rdN s.vertexShardMap (k + 1))).filter
          (fun v => rdI (scatterActivate K s false).activeFlags v = 1)).card : Int)) ∧
    (scatterActivate K s false).nActive =
      (((Finset.range s.nVertices).filter
        (fun v => rdI (scatterActivate K s false).activeFlags v = 1)).card : Int) := by
  refine ⟨rfl, rfl, ?_, ?_, ?_, ?_⟩
  · rw [scatterActivate_activeFlags, length_phaseA]
  · intro d
    rw [scatterActivate_activeFlags]
    refine ⟨allBits_phaseA s false d, ?_⟩
    rw [rdI_phaseA]
    constructor
    · intro h
      by_cases hc : d < s.nVertices ∧
          (d : Int) ∈ (List.range s.numShards).flatMap (stepDsts s)
      · obtain ⟨hd, hm⟩ := hc
        obtain ⟨k, hk, hkm⟩ := List.mem_flatMap.mp hm
        exact ⟨hd, k, List.mem_range.mp hk, hkm⟩
      · rw [if_neg hc] at h
        exact absurd h (by decide)
    · rintro ⟨hd, k, hk, hkm⟩
      rw [if_pos ⟨hd, List.mem_flatMap.mpr ⟨k, List.mem_range.mpr hk, hkm⟩⟩]
  · intro k hk hk2
    rw [scatterActivate_nActiveShardMap, scatterActivate_activeFlags, rdI_phaseB,
      if_pos ⟨hk, hk2⟩]
    exact scanTotal_flags _ (allBits_phaseA s false) _ _
  · rw [scatterActivate_nActive, scatterActivate_activeFlags, card_filter_range]
    congr 2
    apply List.filter_congr
    intro v _
    rcases allBits_phaseA s false v with h | h
    · simp [h]
    · simp [h]

end Activation

/-! ## Claims on the sorting of the edge state and on the writers of Gather -/

section GatherWriters

variable {VD ED GR : Type}

/-- C25 (sequential edge-state read in Gather), evaluated on the graph on
four vertices with the edges `e0 = 0 -> 1`, `e1 = 0 -> 2`, `e2 = 0 -> 3`,
`e3 = 3 -> 0` (CSC order `e3, e0, e1, e2`), the edge states `100, 101, 102, 103` and
`sortEdgesForGather = true`: `setGraph` allocates `edgeIndexCSR` and leaves
`edgeIndexCSC` the null pointer, and the loop of line 1367 that is to put the
edge state into CSC order reads `edgeIndexCSC[0]` through that pointer.  The
run faults there, on this graph and on every graph with an edge, so the
edge state of which the claim speaks is never built.  (With
`sortEdgesForGather = false` the loop of line 1379 reads `edgeIndexCSR`, which
that mode leaves null.) -/
theorem C25_sort_reads_null_index :
    (allocEdgeIndex true 4).edgeIndexCSC = none ∧
    (allocEdgeIndex true 4).edgeIndexCSR = some [0, 0, 0, 0] ∧
    (fillEdgeIndex (allocEdgeIndex true 4) [3, 0, 1, 2] [0, 1, 2, 3]).edgeIndexCSC = none ∧
    sortEdgeData true 4 ([100, 101, 102, 103] : List Int) [3, 0, 1, 2] [0, 1, 2, 3] = none ∧
    (∀ (nEdges : Nat) (edgeDataHost : List Int) (cscIndex csrIndex : List Int), 0 < nEdges →
      sortEdgeData true nEdges edgeDataHost cscIndex csrIndex = none) ∧
    sortEdgeData false 4 ([100, 101, 102, 103] : List Int) [3, 0, 1, 2] [0, 1, 2, 3] = none := by
  refine ⟨rfl, rfl, rfl, rfl, ?_, rfl⟩
  intro nEdges edgeDataHost cscIndex csrIndex hn
  have hne : ¬ nEdges = 0 := by omega
  simp [sortEdgeData, allocEdgeIndex, fillEdgeIndex, sortLoop, hne]

/-- A run of pairs with one key adds at most one value to the output of the
segmented reduction. -/
theorem reduceByKeyAux_run_le (identity : GR) (op : GR → GR → GR) (k : Int)
    (tail : List (Int × GR)) (M : Nat)
    (hM : ∀ c a, (reduceByKeyAux identity op c a tail).length ≤ M) :
    ∀ (r : List (Int × GR)), (∀ p, p ∈ r → p.1 = k) → ∀ (cur : Int) (acc : GR),
      (reduceByKeyAux identity op cur acc (r ++ tail)).length ≤ M + 1 := by
  intro r hr cur acc
  by_cases hk : k = cur
  · subst hk
    rw [reduceByKeyAux_run identity op k r acc tail hr]
    exact le_trans (hM _ _) (Nat.le_succ _)
  · cases r with
    | nil =>
      simp only [List.nil_append]
      exact le_trans (hM _ _) (Nat.le_succ _)
    | cons p r2 =>
      obtain ⟨k2, v⟩ := p
      have hk2 : k2 = k := hr (k2, v) (List.mem_cons_self _ _)
      subst hk2
      simp only [List.cons_append, reduceByKeyAux, if_neg hk, List.length_cons, List.append_eq]
      rw [reduceByKeyAux_run identity op k2 r2 _ tail
        (fun q hq => hr q (List.mem_cons_of_mem _ hq))]
      exact Nat.succ_le_succ (hM _ _)

theorem length_reduceByKeyAux_le (identity : GR) (op : GR → GR → GR)
    (block : Nat → List (Int × GR)) (key : Nat → Int) :
    ∀ (n s : Nat), (∀ i, s ≤ i → i < s + n → ∀ p, p ∈ block i → p.1 = key i) →
      ∀ (cur : Int) (acc : GR),
      (reduceByKeyAux identity op cur acc ((List.range' s n).flatMap block)).length ≤ n + 1 := by
  intro n
  induction n with
  | zero =>
    intro s _ cur acc
    simp [reduceByKeyAux]
  | succ n ih =>
    intro s hb cur acc
    rw [List.range'_succ, List.flatMap_cons]
    exact reduceByKeyAux_run_le identity op (key s) _ (n + 1)
      (fun c a => ih (s + 1) (fun i h1 h2 => hb i (by omega) (by omega)) c a)
      (block s) (hb s (le_refl _) (by omega)) cur acc

/-- The primitive `ReduceByKey` over the pairs of `n` blocks of constant key writes at
most `n` values. -/
theorem length_reduceByKey_le (identity : GR) (op : GR → GR → GR)
    (block : Nat → List (Int × GR)) (key : Nat → Int) (n : Nat) (count : Int)
    (hb : ∀ i, i < n → ∀ p, p ∈ block i → p.1 = key i)
    (hcount : ((List.range n).flatMap block).length ≤ count.toNat) :
    (reduceByKey (((List.range n).flatMap block).map Prod.fst)
        (((List.range n).flatMap block).map Prod.snd) count identity op).length ≤ n := by
  unfold reduceByKey
  rw [zip_fst_snd, List.take_of_length_le hcount]
  have h := length_reduceByKeyAux_le identity op block key n 0
    (fun i _ h2 => hb i (by omega))
  rw [← List.range_eq_range'] at h
  cases hp : (List.range n).flatMap block with
  | nil => simp
  | cons p rest =>
    obtain ⟨k, v⟩ := p
    have h2 := h (k + 1) (op identity v)
    rw [hp] at h2
    simp only [reduceByKeyAux, if_neg (show ¬ k = k + 1 by omega), List.length_cons] at h2
    simp only
    omega

theorem gatherStep_eq_writeAt (K : Kernels VD ED GR) (P : Program VD ED GR)
    (s : Engine VD ED GR) (g : List GR) (i : Nat) :
    gatherStep K P s g i = writeAt g (rdN s.vertexShardMap i) (gatherOut K P s i) := by
  unfold gatherStep gatherOut
  split
  · rfl
  · rfl

variable [Inhabited VD] [Inhabited ED]

/-- With the spec-modelled `kGatherMap`, the slot's Gather writes at most one
value per active position. -/
theorem length_shardGather_le (K : Kernels VD ED GR) (P : Program VD ED GR) (sort : Bool)
    (sl : Slot VD ED GR) (hK : K.kGatherMap = kGatherMapSpec) :
    (shardGather K P sort sl).length ≤ sl.m_nActive.toNat := by
  unfold shardGather
  rw [hK]
  simp only [kGatherMapSpec]
  have hlen := length_flatMap_int (slotBlock P sl (!sort))
    (edgeCount sl.m_srcOffsets sl.m_active) (List.range sl.m_nActive.toNat)
    (fun i _ => slotBlock_length P sl (!sort) i)
  have e := length_reduceByKey_le P.gatherZero P.gatherReduce (slotBlock P sl (!sort))
    (fun i => rdI sl.m_active i + sl.m_vertexOffset) sl.m_nActive.toNat
    (scanTotal ((List.range sl.m_nActive.toNat).map (edgeCount sl.m_srcOffsets sl.m_active)))
    (fun i _ => (slotBlock_keys P sl (!sort) i).2)
    (by rw [scanTotal_eq_sum, ← hlen]; omega)
  unfold slotBlock at e
  exact e

theorem writeAt_nil {α : Type} (a : List α) (off : Nat) : writeAt a off [] = a := rfl

/-- Writes to disjoint index ranges commute. -/
theorem writeAt_comm {α : Type} (g : List α) (a b : Nat) (X Y : List α)
    (h : a + X.length ≤ b ∨ b + Y.length ≤ a) :
    writeAt (writeAt g a X) b Y = writeAt (writeAt g b Y) a X := by
  apply List.ext_getElem?
  intro q
  simp only [getElem?_writeAt, length_writeAt]
  by_cases h1 : b ≤ q ∧ q < b + Y.length ∧ q < g.length
  · rw [if_pos h1, if_neg (by omega), if_pos h1]
  · rw [if_neg h1]
    by_cases h2 : a ≤ q ∧ q < a + X.length ∧ q < g.length
    · rw [if_pos h2, if_pos h2]
    · rw [if_neg h2, if_neg h2, if_neg h1]

theorem length_gatherOut_le (K : Kernels VD ED GR) (P : Program VD ED GR)
    (s : Engine VD ED GR) (hK : K.kGatherMap = kGatherMapSpec) (i : Nat) :
    (gatherOut K P s i).length ≤ (rdI s.nActiveShardMap i).toNat := by
  unfold gatherOut
  split
  · exact length_shardGather_le K P _ _ hK
  · simp

/-- C24 (Gather writers never overlap), with the kernel `kGatherMap` as the
specification describes it.  For every shard `k` that has no more active
entries than vertices (`nActiveShardMap[k] <= |V_k|`, in particular
`0 < nActiveShardMap[k] <= |V_k|`), the Gather pass of shard `k` keeps the length
of `gatherTmp` and leaves every entry outside
`[vertexShardMap[k], vertexShardMap[k+1])` as it was.  Hence, when the shard ranges
are ordered and every shard satisfies that bound, the passes of two different
shards commute, and processing the shards in any order (any permutation of
`0, .., K-1`) yields the `gatherTmp` of `gather()`. -/
theorem C24_gather_writers_disjoint (K : Kernels VD ED GR) (P : Program VD ED GR)
    (s : Engine VD ED GR) (hK : K.kGatherMap = kGatherMapSpec) :
    (∀ k, rdI s.nActiveShardMap k ≤
        (rdN s.vertexShardMap (k + 1) : Int) - rdN s.vertexShardMap k →
      ∀ (g : List GR) (q : Nat),
      (gatherStep K P s g k).length = g.length ∧
      (¬ (rdN s.vertexShardMap k ≤ q ∧ q < rdN s.vertexShardMap (k + 1)) →
        (gatherStep K P s g k)[q]? = g[q]?)) ∧
    ((∀ k, k < s.numShards → rdN s.vertexShardMap k ≤ rdN s.vertexShardMap (k + 1)) →
      (∀ k, k < s.numShards →
        rdI s.nActiveShardMap k ≤
          (rdN s.vertexShardMap (k + 1) : Int) - rdN s.vertexShardMap k) →
      (∀ j k, j < s.numShards → k < s.numShards → j ≠ k → ∀ (g : List GR),
        gatherStep K P s (gatherStep K P s g j) k =
          gatherStep K P s (gatherStep K P s g k) j) ∧
      (∀ l : List Nat, l.Perm (List.range s.numShards) →
        l.foldl (gatherStep K P s) (List.replicate s.nVertices P.zeroBytes) =
          (gather K P s true).gatherTmp)) := by
  have hlen : ∀ k, rdI s.nActiveShardMap k ≤
        (rdN s.vertexShardMap (k + 1) : Int) - rdN s.vertexShardMap k →
      (gatherOut K P s k).length = 0 ∨
      rdN s.vertexShardMap k + (gatherOut K P s k).length ≤ rdN s.vertexShardMap (k + 1) := by
    intro k h2
    have h1 := length_gatherOut_le K P s hK k
    omega
  constructor
  · intro k hk g q
    rw [gatherStep_eq_writeAt]
    refine ⟨length_writeAt _ _ _, ?_⟩
    intro hq
    rw [getElem?_writeAt, if_neg]
    have := hlen k hk
    omega
  · intro hmono hn
    have chain := vsm_chain s.vertexShardMap s.numShards hmono
    have comm : ∀ j k, j < s.numShards → k < s.numShards → j ≠ k → ∀ (g : List GR),
        gatherStep K P s (gatherStep K P s g j) k =
          gatherStep K P s (gatherStep K P s g k) j := by
      intro j k hj hk hjk g
      simp only [gatherStep_eq_writeAt]
      apply writeAt_comm
      have hj2 := hlen j (hn j hj)
      have hk2 := hlen k (hn k hk)
      have hmj := hmono j hj
      have hmk := hmono k hk
      rcases Nat.lt_or_gt_of_ne hjk with h | h
      · left
        have := chain (j + 1) k (by omega) (by omega)
        omega
      · right
        have := chain (k + 1) j (by omega) (by omega)
        omega
    refine ⟨comm, ?_⟩
    intro l hl
    have hmem : ∀ x, x ∈ l → x < s.numShards := by
      intro x hx
      exact List.mem_range.mp (hl.mem_iff.mp hx)
    have e := List.Perm.foldl_eq' hl (fun x hx y hy z => by
      by_cases hxy : x = y
      · subst hxy
        rfl
      · exact comm x y (hmem x hx) (hmem y hy) hxy z)
      (List.replicate s.nVertices P.zeroBytes)
    rw [e]
    unfold gather
    rw [if_pos rfl]

/-- C24 on the four-cycle with `B = 3` (shards `[0,2)`, `[2,4)`, `[4,4)`) with all
four vertices active (per-shard counts `2, 2, 0`): the pass of shard `1` writes
inside `[2,4)` only, the passes commute, and every order of the shards yields
the `gatherTmp` of `gather()`, which holds the states of the in-neighbours. -/
theorem C24_gather_writers_disjoint_witness :
    (∀ (g : List Int) (q : Nat),
      (gatherStep (specKernels Int Unit Int) (sumProgram true) cycleActiveState g 1).length =
        g.length ∧
      (¬ (rdN cycleActiveState.vertexShardMap 1 ≤ q ∧
          q < rdN cycleActiveState.vertexShardMap (1 + 1)) →
        (gatherStep (specKernels Int Unit Int) (sumProgram true) cycleActiveState g 1)[q]? =
          g[q]?)) ∧
    ((∀ j k, j < cycleActiveState.numShards → k < cycleActiveState.numShards → j ≠ k →
      ∀ (g : List Int),
      gatherStep (specKernels Int Unit Int) (sumProgram true) cycleActiveState
          (gatherStep (specKernels Int Unit Int) (sumProgram true) cycleActiveState g j) k =
        gatherStep (specKernels Int Unit Int) (sumProgram true) cycleActiveState
          (gatherStep (specKernels Int Unit Int) (sumProgram true) cycleActiveState g k) j) ∧
    (∀ l : List Nat, l.Perm (List.range cycleActiveState.numShards) →
      l.foldl (gatherStep (specKernels Int Unit Int) (sumProgram true) cycleActiveState)
          (List.replicate cycleActiveState.nVertices (sumProgram true).zeroBytes) =
        (gather (specKernels Int Unit Int) (sumProgram true) cycleActiveState true).gatherTmp)) ∧
    cycleActiveState.nActiveShardMap = [2, 2, 0] ∧
    (gather (specKernels Int Unit Int) (sumProgram true) cycleActiveState true).gatherTmp =
      [40, 10, 20, 30] :=
  ⟨(C24_gather_writers_disjoint (specKernels Int Unit Int) (sumProgram true)
      cycleActiveState rfl).1 1 (by decide),
    (C24_gather_writers_disjoint (specKernels Int Unit Int) (sumProgram true)
      cycleActiveState rfl).2
      (by
        intro k hk
        have hk3 : k < 3 := hk
        interval_cases k <;> decide)
      (by
        intro k hk
        have hk3 : k < 3 := hk
        interval_cases k <;> decide),
    rfl, rfl⟩

end GatherWriters

end GraphReduce
